import Mathlib

/-!
# Chained error messages (ErrorHelpers.hpp / ErrorHelpers.cpp)

A shallow embedding of the `Erref` / `ErrorMsg` classes.

* `std::wstring` is a list of character units (`WString`); `size()` is the list length.
* `std::shared_ptr<ErrorMsg>` is an optional address into an explicit heap of nodes
  (`Erref`, `Heap`); `NULL` is `none`.  Nodes are never freed, so reference counts are
  not tracked.
* A method that mutates a node takes the heap and returns the new heap.
* A C++ loop that follows `chain_` links does not return on a cyclic chain; the embedding
  runs such a loop with as many steps as the heap has nodes (one more where the final
  `NULL` test is a step of its own) and yields `none` when they run out.  A walk that takes
  more steps than there are nodes visits a node twice and so never ends.
* `DWORD` values are natural numbers below `2^32`; `size_t` sums of string sizes do not
  wrap, they are plain natural numbers.
-/

namespace ErrorHelpers

/-- A wide string: the sequence of its character units. -/
abbrev WString := List Char

/-- The class `ErrorMsg::Source`: the name and the MUI module handle (`none` is `NULL`). -/
structure Source where
  name_ : WString
  muiModule_ : Option Nat
deriving DecidableEq, Repr

/-- The data members of `ErrorMsg`; `chain_` is the address of the chained node. -/
structure ErrorMsg where
  source_ : Option Source
  code_ : Nat
  msg_ : WString
  chain_ : Option Nat
deriving DecidableEq, Repr

/-- The handle `Erref`: `none` is the empty (NULL) reference, `some a` refers to node `a`. -/
abbrev Erref := Option Nat

/-- The nodes that exist, by address. -/
abbrev Heap := List ErrorMsg

/-- The assignment `node->chain_ = c` on the node at address `a`. -/
def setChain (hp : Heap) (a : Nat) (c : Erref) : Option Heap :=
  match hp[a]? with
  | none => none
  | some m => some (hp.set a { m with chain_ := c })

/-- The loop `for (; eit->chain_; eit = eit->chain_) {}` started at node `a`: the address of
the node whose `chain_` is NULL. -/
def walkToLast (hp : Heap) : Nat → Nat → Option Nat
  | 0, _ => none
  | fuel + 1, a =>
    match hp[a]? with
    | none => none
    | some m =>
      match m.chain_ with
      | none => some a
      | some b => walkToLast hp fuel b

/-- The method `Erref::splice`: the new heap and the new value of `*this`. -/
def splice (hp : Heap) (self other : Erref) : Option (Heap × Erref) :=
  match other with
  | none => some (hp, self)
  | some o =>
    match self with
    | none => some (hp, some o)
    | some s =>
      match hp[s]? with
      | none => none
      | some msg =>
        match msg.chain_ with
        | none =>
          match setChain hp s (some o) with
          | none => none
          | some hp1 => some (hp1, some s)
        | some oldChain =>
          match setChain hp s (some o) with
          | none => none
          | some hp1 =>
            match walkToLast hp1 hp1.length o with
            | none => none
            | some eit =>
              match setChain hp1 eit (some oldChain) with
              | none => none
              | some hp2 => some (hp2, some s)

/-- The method `Erref::append`. -/
def append (hp : Heap) (self other : Erref) : Option (Heap × Erref) :=
  match other with
  | none => some (hp, self)
  | some o =>
    match self with
    | none => some (hp, some o)
    | some s =>
      match walkToLast hp hp.length s with
      | none => none
      | some eit =>
        match setChain hp eit (some o) with
        | none => none
        | some hp1 => some (hp1, some s)

/-- The method `Erref::wrap`: `dup = other; dup.splice(*this); *this = dup`. -/
def wrap (hp : Heap) (self other : Erref) : Option (Heap × Erref) :=
  let dup := other
  match splice hp dup self with
  | none => none
  | some (hp1, dup1) => some (hp1, dup1)

/-- The list `l` is the sequence of node addresses visited by following `chain_` from the
handle `p` down to the NULL link.  Such a list exists exactly when the chain is acyclic. -/
def isChain (hp : Heap) : Erref → List Nat → Bool
  | none, [] => true
  | some a, b :: l =>
    a == b &&
      (match hp[a]? with
       | none => false
       | some m => isChain hp m.chain_ l)
  | _, _ => false

/-- The fields of a node other than its link: source, code and message. -/
def payload (m : ErrorMsg) : Option Source × Nat × WString :=
  (m.source_, m.code_, m.msg_)

/-- The text appended by `wstrprintf(L":%d:0x%x: ", (code_ & 0x3FFFFFFF), code_)`: the masked
code in decimal and the whole code in lowercase hexadecimal. -/
def codeText (code : Nat) : WString :=
  ":".toList ++ Nat.toDigits 10 (code &&& 0x3FFFFFFF) ++ ":0x".toList ++ Nat.toDigits 16 code
    ++ ": ".toList

/-- The printing loop of `ErrorMsg::toString`, `for (err = this; err != NULL; err = err->chain_)`,
with the loop variables `err`, `outer` and `res`.  (The loop before it only computes the size
to reserve.) -/
def toStringLoop (hp : Heap) : Nat → Erref → Bool → WString → Option WString
  | 0, _, _, _ => none
  | _ + 1, none, _, res => some res
  | fuel + 1, some a, outer, res =>
    match hp[a]? with
    | none => none
    | some err =>
      let res1 := if !outer then res ++ "  ".toList else res
      let res2 :=
        match err.source_ with
        | none => res1 ++ "NT".toList
        | some src => res1 ++ src.name_
      let res3 := res2 ++ codeText err.code_
      let res4 := res3 ++ err.msg_
      let res5 := if res4.getLast? != some '\n' then res4 ++ "\n".toList else res4
      toStringLoop hp fuel err.chain_ false res5

/-- The method `ErrorMsg::toString` called on the node at address `this`. -/
def toString (hp : Heap) (this : Nat) : Option WString :=
  toStringLoop hp (hp.length + 1) (some this) true []

/-- The printing loop of `ErrorMsg::toLimitedString`,
`for (err = this; err != NULL; lasterr = err, err = err->chain_)`, with the loop variables
`err`, `lasterr`, `outer` and `res`; the result is the returned string and the value stored
in `next`. -/
def toLimitedStringLoop (hp : Heap) (limit : Nat) :
    Nat → Erref → Erref → Bool → WString → Option (WString × Erref)
  | 0, _, _, _, _ => none
  | _ + 1, none, _, _, res => some (res, none)
  | fuel + 1, some a, lasterr, outer, res =>
    match hp[a]? with
    | none => none
    | some err =>
      let prevsz := res.length
      let res1 := if !outer then res ++ "  ".toList else res
      let res2 :=
        match err.source_ with
        | none => res1 ++ "NT".toList
        | some src => res1 ++ src.name_
      let res3 := res2 ++ codeText err.code_
      if limit ≤ res3.length + err.msg_.length ∧ lasterr.isSome then
        match lasterr.bind (fun la => hp[la]?) with
        | none => none
        | some lastmsg => some (res3.take prevsz, lastmsg.chain_)
      else
        let res4 := res3 ++ err.msg_
        let res5 := if res4.getLast? != some '\n' then res4 ++ "\n".toList else res4
        toLimitedStringLoop hp limit fuel err.chain_ (some a) false res5

/-- The method `ErrorMsg::toLimitedString(limit, next)` called on the node at address `this`:
the returned string and the handle stored in `next`. -/
def toLimitedString (hp : Heap) (this : Nat) (limit : Nat) : Option (WString × Erref) :=
  toLimitedStringLoop hp limit (hp.length + 1) (some this) none true []

/-- The paging loop `for (cur = err; cur; cur = next) { ... cur->toLimitedString(limit, next) ... }`
(as in `EtwLogger::logBodyInternalL`), run for at most the given number of calls: the strings
returned by the successive calls. -/
def limitedChunks (hp : Heap) (limit : Nat) : Nat → Erref → Option (List WString)
  | _, none => some []
  | 0, some _ => none
  | calls + 1, some cur =>
    match toLimitedString hp cur limit with
    | none => none
    | some (text, next) =>
      match limitedChunks hp limit calls next with
      | none => none
      | some rest => some (text :: rest)

/-- The function `ErrorMsg::mkCopy(const Erref &)` together with the copy constructor
`ErrorMsg(const ErrorMsg &)` it runs: the source, code and message are copied, the chain is
copied by the recursive call, and the new node gets a fresh address. -/
def mkCopy : Nat → Heap → Erref → Option (Heap × Erref)
  | _, hp, none => some (hp, none)
  | 0, _, some _ => none
  | fuel + 1, hp, some a =>
    match hp[a]? with
    | none => none
    | some orig =>
      match mkCopy fuel hp orig.chain_ with
      | none => none
      | some (hp1, c) =>
        some (hp1 ++ [{ source_ := orig.source_, code_ := orig.code_, msg_ := orig.msg_,
                        chain_ := c }], some hp1.length)

/-- The method `Erref::copy`. -/
def copy (hp : Heap) (self : Erref) : Option (Heap × Erref) :=
  mkCopy hp.length hp self

/-- The method `Erref::hasError`. -/
def hasError (hp : Heap) (self : Erref) : Option Bool :=
  match self with
  | none => some false
  | some a =>
    match hp[a]? with
    | none => none
    | some msg => some (msg.code_ != 0)

/-- The method `Erref::getCode`. -/
def getCode (hp : Heap) (self : Erref) : Option Nat :=
  match self with
  | none => some 0
  | some a =>
    match hp[a]? with
    | none => none
    | some msg => some msg.code_

/-- The method `Erref::getChain`. -/
def getChain (hp : Heap) (self : Erref) : Option Erref :=
  match self with
  | none => some none
  | some a =>
    match hp[a]? with
    | none => none
    | some msg => some msg.chain_

/-- The method `Erref::getChainCode`. -/
def getChainCode (hp : Heap) (self : Erref) : Option Nat :=
  match self with
  | none => some 0
  | some a =>
    match hp[a]? with
    | none => none
    | some msg =>
      match msg.chain_ with
      | none => some 0
      | some b =>
        match hp[b]? with
        | none => none
        | some msg2 => some msg2.code_

/-- The nodes stored at the addresses of `l`, in order. -/
def nodesOf (hp : Heap) (l : List Nat) : List ErrorMsg :=
  l.filterMap (fun a => hp[a]?)

/-- The rendering of one node as the specification words it: two spaces unless it is the
first node, the source name or `NT`, a colon, the code masked with `0x3FFFFFFF` in decimal,
`:0x`, the whole code in lowercase hexadecimal, a colon and a space, the message, and a
newline unless the message already ends with one. -/
def renderNode (first : Bool) (m : ErrorMsg) : WString :=
  (if first then [] else "  ".toList)
    ++ (match m.source_ with
        | none => "NT".toList
        | some s => s.name_)
    ++ ":".toList ++ Nat.toDigits 10 (m.code_ &&& 0x3FFFFFFF)
    ++ ":0x".toList ++ Nat.toDigits 16 m.code_
    ++ ": ".toList ++ m.msg_
    ++ (if m.msg_.getLast? = some '\n' then [] else "\n".toList)

/-- The concatenation, over the nodes in order, of one rendering per node; only the first
node of the whole sequence is rendered as a first node. -/
def renderChain : Bool → List ErrorMsg → WString
  | _, [] => []
  | first, m :: ms => renderNode first m ++ renderChain false ms

/-- The part of the rendering of a node that comes before its message. -/
def nodeHead (first : Bool) (m : ErrorMsg) : WString :=
  (if first then [] else "  ".toList)
    ++ (match m.source_ with
        | none => "NT".toList
        | some s => s.name_)
    ++ ":".toList ++ Nat.toDigits 10 (m.code_ &&& 0x3FFFFFFF)
    ++ ":0x".toList ++ Nat.toDigits 16 m.code_
    ++ ": ".toList

/-- The renderings of the nodes, one per node, in order; only the first node of the whole
sequence is rendered as a first node. -/
def renderLines : Bool → List ErrorMsg → List WString
  | _, [] => []
  | first, m :: ms => renderNode first m :: renderLines false ms

/-- Splitting a text after each newline, with the characters of the current line so far. -/
def linesAux : WString → WString → List WString
  | _, [] => []
  | cur, c :: cs =>
    if c = '\n' then (cur ++ [c]) :: linesAux [] cs else linesAux (cur ++ [c]) cs

/-- The newline-terminated lines of a text, each with its newline. -/
def linesOf (s : WString) : List WString :=
  linesAux [] s

/-- The value of `res.size() + err->msg_.size()` that `toLimitedString` compares with the
limit at the node with index `j` (from 0) of the chain `ms`, when the nodes before it were
all rendered: the length of the text up to and including the message of that node, before
the newline that may follow it. -/
def pendingLength (ms : List ErrorMsg) (j : Nat) : Nat :=
  match ms[j]? with
  | none => 0
  | some m => (renderChain true (ms.take j)).length + (nodeHead (j == 0) m).length + m.msg_.length

/-- The number of further nodes that fit: the nodes of `ms` are taken, each rendered as a
dependent node, as long as the text of length `acc` so far, the head of the node and its
message stay shorter than the limit. -/
def fitCount (limit : Nat) : Nat → List ErrorMsg → Nat
  | _, [] => 0
  | acc, m :: ms =>
    if limit ≤ acc + (nodeHead false m).length + m.msg_.length then 0
    else fitCount limit (acc + (renderNode false m).length) ms + 1

/-! ### Example heaps -/

/-- Two chains without common nodes: `0 → 1` and `2 → 3`. -/
def hpTwoChains : Heap :=
  [ { source_ := none, code_ := 1, msg_ := "a".toList, chain_ := some 1 },
    { source_ := none, code_ := 2, msg_ := "b".toList, chain_ := none },
    { source_ := some ⟨"Widget".toList, none⟩, code_ := 3, msg_ := "c".toList, chain_ := some 3 },
    { source_ := none, code_ := 4, msg_ := "d".toList, chain_ := none } ]

/-- One node: source `Widget`, code 5, message `disk full`. -/
def hpWidget : Heap :=
  [ { source_ := some ⟨"Widget".toList, none⟩, code_ := 5, msg_ := "disk full".toList,
      chain_ := none } ]

/-- One node whose message has a line break in the middle. -/
def hpTwoLines : Heap :=
  [ { source_ := none, code_ := 1, msg_ := "a\nb".toList, chain_ := none } ]

/-- The heap `hpTwoChains` after `copy` of the chain `0 → 1`: the copy is `5 → 4`. -/
def hpCopied : Heap :=
  hpTwoChains ++
    [ { source_ := none, code_ := 2, msg_ := "b".toList, chain_ := none },
      { source_ := none, code_ := 1, msg_ := "a".toList, chain_ := some 4 } ]

/-- The heap `hpCopied` after the copy `5 → 4` is spliced into the original `0 → 1`. -/
def hpCopySpliced : Heap :=
  [ { source_ := none, code_ := 1, msg_ := "a".toList, chain_ := some 5 },
    { source_ := none, code_ := 2, msg_ := "b".toList, chain_ := none },
    { source_ := some ⟨"Widget".toList, none⟩, code_ := 3, msg_ := "c".toList, chain_ := some 3 },
    { source_ := none, code_ := 4, msg_ := "d".toList, chain_ := none },
    { source_ := none, code_ := 2, msg_ := "b".toList, chain_ := some 1 },
    { source_ := none, code_ := 1, msg_ := "a".toList, chain_ := some 4 } ]

/-- Two nodes of the source `Widget`: code 1 with the message `a`, and code 7 with a
message that ends with a newline (`b` and a newline).  Both renderings together are 34
characters long. -/
def hpNewlineEnd : Heap :=
  [ { source_ := some ⟨"Widget".toList, none⟩, code_ := 1, msg_ := "a".toList,
      chain_ := some 1 },
    { source_ := some ⟨"Widget".toList, none⟩, code_ := 7, msg_ := "b\n".toList,
      chain_ := none } ]

/-! ## The error constructors (ErrorHelpers.cpp)

What the constructors take from the operating system is a parameter (`Env`): the text that
`FormatMessageW` finds for a system code or in a MUI module, and the value of
`GetLastError()`.  The text that `vwstrprintf(fmt, args)` produces is an argument of the
constructor.  A node is built with the message it ends up with and gets the next free
address (`make_shared`).
-/

/-- The kinds of event descriptor that `EtwLogger::logBodyInternalL` chooses from. -/
inductive EventKind
  | ETWMSG_LOG_INST_ERROR2
  | ETWMSG_LOG_INST_WARNING2
  | ETWMSG_LOG_INST_INFO2
deriving DecidableEq, Repr

/-- One call of `EventWrite(h_, event, fcount, ddesc)`: the handle, the event descriptor and
the described fields: the text, the primary code, the count of codes and the codes. -/
structure EventRecord where
  handle : Option Nat
  event : EventKind
  fcount : Nat
  text : WString
  code : Nat
  count : Nat
  codes : List Nat
deriving DecidableEq, Repr

/-- The environment of the program.
* `sysMessage code`: the buffer that `FormatMessageW(FORMAT_MESSAGE_FROM_SYSTEM ...)` returns
  (`none` is `NULL`);
* `muiMessage module code args`: the result and the buffer of
  `FormatMessageW(FORMAT_MESSAGE_FROM_HMODULE ...)`;
* `getLastError`: the value of `GetLastError()`;
* `eventWrite n record`: the status that the `n`-th call of `EventWrite` (from 0) returns;
* `eventUnregister h`: the status that `EventUnregister(h)` returns;
* `eventRegister`: the status that `EventRegister` returns and the handle it stores;
* `logModule`: the MUI module handle of the static source `LogErrorSource`;
* the three `EPEM_` codes of the message manifest, which is not among the sources. -/
structure Env where
  sysMessage : Nat → Option WString
  muiMessage : Nat → Nat → List WString → Nat × Option WString
  getLastError : Nat
  eventWrite : Nat → EventRecord → Nat
  eventUnregister : Nat → Nat
  eventRegister : Nat × Option Nat
  logModule : Nat
  EPEM_LOG_EVENT_REGISTER_FAIL : Nat
  EPEM_LOG_EVENT_UNREGISTER_FAIL : Nat
  EPEM_LOG_EVENT_WRITE_FAIL : Nat

/-- The loop `while (msize > 0 && (msg_[msize - 1] == L'\n' || msg_[msize - 1] == L'\r'))
{ --msize; msg_.resize(msize); }`. -/
def trimLoop : Nat → WString → WString
  | 0, s => s
  | n + 1, s =>
    match s.getLast? with
    | none => s
    | some c => if c = '\n' ∨ c = '\r' then trimLoop n s.dropLast else s

/-- The trimming loop run on a whole message. -/
def trimTrailing (s : WString) : WString :=
  trimLoop s.length s

/-- The static `internalErrorSource`, a plain source named `ErrorMsg`. -/
def internalErrorSource : Source :=
  { name_ := "ErrorMsg".toList, muiModule_ := none }

/-- The value `ErrorMsg::OTHER`. -/
def OTHER : Nat := 1

/-- The value `InternalErrorSource::MODULE_LOAD_FAILURE`. -/
def MODULE_LOAD_FAILURE : Nat := OTHER + 1

/-- The value `InternalErrorSource::NO_MUI_HANDLE`. -/
def NO_MUI_HANDLE : Nat := MODULE_LOAD_FAILURE + 1

/-- The value `InternalErrorSource::MUST_USE_MUI`. -/
def MUST_USE_MUI : Nat := NO_MUI_HANDLE + 1

/-- The value `InternalErrorSource::MUI_NO_MESSAGE`. -/
def MUI_NO_MESSAGE : Nat := MUST_USE_MUI + 1

/-- The function `ErrorMsg::mkSystem(code)`. -/
def mkSystem (env : Env) (hp : Heap) (code : Nat) : Heap × Erref :=
  let text :=
    match env.sysMessage code with
    | some buf => buf
    | none => "[error text not found]".toList
  (hp ++ [{ source_ := none, code_ := code, msg_ := trimTrailing text, chain_ := none }],
    some hp.length)

/-- The part of `ErrorMsg::mkStringVa` before its test of `source->muiModule_`: the node with
the trimmed text. -/
def mkStringPlain (hp : Heap) (source : Source) (code : Nat) (text : WString) : Heap × Nat :=
  (hp ++ [{ source_ := some source, code_ := code, msg_ := trimTrailing text, chain_ := none }],
    hp.length)

/-- The text of `Internal error: used a plain-text error on the MUIsource '%ls'.` -/
def mustUseMuiText (name : WString) : WString :=
  "Internal error: used a plain-text error on the MUIsource '".toList ++ name ++ "'.".toList

/-- The function `ErrorMsg::mkStringVa(source, code, fmt, args)`, `text` being the formatted
text.  The nested `internalErrorSource.mkString` is on a plain source, so it only builds
its node. -/
def mkStringVa (hp : Heap) (source : Source) (code : Nat) (text : WString) :
    Option (Heap × Erref) :=
  let r := mkStringPlain hp source code text
  if source.muiModule_ ≠ none then
    let inner := mkStringPlain r.1 internalErrorSource MUST_USE_MUI (mustUseMuiText source.name_)
    splice inner.1 (some r.2) (some inner.2)
  else
    some (r.1, some r.2)

/-- The function `ErrorMsg::mkSystemVa(sysCode, source, appCode, fmt, args)`, `text` being
the formatted text. -/
def mkSystemVa (env : Env) (hp : Heap) (sysCode : Nat) (source : Source) (appCode : Nat)
    (text : WString) : Option (Heap × Erref) :=
  let err := hp.length
  let hp1 := hp ++ [{ source_ := some source, code_ := appCode, msg_ := text, chain_ := none }]
  let sys := mkSystem env hp1 sysCode
  match setChain sys.1 err sys.2 with
  | none => none
  | some hp2 =>
    if source.muiModule_ ≠ none then
      let inner := mkStringPlain hp2 internalErrorSource MUST_USE_MUI
        (mustUseMuiText source.name_)
      splice inner.1 (some err) (some inner.2)
    else
      some (hp2, some err)

/-- The text of `Internal error: attempted to use a MUI error reporting on the source '%ls'
without MUI support.` -/
def noMuiHandleText (name : WString) : WString :=
  "Internal error: attempted to use a MUI error reporting on the source '".toList ++ name
    ++ "' without MUI support.".toList

/-- The text of `Internal error: cannot find a MUI message for source '%ls' code 0x%x.` -/
def muiNoMessageText (name : WString) (code : Nat) : WString :=
  "Internal error: cannot find a MUI message for source '".toList ++ name
    ++ "' code 0x".toList ++ Nat.toDigits 16 code ++ ".".toList

/-- The message that `mkMuiVa` stores: the trimmed buffer `if (buf != NULL)`, and the empty
message of the new node otherwise. -/
def muiStored (buf : Option WString) : WString :=
  match buf with
  | none => []
  | some text => trimTrailing text

/-- The function `ErrorMsg::mkMuiVa(source, code, args)`. -/
def mkMuiVa (env : Env) (hp : Heap) (source : Source) (code : Nat) (args : List WString) :
    Option (Heap × Erref) :=
  let err := hp.length
  match source.muiModule_ with
  | none =>
    let hp1 := hp ++ [{ source_ := some source, code_ := code, msg_ := [], chain_ := none }]
    match mkStringVa hp1 internalErrorSource NO_MUI_HANDLE (noMuiHandleText source.name_) with
    | none => none
    | some (hp2, inner) => splice hp2 (some err) inner
  | some module =>
    let fm := env.muiMessage module code args
    let hp1 := hp ++ [{ source_ := some source, code_ := code, msg_ := muiStored fm.2,
                        chain_ := none }]
    if fm.1 = 0 then
      match mkSystemVa env hp1 env.getLastError internalErrorSource MUI_NO_MESSAGE
          (muiNoMessageText source.name_ code) with
      | none => none
      | some (hp2, inner) => splice hp2 (some err) inner
    else
      some (hp1, some err)

/-- The function `ErrorMsg::mkMuiSystemVa(sysCode, source, appCode, args)`. -/
def mkMuiSystemVa (env : Env) (hp : Heap) (sysCode : Nat) (source : Source) (appCode : Nat)
    (args : List WString) : Option (Heap × Erref) :=
  match mkMuiVa env hp source appCode args with
  | none => none
  | some (hp1, err) =>
    let sys := mkSystem env hp1 sysCode
    splice sys.1 err sys.2

/-- The method `Erref::printAndExitOnError`: the text on the standard output afterwards and the
exit status, `none` when the call returns.  `wprintf(L"%ls", s.c_str())` appends the text
`s` to the standard output. -/
def printAndExitOnError (hp : Heap) (out : WString) (self : Erref) :
    Option (WString × Option Nat) :=
  match hasError hp self with
  | none => none
  | some false => some (out, none)
  | some true =>
    match self with
    | none => none
    | some a =>
      match toString hp a with
      | none => none
      | some s => some (out ++ s, some 1)

/-! ## The loggers (Logger.hpp / Logger.cpp)

The state outside of the logger object is the `World`: the heap of error nodes and the
calls of `EventWrite` made so far.  A method of a logger takes the world and the object
and returns both.  The lock `cr_` is not modelled: each method runs as one step.
-/

/-- The enumeration `Logger::Severity`. -/
inductive Severity
  | SV_DEBUG
  | SV_VERBOSE
  | SV_INFO
  | SV_WARNING
  | SV_ERROR
  | SV_NEVER
deriving DecidableEq, Repr

/-- The integer value of a severity, by which severities are compared. -/
def Severity.toNat : Severity → Nat
  | .SV_DEBUG => 0
  | .SV_VERBOSE => 1
  | .SV_INFO => 2
  | .SV_WARNING => 3
  | .SV_ERROR => 4
  | .SV_NEVER => 5

/-- The class `LogEntity`. -/
structure LogEntity where
  name_ : WString
deriving DecidableEq, Repr

/-- The data member of the class `Logger`. -/
structure Logger where
  minSeverity_ : Severity
deriving DecidableEq, Repr

/-- The structure `EtwLogger::BacklogEntry`. -/
structure BacklogEntry where
  err_ : Erref
  sev_ : Severity
  entity_ : Option LogEntity
deriving DecidableEq, Repr

/-- The data members of the class `EtwLogger` (`h_` is `none` for `NULL`). -/
structure EtwLogger extends Logger where
  guidName_ : WString
  h_ : Option Nat
  err_ : Erref
  origMinSeverity_ : Severity
  backlog_ : List BacklogEntry
  enabled_ : Bool
deriving DecidableEq, Repr

/-- The state outside of the logger: the heap and the calls of `EventWrite` so far. -/
structure World where
  hp : Heap
  emitted : List EventRecord
deriving DecidableEq, Repr

/-- The value `EtwLogger::STRING_LIMIT`. -/
def STRING_LIMIT : Nat := 5 * 1000

/-- The value `EtwLogger::MSG_FIELD_LIMIT`. -/
def MSG_FIELD_LIMIT : Nat := 100

/-- The value `EtwLogger::BACKLOG_LIMIT`. -/
def BACKLOG_LIMIT : Nat := 4096

/-- The value `EVENT_CONTROL_CODE_DISABLE_PROVIDER`. -/
def EVENT_CONTROL_CODE_DISABLE_PROVIDER : Nat := 0

/-- The value `EVENT_CONTROL_CODE_ENABLE_PROVIDER`. -/
def EVENT_CONTROL_CODE_ENABLE_PROVIDER : Nat := 1

/-- The value `TRACE_LEVEL_CRITICAL`. -/
def TRACE_LEVEL_CRITICAL : Nat := 1

/-- The value `TRACE_LEVEL_ERROR`. -/
def TRACE_LEVEL_ERROR : Nat := 2

/-- The value `TRACE_LEVEL_WARNING`. -/
def TRACE_LEVEL_WARNING : Nat := 3

/-- The value `TRACE_LEVEL_INFORMATION`. -/
def TRACE_LEVEL_INFORMATION : Nat := 4

/-- The value `TRACE_LEVEL_VERBOSE`. -/
def TRACE_LEVEL_VERBOSE : Nat := 5

/-- The Windows value of `STATUS_SUCCESS`. -/
def STATUS_SUCCESS : Nat := 0

/-- The Windows value of `ERROR_ARITHMETIC_OVERFLOW`. -/
def ERROR_ARITHMETIC_OVERFLOW : Nat := 534

/-- The Windows value of `ERROR_MORE_DATA`. -/
def ERROR_MORE_DATA : Nat := 234

/-- The Windows value of `ERROR_NOT_ENOUGH_MEMORY`. -/
def ERROR_NOT_ENOUGH_MEMORY : Nat := 8

/-- The Windows value of `STATUS_LOG_FILE_FULL`. -/
def STATUS_LOG_FILE_FULL : Nat := 0xC0000188

/-- The method `Logger::log` on a pointer `this` that may be `NULL`; `logBody` is the
implementation of the subclass. -/
def Logger.log {σ : Type}
    (logBody : World → σ → Erref → Severity → Option LogEntity → Option (World × σ))
    (w : World) (this : Option σ) (err : Erref) (sev : Severity) (entity : Option LogEntity) :
    Option (World × Option σ) :=
  match this, err with
  | some obj, some e =>
    match logBody w obj (some e) sev entity with
    | none => none
    | some (w1, obj1) => some (w1, some obj1)
  | _, _ => some (w, this)

/-- The method `Logger::poll` of the base class. -/
def Logger.poll {σ : Type} (w : World) (this : σ) : World × σ :=
  (w, this)

/-- The method `Logger::getMinSeverity` on a pointer `this` that may be `NULL`. -/
def Logger.getMinSeverity (this : Option Logger) : Severity :=
  match this with
  | none => .SV_NEVER
  | some obj => obj.minSeverity_

/-- The method `Logger::allowsSeverity` on a pointer `this` that may be `NULL`. -/
def Logger.allowsSeverity (this : Option Logger) (sv : Severity) : Bool :=
  match this with
  | none => false
  | some obj => decide (obj.minSeverity_.toNat ≤ sv.toNat)

/-- The function `Logger::oneLetterSeverity`. -/
def Logger.oneLetterSeverity : Severity → Char
  | .SV_DEBUG => 'D'
  | .SV_VERBOSE => 'V'
  | .SV_INFO => 'I'
  | .SV_WARNING => 'W'
  | .SV_ERROR => 'E'
  | .SV_NEVER => '?'

/-- The static source `LogErrorSource`, a MUI source named `Service`. -/
def LogErrorSource (env : Env) : Source :=
  { name_ := "Service".toList, muiModule_ := some env.logModule }

/-- The constructor `EtwLogger::EtwLogger(guid, minSeverity)`, `guidName` being the text of
`strFromGuid(*guid)`. -/
def EtwLogger.construct (env : Env) (w : World) (guidName : WString) (minSeverity : Severity) :
    Option (World × EtwLogger) :=
  let this : EtwLogger :=
    { minSeverity_ := minSeverity, guidName_ := guidName, h_ := env.eventRegister.2,
      err_ := none, origMinSeverity_ := minSeverity, backlog_ := [], enabled_ := false }
  if env.eventRegister.1 ≠ STATUS_SUCCESS then
    match mkMuiSystemVa env w.hp env.eventRegister.1 (LogErrorSource env)
        env.EPEM_LOG_EVENT_REGISTER_FAIL [guidName] with
    | none => none
    | some (hp1, err) => some ({ w with hp := hp1 }, { this with err_ := err })
  else
    some (w, this)

/-- The method `EtwLogger::close`. -/
def EtwLogger.close (env : Env) (w : World) (this : EtwLogger) : Option (World × EtwLogger) :=
  match this.h_ with
  | none => some (w, this)
  | some h =>
    if env.eventUnregister h ≠ STATUS_SUCCESS then
      match mkMuiSystemVa env w.hp env.getLastError (LogErrorSource env)
          env.EPEM_LOG_EVENT_UNREGISTER_FAIL [this.guidName_] with
      | none => none
      | some (hp1, newerr) =>
        match append hp1 this.err_ newerr with
        | none => none
        | some (hp2, err2) =>
          some ({ w with hp := hp2 }, { this with err_ := err2, h_ := none, enabled_ := false })
    else
      some (w, { this with h_ := none, enabled_ := false })

/-- The event descriptor chosen by the `switch (sev)` of `logBodyInternalL`. -/
def EtwLogger.eventFor : Severity → EventKind
  | .SV_ERROR => .ETWMSG_LOG_INST_ERROR2
  | .SV_WARNING => .ETWMSG_LOG_INST_WARNING2
  | _ => .ETWMSG_LOG_INST_INFO2

/-- The loop `for (Erref eit = cur; eit != next && fcount < MSG_FIELD_LIMIT; eit = eit->chain_)`
of `logBodyInternalL`, with the number of free fields `MSG_FIELD_LIMIT - fcount`: the codes
stored in the fields. -/
def EtwLogger.codesLoop (hp : Heap) (next : Erref) : Nat → Erref → Option (List Nat)
  | 0, _ => some []
  | slots + 1, eit =>
    if eit = next then some []
    else
      match eit with
      | none => none
      | some a =>
        match hp[a]? with
        | none => none
        | some m =>
          match EtwLogger.codesLoop hp next slots m.chain_ with
          | none => none
          | some rest => some ((m.code_ &&& 0x3FFFFFFF) :: rest)

/-- One pass of the loop of `logBodyInternalL` up to the call of `EventWrite`: the record
passed to it and the new value of `next`. -/
def EtwLogger.buildRecord (hp : Heap) (h : Option Nat) (err : Erref) (sev : Severity)
    (cur : Nat) (next : Erref) : Option (EventRecord × Erref) :=
  let text0 := [Logger.oneLetterSeverity sev, ' ']
  let text1 := if next.isSome then text0 ++ "(continued)\n  ".toList else text0
  match toLimitedString hp cur STRING_LIMIT with
  | none => none
  | some (chunk, next1) =>
    match getCode hp err with
    | none => none
    | some code =>
      match EtwLogger.codesLoop hp next1 (MSG_FIELD_LIMIT - 3) (some cur) with
      | none => none
      | some codes =>
        some ({ handle := h, event := EtwLogger.eventFor sev, fcount := 3 + codes.length,
                text := text1 ++ chunk, code := code &&& 0x3FFFFFFF, count := codes.length,
                codes := codes }, next1)

/-- The `switch (status)` of `logBodyInternalL`: the statuses after which logging goes on. -/
def EtwLogger.isTolerated (status : Nat) : Bool :=
  status == STATUS_SUCCESS || status == ERROR_ARITHMETIC_OVERFLOW || status == ERROR_MORE_DATA
    || status == ERROR_NOT_ENOUGH_MEMORY || status == STATUS_LOG_FILE_FULL

/-- The `default:` branch of the `switch (status)` of `logBodyInternalL`: the error is
appended to `err_` and the logger is closed. -/
def EtwLogger.writeFailed (env : Env) (w : World) (this : EtwLogger) (status : Nat) :
    Option (World × EtwLogger) :=
  match mkMuiSystemVa env w.hp status (LogErrorSource env) env.EPEM_LOG_EVENT_WRITE_FAIL
      [this.guidName_] with
  | none => none
  | some (hp1, newerr) =>
    match append hp1 this.err_ newerr with
    | none => none
    | some (hp2, err2) => EtwLogger.close env { w with hp := hp2 } { this with err_ := err2 }

/-- The loop `for (cur = err; cur; cur = next)` of `logBodyInternalL`, with the loop
variables `cur` and `next`. -/
def EtwLogger.logBodyInternalLoop (env : Env) (err : Erref) (sev : Severity) :
    Nat → World → EtwLogger → Erref → Erref → Option (World × EtwLogger)
  | 0, _, _, _, _ => none
  | _ + 1, w, this, none, _ => some (w, this)
  | fuel + 1, w, this, some cur, next =>
    match EtwLogger.buildRecord w.hp this.h_ err sev cur next with
    | none => none
    | some (record, next1) =>
      let status := env.eventWrite w.emitted.length record
      let w1 : World := { w with emitted := w.emitted ++ [record] }
      if EtwLogger.isTolerated status then
        EtwLogger.logBodyInternalLoop env err sev fuel w1 this next1 next1
      else
        EtwLogger.writeFailed env w1 this status

/-- The method `EtwLogger::logBodyInternalL`.  (The name of the entity is computed and not
used.) -/
def EtwLogger.logBodyInternalL (env : Env) (w : World) (this : EtwLogger) (err : Erref)
    (sev : Severity) (_entity : Option LogEntity) : Option (World × EtwLogger) :=
  EtwLogger.logBodyInternalLoop env err sev (w.hp.length + 1) w this err none

/-- The method `EtwLogger::processBacklogL`: the loop `while (!backlog_.empty())`. -/
def EtwLogger.processBacklogL (env : Env) : Nat → World → EtwLogger → Option (World × EtwLogger)
  | 0, _, _ => none
  | fuel + 1, w, this =>
    match this.backlog_ with
    | [] => some (w, this)
    | entry :: _ =>
      let r :=
        if this.h_ ≠ none then
          EtwLogger.logBodyInternalL env w this entry.err_ entry.sev_ entry.entity_
        else some (w, this)
      match r with
      | none => none
      | some (w1, this1) =>
        EtwLogger.processBacklogL env fuel w1 { this1 with backlog_ := this1.backlog_.tail }

/-- The loop `while (backlog_.size() > BACKLOG_LIMIT) backlog_.pop_front();`. -/
def EtwLogger.popExcess : Nat → List BacklogEntry → List BacklogEntry
  | 0, b => b
  | fuel + 1, b => if b.length > BACKLOG_LIMIT then EtwLogger.popExcess fuel b.tail else b

/-- The method `EtwLogger::logBody`. -/
def EtwLogger.logBody (env : Env) (w : World) (this : EtwLogger) (err : Erref) (sev : Severity)
    (entity : Option LogEntity) : Option (World × EtwLogger) :=
  if sev.toNat < this.minSeverity_.toNat ∨ this.h_ = none then some (w, this)
  else if this.enabled_ then
    match EtwLogger.processBacklogL env (this.backlog_.length + 1) w this with
    | none => none
    | some (w1, this1) => EtwLogger.logBodyInternalL env w1 this1 err sev entity
  else
    let pushed := this.backlog_ ++ [{ err_ := err, sev_ := sev, entity_ := entity }]
    some (w, { this with backlog_ := EtwLogger.popExcess pushed.length pushed })

/-- The method `Logger::log` called on a pointer to an `EtwLogger`. -/
def EtwLogger.log (env : Env) (w : World) (this : Option EtwLogger) (err : Erref)
    (sev : Severity) (entity : Option LogEntity) : Option (World × Option EtwLogger) :=
  Logger.log (EtwLogger.logBody env) w this err sev entity

/-- The method `EtwLogger::poll`. -/
def EtwLogger.poll (env : Env) (w : World) (this : EtwLogger) : Option (World × EtwLogger) :=
  if this.h_ = none ∨ this.enabled_ = false then some (w, this)
  else EtwLogger.processBacklogL env (this.backlog_.length + 1) w this

/-- The severity that the `switch (level)` of `EtwLogger::callback` selects. -/
def EtwLogger.levelSeverity (level : Nat) : Severity :=
  if level = TRACE_LEVEL_CRITICAL ∨ level = TRACE_LEVEL_ERROR then .SV_ERROR
  else if level = TRACE_LEVEL_WARNING then .SV_WARNING
  else if level = TRACE_LEVEL_INFORMATION then .SV_INFO
  else if level = TRACE_LEVEL_VERBOSE then .SV_VERBOSE
  else .SV_DEBUG

/-- The function `EtwLogger::callback` with the logger that `context` points to. -/
def EtwLogger.callback (isEnabled : Nat) (level : Nat) (logger : EtwLogger) : EtwLogger :=
  if isEnabled = EVENT_CONTROL_CODE_DISABLE_PROVIDER then
    { logger with enabled_ := false, minSeverity_ := .SV_NEVER }
  else if isEnabled = EVENT_CONTROL_CODE_ENABLE_PROVIDER then
    let mapped := EtwLogger.levelSeverity level
    if logger.origMinSeverity_.toNat > mapped.toNat then
      { logger with enabled_ := true, minSeverity_ := logger.origMinSeverity_ }
    else
      { logger with enabled_ := true, minSeverity_ := mapped }
  else
    logger

/-- The operations on a logger that the program and the environment can perform. -/
inductive LoggerOp
  | log (err : Erref) (sev : Severity) (entity : Option LogEntity)
  | poll
  | signal (isEnabled : Nat) (level : Nat)
  | close
deriving DecidableEq, Repr

/-- One operation on an `EtwLogger`. -/
def EtwLogger.step (env : Env) (w : World) (this : EtwLogger) : LoggerOp →
    Option (World × EtwLogger)
  | .log err sev entity =>
    match EtwLogger.log env w (some this) err sev entity with
    | some (w1, some this1) => some (w1, this1)
    | _ => none
  | .poll => EtwLogger.poll env w this
  | .signal isEnabled level => some (w, EtwLogger.callback isEnabled level this)
  | .close => EtwLogger.close env w this

/-- A sequence of operations on an `EtwLogger`, in order. -/
def EtwLogger.run (env : Env) : List LoggerOp → World → EtwLogger → Option (World × EtwLogger)
  | [], w, this => some (w, this)
  | op :: ops, w, this =>
    match EtwLogger.step env w this op with
    | none => none
    | some (w1, this1) => EtwLogger.run env ops w1 this1

/-- The records that `logBodyInternalL` passes to `EventWrite` for one error when every call
of `EventWrite` is tolerated: one record per chunk of the chain. -/
def EtwLogger.entryRecords (hp : Heap) (h : Option Nat) (err : Erref) (sev : Severity) :
    Nat → Erref → Erref → Option (List EventRecord)
  | 0, _, _ => none
  | _ + 1, none, _ => some []
  | fuel + 1, some cur, next =>
    match EtwLogger.buildRecord hp h err sev cur next with
    | none => none
    | some (record, next1) =>
      match EtwLogger.entryRecords hp h err sev fuel next1 next1 with
      | none => none
      | some rest => some (record :: rest)

/-- The records of one backlog entry. -/
def EtwLogger.recordsOf (hp : Heap) (h : Option Nat) (entry : BacklogEntry) :
    Option (List EventRecord) :=
  EtwLogger.entryRecords hp h entry.err_ entry.sev_ (hp.length + 1) entry.err_ none

/-! ### Example environments and loggers -/

/-- An environment in which every call succeeds. -/
def envOk : Env :=
  { sysMessage := fun _ => some "The system cannot find the file specified.\r\n".toList,
    muiMessage := fun _ _ _ => (1, some "Logging failed.\r\n".toList),
    getLastError := 0,
    eventWrite := fun _ _ => STATUS_SUCCESS,
    eventUnregister := fun _ => STATUS_SUCCESS,
    eventRegister := (STATUS_SUCCESS, some 7),
    logModule := 1,
    EPEM_LOG_EVENT_REGISTER_FAIL := 101,
    EPEM_LOG_EVENT_UNREGISTER_FAIL := 102,
    EPEM_LOG_EVENT_WRITE_FAIL := 103 }

/-- An environment in which every call of `EventWrite` returns the status 5 (access
denied), which is not among the tolerated ones. -/
def envWriteFails : Env :=
  { envOk with eventWrite := fun _ _ => 5 }

/-- Three single-node errors of severity Error, at the addresses 0, 1 and 2, and a fourth
at the address 3. -/
def hpFourErrors : Heap :=
  [ { source_ := some ⟨"Widget".toList, none⟩, code_ := 1, msg_ := "one".toList, chain_ := none },
    { source_ := some ⟨"Widget".toList, none⟩, code_ := 2, msg_ := "two".toList, chain_ := none },
    { source_ := some ⟨"Widget".toList, none⟩, code_ := 3, msg_ := "three".toList,
      chain_ := none },
    { source_ := some ⟨"Widget".toList, none⟩, code_ := 4, msg_ := "four".toList,
      chain_ := none } ]

/-- The world with the heap `hpFourErrors` before any call of `EventWrite`. -/
def worldFour : World :=
  { hp := hpFourErrors, emitted := [] }

/-- A logger as the constructor leaves it when `EventRegister` succeeds: open, disabled,
with an empty backlog. -/
def loggerNew (minSeverity : Severity) : EtwLogger :=
  { minSeverity_ := minSeverity, guidName_ := "guid".toList, h_ := some 7, err_ := none,
    origMinSeverity_ := minSeverity, backlog_ := [], enabled_ := false }

/-- One node with the code 0 and the message `nothing wrong`. -/
def hpCodeZero : Heap :=
  [ { source_ := some ⟨"Widget".toList, none⟩, code_ := 0, msg_ := "nothing wrong".toList,
      chain_ := none } ]

/-- The handle `p` has an acyclic chain in the heap `hp`. -/
def Acyclic (hp : Heap) (p : Erref) : Prop :=
  ∃ l, isChain hp p l = true

/-- The heap `hp1` keeps the nodes of `hp`, and the handle `p` has in `hp1` an acyclic chain
of nodes that `hp` does not have. -/
def FreshChain (hp hp1 : Heap) (p : Erref) : Prop :=
  (∀ x : Nat, x < hp.length → hp1[x]? = hp[x]?) ∧
    ∃ l, isChain hp1 p l = true ∧ ∀ x ∈ l, hp.length ≤ x

/-- The state of a sink after a fatal failure: closed, disabled, with a recorded error. -/
def EtwLogger.Failed (t : EtwLogger) : Prop :=
  t.h_ = none ∧ t.enabled_ = false ∧ t.err_ ≠ none

/-- What a logging call that started in `(w, this)` and ended in `(w1, t1)` did: it only
added calls of `EventWrite`; the recorded error is acyclic and the acyclic chains are still
acyclic; a failed sink stays failed; and either every status of the added calls was
tolerated and handle, enabled flag, recorded error and heap are unchanged, or the sink is
in the failed state. -/
def EtwLogger.Outcome (env : Env) (w : World) (this : EtwLogger) (w1 : World)
    (t1 : EtwLogger) : Prop :=
  (∃ recs, w1.emitted = w.emitted ++ recs) ∧
  Acyclic w1.hp t1.err_ ∧
  (∀ p, Acyclic w.hp p → Acyclic w1.hp p) ∧
  (EtwLogger.Failed this → EtwLogger.Failed t1) ∧
  (((∀ n r, w.emitted.length ≤ n → w1.emitted[n]? = some r →
        EtwLogger.isTolerated (env.eventWrite n r) = true) ∧
      t1.h_ = this.h_ ∧ t1.enabled_ = this.enabled_ ∧ t1.err_ = this.err_ ∧ w1.hp = w.hp) ∨
    EtwLogger.Failed t1)

/-- An open, enabled logger with the error at the address 0 on its backlog. -/
def loggerPending : EtwLogger :=
  { loggerNew .SV_INFO with enabled_ := true, backlog_ :=
      [{ err_ := some 0, sev_ := .SV_ERROR, entity_ := none }] }

/-- Two chains that share their last node: `0 → 2` and `1 → 2`. -/
def hpSharedTail : Heap :=
  [ { source_ := none, code_ := 1, msg_ := "a".toList, chain_ := some 2 },
    { source_ := none, code_ := 2, msg_ := "b".toList, chain_ := some 2 },
    { source_ := none, code_ := 3, msg_ := "t".toList, chain_ := none } ]

/-- The text that `mkSystem(code)` trims and stores: the buffer of `FormatMessageW` when
there is one, and `[error text not found]` otherwise. -/
def systemText (env : Env) (code : Nat) : WString :=
  (env.sysMessage code).getD "[error text not found]".toList

/-- An environment in which `FormatMessageW` finds no message in a MUI module and
`GetLastError()` is 317. -/
def envNoMessage : Env :=
  { envOk with muiMessage := fun _ _ _ => (0, none), getLastError := 317 }

/-- The plain source `Widget`. -/
def widgetSource : Source :=
  { name_ := "Widget".toList, muiModule_ := none }

/-- The MUI source `Service` with the module handle 1. -/
def serviceSource : Source :=
  { name_ := "Service".toList, muiModule_ := some 1 }

/-- A chain of three nodes `0 → 1 → 2` with the codes `0x40000001`, 2 and 3. -/
def hpThree : Heap :=
  [ { source_ := some ⟨"Widget".toList, none⟩, code_ := 0x40000001, msg_ := "one".toList,
      chain_ := some 1 },
    { source_ := none, code_ := 2, msg_ := "two".toList, chain_ := some 2 },
    { source_ := none, code_ := 3, msg_ := "three".toList, chain_ := none } ]

/-- The log call of an operation when it is accepted: a `log` with a non-empty error that
the gate of `logBody` lets through (severity not below the minimum, handle open). -/
def EtwLogger.acceptedBy (this : EtwLogger) : LoggerOp → List BacklogEntry
  | .log err sev entity =>
    if err ≠ none ∧ this.minSeverity_.toNat ≤ sev.toNat ∧ this.h_ ≠ none then
      [{ err_ := err, sev_ := sev, entity_ := entity }]
    else []
  | _ => []

/-- The accepted log calls of a sequence of operations, in the order of the calls, each
judged in the state in which it is made. -/
def EtwLogger.accepted (env : Env) : List LoggerOp → World → EtwLogger → List BacklogEntry
  | [], _, _ => []
  | op :: ops, w, this =>
    EtwLogger.acceptedBy this op ++
      (match EtwLogger.step env w this op with
       | none => []
       | some (w1, this1) => EtwLogger.accepted env ops w1 this1)

/-- A later call that changes chains: `Erref(node s).append(other)` or
`Erref(node s).splice(other)`. -/
inductive ChainOp
  | append (s : Nat) (other : Erref)
  | splice (s : Nat) (other : Erref)
deriving DecidableEq, Repr

/-- The heap after one such call. -/
def ChainOp.perform (hp : Heap) : ChainOp → Option Heap
  | .append s other => (ErrorHelpers.append hp (some s) other).map (fun r => r.1)
  | .splice s other => (ErrorHelpers.splice hp (some s) other).map (fun r => r.1)

/-- The heap after a sequence of such calls, in order. -/
def performAll : Heap → List ChainOp → Option Heap
  | hp, [] => some hp
  | hp, op :: ops =>
    match op.perform hp with
    | none => none
    | some hp2 => performAll hp2 ops

/-- The call stays apart from the chain `lc`: an `append` is applied to a handle whose
chain has no node of `lc`; a `splice` is applied to a node that is not in `lc` and its
argument has an acyclic chain without a node of `lc`. -/
def ChainOp.Apart (hp : Heap) (lc : List Nat) : ChainOp → Prop
  | .append s _ => ∃ ls, isChain hp (some s) ls = true ∧ ∀ x ∈ ls, x ∉ lc
  | .splice s other => s ∉ lc ∧ ∃ lo, isChain hp other lo = true ∧ ∀ x ∈ lo, x ∉ lc

/-- Every call of the sequence stays apart from the chain `lc` in the heap in which it is
made. -/
def ApartAlong (lc : List Nat) : Heap → List ChainOp → Prop
  | _, [] => True
  | hp, op :: ops => op.Apart hp lc ∧ ∀ hp2, op.perform hp = some hp2 → ApartAlong lc hp2 ops

/-- The heap `hpFourErrors` after `copy` of its first error: the copy is the node 4. -/
def hpFourCopied : Heap :=
  hpFourErrors ++
    [ { source_ := some ⟨"Widget".toList, none⟩, code_ := 1, msg_ := "one".toList,
        chain_ := none } ]

/-- An open, enabled logger with the errors at the addresses 0 and 1 on its backlog. -/
def loggerTwoPending : EtwLogger :=
  { loggerNew .SV_INFO with enabled_ := true, backlog_ :=
      [{ err_ := some 0, sev_ := .SV_ERROR, entity_ := none },
       { err_ := some 1, sev_ := .SV_ERROR, entity_ := none }] }

/-! ## Chains: basic facts -/

theorem isChain_nil_iff (hp : Heap) (p : Erref) : isChain hp p [] = true ↔ p = none := by
  cases p <;> simp [isChain]

theorem isChain_cons_iff (hp : Heap) (p : Erref) (a : Nat) (l : List Nat) :
    isChain hp p (a :: l) = true ↔
      p = some a ∧ ∃ m, hp[a]? = some m ∧ isChain hp m.chain_ l = true := by
  cases p with
  | none => simp [isChain]
  | some b =>
    simp only [isChain, Bool.and_eq_true, beq_iff_eq, Option.some.injEq]
    constructor
    · rintro ⟨rfl, h⟩
      refine ⟨rfl, ?_⟩
      cases hb : hp[b]? with
      | none => rw [hb] at h; simp at h
      | some m => rw [hb] at h; exact ⟨m, rfl, h⟩
    · rintro ⟨rfl, m, hm, h⟩
      refine ⟨rfl, ?_⟩
      rw [hm]; exact h

theorem isChain_some_head (hp : Heap) (a : Nat) (l : List Nat)
    (h : isChain hp (some a) l = true) : ∃ t, l = a :: t := by
  cases l with
  | nil => simp [isChain] at h
  | cons b t =>
    rw [isChain_cons_iff] at h
    obtain ⟨hb, _⟩ := h
    cases hb
    exact ⟨t, rfl⟩

theorem isChain_unique (hp : Heap) :
    ∀ (l1 l2 : List Nat) (p : Erref),
      isChain hp p l1 = true → isChain hp p l2 = true → l1 = l2 := by
  intro l1
  induction l1 with
  | nil =>
    intro l2 p h1 h2
    rw [isChain_nil_iff] at h1
    subst h1
    cases l2 with
    | nil => rfl
    | cons b t => simp [isChain] at h2
  | cons a t ih =>
    intro l2 p h1 h2
    rw [isChain_cons_iff] at h1
    obtain ⟨rfl, m, hm, ht⟩ := h1
    obtain ⟨t2, rfl⟩ := isChain_some_head hp a l2 h2
    rw [isChain_cons_iff] at h2
    obtain ⟨_, m2, hm2, ht2⟩ := h2
    rw [hm] at hm2
    cases hm2
    rw [ih t2 m.chain_ ht ht2]

theorem isChain_suffix (hp : Heap) :
    ∀ (l1 : List Nat) (a : Nat) (l2 : List Nat) (p : Erref),
      isChain hp p (l1 ++ a :: l2) = true → isChain hp (some a) (a :: l2) = true := by
  intro l1
  induction l1 with
  | nil =>
    intro a l2 p h
    have h2 := h
    rw [List.nil_append, isChain_cons_iff] at h2
    rw [← h2.1]; exact h
  | cons b t ih =>
    intro a l2 p h
    rw [List.cons_append, isChain_cons_iff] at h
    obtain ⟨_, m, _, ht⟩ := h
    exact ih a l2 m.chain_ ht

theorem isChain_nodup (hp : Heap) :
    ∀ (l : List Nat) (p : Erref), isChain hp p l = true → l.Nodup := by
  intro l
  induction l with
  | nil => intro _ _; exact List.nodup_nil
  | cons a t ih =>
    intro p h
    have h0 := h
    rw [isChain_cons_iff] at h
    obtain ⟨rfl, m, hm, ht⟩ := h
    refine List.nodup_cons.mpr ⟨?_, ih m.chain_ ht⟩
    intro hmem
    obtain ⟨l1, l2, rfl⟩ := List.append_of_mem hmem
    have hs := isChain_suffix hp l1 a l2 m.chain_ ht
    have heq := isChain_unique hp _ _ _ hs h0
    have hlen := congrArg List.length heq
    simp at hlen
    omega

theorem isChain_lt (hp : Heap) :
    ∀ (l : List Nat) (p : Erref), isChain hp p l = true → ∀ a ∈ l, a < hp.length := by
  intro l
  induction l with
  | nil => intro _ _ a ha; simp at ha
  | cons b t ih =>
    intro p h a ha
    rw [isChain_cons_iff] at h
    obtain ⟨_, m, hm, ht⟩ := h
    rcases List.mem_cons.mp ha with rfl | ha
    · by_contra hge
      rw [List.getElem?_eq_none (by omega)] at hm
      cases hm
    · exact ih m.chain_ ht a ha

theorem isChain_length_le (hp : Heap) (l : List Nat) (p : Erref)
    (h : isChain hp p l = true) : l.length ≤ hp.length := by
  have hnd := isChain_nodup hp l p h
  have hsub : l ⊆ List.range hp.length := by
    intro a ha
    exact List.mem_range.mpr (isChain_lt hp l p h a ha)
  have := (List.subperm_of_subset hnd hsub).length_le
  simpa using this

/-- A chain only depends on the nodes it visits. -/
theorem isChain_congr (hp hp' : Heap) :
    ∀ (l : List Nat) (p : Erref), (∀ a ∈ l, hp'[a]? = hp[a]?) →
      isChain hp p l = true → isChain hp' p l = true := by
  intro l
  induction l with
  | nil => intro p _ h; rw [isChain_nil_iff] at *; exact h
  | cons b t ih =>
    intro p hfr h
    rw [isChain_cons_iff] at *
    obtain ⟨hp1, m, hm, ht⟩ := h
    refine ⟨hp1, m, ?_, ?_⟩
    · rw [hfr b (List.mem_cons_self _ _)]; exact hm
    · exact ih m.chain_ (fun a ha => hfr a (List.mem_cons_of_mem _ ha)) ht

/-! ## Relinking a node -/

theorem setChain_eq_some (hp : Heap) (a : Nat) (c : Erref) (m : ErrorMsg)
    (hm : hp[a]? = some m) :
    setChain hp a c = some (hp.set a { m with chain_ := c }) := by
  simp [setChain, hm]

theorem setChain_inv (hp hp' : Heap) (e : Nat) (q : Erref)
    (h : setChain hp e q = some hp') :
    ∃ m, hp[e]? = some m ∧ hp' = hp.set e { m with chain_ := q } := by
  unfold setChain at h
  cases hm : hp[e]? with
  | none => rw [hm] at h; cases h
  | some m =>
    rw [hm] at h
    simp only [Option.some.injEq] at h
    exact ⟨m, rfl, h.symm⟩

theorem setChain_length (hp hp' : Heap) (e : Nat) (q : Erref)
    (h : setChain hp e q = some hp') : hp'.length = hp.length := by
  obtain ⟨m, _, rfl⟩ := setChain_inv hp hp' e q h
  simp

theorem setChain_get_self (hp hp' : Heap) (e : Nat) (q : Erref)
    (h : setChain hp e q = some hp') :
    ∃ m, hp[e]? = some m ∧ hp'[e]? = some { m with chain_ := q } := by
  obtain ⟨m, hm, rfl⟩ := setChain_inv hp hp' e q h
  refine ⟨m, hm, ?_⟩
  have hlt : e < hp.length := by
    by_contra hge
    rw [List.getElem?_eq_none (by omega)] at hm
    cases hm
  simp [List.getElem?_set, hlt]

theorem setChain_get_other (hp hp' : Heap) (e : Nat) (q : Erref)
    (h : setChain hp e q = some hp') (a : Nat) (hne : a ≠ e) : hp'[a]? = hp[a]? := by
  obtain ⟨m, _, rfl⟩ := setChain_inv hp hp' e q h
  simp [List.getElem?_set, Ne.symm hne]

theorem setChain_payload (hp hp' : Heap) (e : Nat) (q : Erref)
    (h : setChain hp e q = some hp') (a : Nat) :
    (hp'[a]?).map payload = (hp[a]?).map payload := by
  by_cases hae : a = e
  · subst hae
    obtain ⟨m, hm, hm'⟩ := setChain_get_self hp hp' a q h
    rw [hm, hm']
    rfl
  · rw [setChain_get_other hp hp' e q h a hae]

/-- The last node of a chain has no chained node. -/
theorem isChain_last (hp : Heap) :
    ∀ (lf : List Nat) (e : Nat) (p : Erref), isChain hp p (lf ++ [e]) = true →
      ∃ m, hp[e]? = some m ∧ m.chain_ = none := by
  intro lf
  induction lf with
  | nil =>
    intro e p h
    rw [List.nil_append, isChain_cons_iff] at h
    obtain ⟨_, m, hm, ht⟩ := h
    rw [isChain_nil_iff] at ht
    exact ⟨m, hm, ht⟩
  | cons b t ih =>
    intro e p h
    rw [List.cons_append, isChain_cons_iff] at h
    obtain ⟨_, m, _, ht⟩ := h
    exact ih e m.chain_ ht

/-- On an acyclic chain the walk to the last node ends there. -/
theorem walkToLast_chain (hp : Heap) :
    ∀ (lf : List Nat) (e a fuel : Nat), isChain hp (some a) (lf ++ [e]) = true →
      lf.length + 1 ≤ fuel → walkToLast hp fuel a = some e := by
  intro lf
  induction lf with
  | nil =>
    intro e a fuel h hf
    rw [List.nil_append, isChain_cons_iff] at h
    obtain ⟨ha, m, hm, ht⟩ := h
    cases ha
    rw [isChain_nil_iff] at ht
    obtain ⟨f, rfl⟩ : ∃ f, fuel = f + 1 := ⟨fuel - 1, by simp at hf; omega⟩
    simp [walkToLast, hm, ht]
  | cons b t ih =>
    intro e a fuel h hf
    rw [List.cons_append, isChain_cons_iff] at h
    obtain ⟨ha, m, hm, ht⟩ := h
    cases ha
    obtain ⟨f, rfl⟩ : ∃ f, fuel = f + 1 := ⟨fuel - 1, by simp at hf; omega⟩
    cases hc : m.chain_ with
    | none =>
      rw [hc] at ht
      cases t <;> simp [isChain] at ht
    | some c =>
      rw [hc] at ht
      simp only [walkToLast, hm, hc]
      exact ih e c f ht (by simp at hf ⊢; omega)

/-- Setting the link of the last node `e` of a chain to `q` makes the chain continue with
the chain of `q`. -/
theorem isChain_relink (hp hp' : Heap) (e : Nat) (q : Erref) (l2 : List Nat)
    (hset : setChain hp e q = some hp') (hq : isChain hp' q l2 = true) :
    ∀ (lf : List Nat) (p : Erref), isChain hp p (lf ++ [e]) = true → e ∉ lf →
      isChain hp' p (lf ++ e :: l2) = true := by
  intro lf
  induction lf with
  | nil =>
    intro p h _
    rw [List.nil_append, isChain_cons_iff] at h
    obtain ⟨hp1, m, hm, _⟩ := h
    obtain ⟨m0, hm0, hm0'⟩ := setChain_get_self hp hp' e q hset
    rw [List.nil_append, isChain_cons_iff]
    exact ⟨hp1, _, hm0', hq⟩
  | cons b t ih =>
    intro p h hne
    rw [List.cons_append, isChain_cons_iff] at h
    obtain ⟨hp1, m, hm, ht⟩ := h
    rw [List.cons_append, isChain_cons_iff]
    have hbe : b ≠ e := fun hbe => hne (hbe ▸ List.mem_cons_self _ _)
    refine ⟨hp1, m, ?_, ih m.chain_ ht (fun hmem => hne (List.mem_cons_of_mem _ hmem))⟩
    rw [setChain_get_other hp hp' e q hset b hbe]
    exact hm

theorem list_eq_dropLast_concat (l : List Nat) (h : l ≠ []) :
    ∃ lf e, l = lf ++ [e] :=
  ⟨l.dropLast, l.getLast h, (List.dropLast_append_getLast h).symm⟩

/-! ## splice and append on acyclic, disjoint chains -/

theorem splice_chain (hp : Heap) (s o : Nat) (ls lo : List Nat)
    (hs : isChain hp (some s) (s :: ls) = true) (ho : isChain hp (some o) lo = true)
    (hdisj : ∀ x ∈ lo, x ∉ s :: ls) :
    ∃ hp', splice hp (some s) (some o) = some (hp', some s) ∧
      isChain hp' (some s) (s :: (lo ++ ls)) = true ∧
      (∀ a : Nat, (hp'[a]?).map payload = (hp[a]?).map payload) ∧
      (∀ a : Nat, a ≠ s → a ∉ lo → hp'[a]? = hp[a]?) := by
  have hs0 := hs
  rw [isChain_cons_iff] at hs
  obtain ⟨_, msg, hmsg, hls⟩ := hs
  have hnd := isChain_nodup hp _ _ hs0
  have hs_ls : s ∉ ls := (List.nodup_cons.mp hnd).1
  have hs_lo : s ∉ lo := fun hmem => hdisj s hmem (List.mem_cons_self _ _)
  have hset1 := setChain_eq_some hp s (some o) msg hmsg
  generalize hhp1 : hp.set s { msg with chain_ := some o } = hp1 at hset1
  have hfr1 : ∀ a, a ≠ s → hp1[a]? = hp[a]? := setChain_get_other hp hp1 s _ hset1
  have ho1 : isChain hp1 (some o) lo = true :=
    isChain_congr hp hp1 lo _ (fun a ha => hfr1 a (fun h => hs_lo (h ▸ ha))) ho
  obtain ⟨msg0, hmsg0, hs1⟩ := setChain_get_self hp hp1 s _ hset1
  rw [hmsg] at hmsg0
  cases hmsg0
  cases hc : msg.chain_ with
  | none =>
    rw [hc] at hls
    have hnil : ls = [] := by
      cases ls with
      | nil => rfl
      | cons b t => simp [isChain] at hls
    subst hnil
    refine ⟨hp1, ?_, ?_, setChain_payload hp hp1 s _ hset1, fun a ha _ => hfr1 a ha⟩
    · simp [splice, hmsg, hc, hset1]
    · rw [isChain_cons_iff]
      refine ⟨rfl, _, hs1, ?_⟩
      simpa using ho1
  | some old =>
    rw [hc] at hls
    have hlone : lo ≠ [] := by
      intro h; subst h; simp [isChain] at ho
    obtain ⟨lf, e, rfl⟩ := list_eq_dropLast_concat lo hlone
    have hlen := isChain_length_le hp1 _ _ ho1
    have hwalk := walkToLast_chain hp1 lf e o hp1.length ho1 (by simpa using hlen)
    obtain ⟨me, hme, _⟩ := isChain_last hp1 lf e _ ho1
    have hset2 := setChain_eq_some hp1 e (some old) me hme
    generalize hhp2 : hp1.set e { me with chain_ := some old } = hp2 at hset2
    have hfr2 : ∀ a, a ≠ e → hp2[a]? = hp1[a]? := setChain_get_other hp1 hp2 e _ hset2
    have he_lo : e ∈ lf ++ [e] := by simp
    have hes : e ≠ s := fun h => hs_lo (h ▸ he_lo)
    have he_ls : e ∉ ls := fun hmem => hdisj e he_lo (List.mem_cons_of_mem _ hmem)
    have hls2 : isChain hp2 (some old) ls = true := by
      refine isChain_congr hp hp2 ls _ (fun a ha => ?_) hls
      rw [hfr2 a (fun h => he_ls (h ▸ ha)), hfr1 a (fun h => hs_ls (h ▸ ha))]
    have hnd_lo := isChain_nodup hp1 _ _ ho1
    have he_lf : e ∉ lf := by
      intro hmem
      have := List.nodup_append.mp hnd_lo
      exact this.2.2 hmem (List.mem_singleton_self e)
    have hchain := isChain_relink hp1 hp2 e (some old) ls hset2 hls2 lf (some o) ho1 he_lf
    refine ⟨hp2, ?_, ?_, ?_, ?_⟩
    · simp [splice, hmsg, hc, hset1, hwalk, hset2]
    · rw [isChain_cons_iff]
      have hs2 : hp2[s]? = some { msg with chain_ := some o } := by
        rw [hfr2 s (Ne.symm hes)]; exact hs1
      refine ⟨rfl, _, hs2, ?_⟩
      simpa using hchain
    · intro a
      rw [setChain_payload hp1 hp2 e _ hset2, setChain_payload hp hp1 s _ hset1]
    · intro a has halo
      rw [hfr2 a (fun h => halo (h ▸ he_lo)), hfr1 a has]

theorem append_chain (hp : Heap) (s o : Nat) (ls lo : List Nat)
    (hs : isChain hp (some s) ls = true) (ho : isChain hp (some o) lo = true)
    (hdisj : ∀ x ∈ lo, x ∉ ls) :
    ∃ hp', append hp (some s) (some o) = some (hp', some s) ∧
      isChain hp' (some s) (ls ++ lo) = true ∧
      (∀ a : Nat, (hp'[a]?).map payload = (hp[a]?).map payload) ∧
      (∀ a : Nat, a ∉ ls → hp'[a]? = hp[a]?) := by
  have hlsne : ls ≠ [] := by
    intro h; subst h; simp [isChain] at hs
  obtain ⟨lf, e, rfl⟩ := list_eq_dropLast_concat ls hlsne
  have hlen := isChain_length_le hp _ _ hs
  have hwalk := walkToLast_chain hp lf e s hp.length hs (by simpa using hlen)
  obtain ⟨me, hme, _⟩ := isChain_last hp lf e _ hs
  have hset := setChain_eq_some hp e (some o) me hme
  generalize hhp1 : hp.set e { me with chain_ := some o } = hp1 at hset
  have hfr : ∀ a, a ≠ e → hp1[a]? = hp[a]? := setChain_get_other hp hp1 e _ hset
  have he_ls : e ∈ lf ++ [e] := by simp
  have he_lo : e ∉ lo := fun hmem => hdisj e hmem he_ls
  have ho1 : isChain hp1 (some o) lo = true :=
    isChain_congr hp hp1 lo _ (fun a ha => hfr a (fun h => he_lo (h ▸ ha))) ho
  have hnd := isChain_nodup hp _ _ hs
  have he_lf : e ∉ lf := by
    intro hmem
    exact (List.nodup_append.mp hnd).2.2 hmem (List.mem_singleton_self e)
  have hchain := isChain_relink hp hp1 e (some o) lo hset ho1 lf (some s) hs he_lf
  refine ⟨hp1, ?_, ?_, setChain_payload hp hp1 e _ hset, ?_⟩
  · simp [append, hwalk, hset]
  · simpa using hchain
  · intro a ha
    exact hfr a (fun h => ha (h ▸ he_ls))

/-! ## The claims about splice, append and wrap -/

/-- C1: `Erref::splice`.  If `other` is empty, `self` (and every node) is unchanged; if `self`
is empty, `self` becomes `other`; otherwise, for acyclic chains without a common node,
the call returns, `self` still refers to its outer node and walking its chain visits that
outer node, then the nodes of the chain of `other` in order, then the nodes that followed
the outer node of `self` in order, and nothing else; every node keeps its source, code
and message. -/
theorem splice_spec :
    (∀ (hp : Heap) (self : Erref), splice hp self none = some (hp, self)) ∧
    (∀ (hp : Heap) (other : Erref), splice hp none other = some (hp, other)) ∧
    (∀ (hp : Heap) (s o : Nat) (ls lo : List Nat),
      isChain hp (some s) (s :: ls) = true → isChain hp (some o) lo = true →
      (∀ x ∈ lo, x ∉ s :: ls) →
      ∃ hp', splice hp (some s) (some o) = some (hp', some s) ∧
        isChain hp' (some s) (s :: (lo ++ ls)) = true ∧
        (∀ a : Nat, (hp'[a]?).map payload = (hp[a]?).map payload)) := by
  refine ⟨fun hp self => rfl, fun hp other => ?_, ?_⟩
  · cases other <;> rfl
  · intro hp s o ls lo hs ho hdisj
    obtain ⟨hp', h1, h2, h3, _⟩ := splice_chain hp s o ls lo hs ho hdisj
    exact ⟨hp', h1, h2, h3⟩

/-- Witness of C1: splicing the chain `2 → 3` into the chain `0 → 1` gives `0 → 2 → 3 → 1`. -/
theorem splice_spec_witness :
    isChain hpTwoChains (some 0) [0, 1] = true ∧ isChain hpTwoChains (some 2) [2, 3] = true ∧
    (∀ x ∈ [2, 3], x ∉ [0, 1]) ∧
    ∃ hp', splice hpTwoChains (some 0) (some 2) = some (hp', some 0) ∧
      isChain hp' (some 0) [0, 2, 3, 1] = true ∧
      (∀ a : Nat, (hp'[a]?).map payload = (hpTwoChains[a]?).map payload) :=
  ⟨by decide, by decide, by decide,
    splice_spec.2.2 hpTwoChains 0 2 [1] [2, 3] (by decide) (by decide) (by decide)⟩

/-- C2: `Erref::append`.  If `other` is empty, `self` (and every node) is unchanged; if `self`
is empty, `self` becomes `other`; otherwise, for acyclic chains without a common node,
the call returns, `self` still refers to its outer node and walking its chain visits all
the original nodes of `self` in order followed by all the nodes of `other` in order; every
node keeps its source, code and message. -/
theorem append_spec :
    (∀ (hp : Heap) (self : Erref), append hp self none = some (hp, self)) ∧
    (∀ (hp : Heap) (other : Erref), append hp none other = some (hp, other)) ∧
    (∀ (hp : Heap) (s o : Nat) (ls lo : List Nat),
      isChain hp (some s) ls = true → isChain hp (some o) lo = true →
      (∀ x ∈ lo, x ∉ ls) →
      ∃ hp', append hp (some s) (some o) = some (hp', some s) ∧
        isChain hp' (some s) (ls ++ lo) = true ∧
        (∀ a : Nat, (hp'[a]?).map payload = (hp[a]?).map payload)) := by
  refine ⟨fun hp self => rfl, fun hp other => ?_, ?_⟩
  · cases other <;> rfl
  · intro hp s o ls lo hs ho hdisj
    obtain ⟨hp', h1, h2, h3, _⟩ := append_chain hp s o ls lo hs ho hdisj
    exact ⟨hp', h1, h2, h3⟩

/-- Witness of C2: appending the chain `2 → 3` to the chain `0 → 1` gives `0 → 1 → 2 → 3`. -/
theorem append_spec_witness :
    isChain hpTwoChains (some 0) [0, 1] = true ∧ isChain hpTwoChains (some 2) [2, 3] = true ∧
    (∀ x ∈ [2, 3], x ∉ [0, 1]) ∧
    ∃ hp', append hpTwoChains (some 0) (some 2) = some (hp', some 0) ∧
      isChain hp' (some 0) [0, 1, 2, 3] = true ∧
      (∀ a : Nat, (hp'[a]?).map payload = (hpTwoChains[a]?).map payload) :=
  ⟨by decide, by decide, by decide,
    append_spec.2.2 hpTwoChains 0 2 [0, 1] [2, 3] (by decide) (by decide) (by decide)⟩

theorem wrap_eq_splice (hp : Heap) (self other : Erref) :
    wrap hp self other = splice hp other self := by
  simp only [wrap]
  cases h : splice hp other self with
  | none => rfl
  | some r => rfl

/-- C3: `Erref::wrap` mirrors `splice`.  The result of `self.wrap(other)` is that of
`other.splice(self)`; for non-empty acyclic `self` and `other` without a common node the
call returns, `self` then refers to the outer node of `other`, followed by the whole
original chain of `self` in order, followed by the nodes that followed the outer node of
`other`; when `other` is empty `self` is unchanged and when `self` is empty it becomes
`other`. -/
theorem wrap_spec :
    (∀ (hp : Heap) (self other : Erref), wrap hp self other = splice hp other self) ∧
    (∀ (hp : Heap) (self : Erref), wrap hp self none = some (hp, self)) ∧
    (∀ (hp : Heap) (other : Erref), wrap hp none other = some (hp, other)) ∧
    (∀ (hp : Heap) (s o : Nat) (ls lo : List Nat),
      isChain hp (some s) ls = true → isChain hp (some o) (o :: lo) = true →
      (∀ x ∈ ls, x ∉ o :: lo) →
      ∃ hp', wrap hp (some s) (some o) = some (hp', some o) ∧
        isChain hp' (some o) (o :: (ls ++ lo)) = true ∧
        (∀ a : Nat, (hp'[a]?).map payload = (hp[a]?).map payload)) := by
  refine ⟨wrap_eq_splice, fun hp self => ?_, fun hp other => ?_, ?_⟩
  · rw [wrap_eq_splice]; cases self <;> rfl
  · rw [wrap_eq_splice]; rfl
  · intro hp s o ls lo hs ho hdisj
    rw [wrap_eq_splice]
    obtain ⟨hp', h1, h2, h3, _⟩ := splice_chain hp o s lo ls ho hs hdisj
    exact ⟨hp', h1, h2, h3⟩

/-- Witness of C3: wrapping the chain `0 → 1` into the chain `2 → 3` gives `2 → 0 → 1 → 3`. -/
theorem wrap_spec_witness :
    isChain hpTwoChains (some 0) [0, 1] = true ∧ isChain hpTwoChains (some 2) [2, 3] = true ∧
    (∀ x ∈ [0, 1], x ∉ [2, 3]) ∧
    ∃ hp', wrap hpTwoChains (some 0) (some 2) = some (hp', some 2) ∧
      isChain hp' (some 2) [2, 0, 1, 3] = true ∧
      (∀ a : Nat, (hp'[a]?).map payload = (hpTwoChains[a]?).map payload) :=
  ⟨by decide, by decide, by decide,
    wrap_spec.2.2.2 hpTwoChains 0 2 [0, 1] [3] (by decide) (by decide) (by decide)⟩

/-! ## Rendering -/

/-- The last character after the code text and the message is the last character of the
message, or the space that ends the code text when the message is empty. -/
theorem getLast?_codeText_msg (x : WString) (c : Nat) (msg : WString) :
    ((x ++ codeText c) ++ msg).getLast? = some (msg.getLast?.getD ' ') := by
  cases hm : msg.getLast? with
  | none =>
    have : msg = [] := List.getLast?_eq_none_iff.mp hm
    subst this
    have hsplit : x ++ codeText c ++ [] =
        (x ++ (":".toList ++ Nat.toDigits 10 (c &&& 0x3FFFFFFF) ++ ":0x".toList
          ++ Nat.toDigits 16 c ++ [':'])) ++ [' '] := by
      simp [codeText]
    rw [hsplit, List.getLast?_concat]
    rfl
  | some ch =>
    simp [List.getLast?_append, hm]

/-- The newline test of the printing loops, in terms of the message alone. -/
theorem newline_test (x : WString) (c : Nat) (msg : WString) :
    (((x ++ codeText c) ++ msg).getLast? != some '\n') = !(decide (msg.getLast? = some '\n')) := by
  rw [getLast?_codeText_msg]
  cases hm : msg.getLast? with
  | none => simp
  | some ch =>
    by_cases hch : ch = '\n'
    · subst hch; simp
    · simp [hch]

/-- One pass through the body of a printing loop appends the rendering of the node. -/
theorem body_eq_renderNode (res : WString) (outer : Bool) (err : ErrorMsg) :
    (if (((match err.source_ with
            | none => (if !outer then res ++ "  ".toList else res) ++ "NT".toList
            | some src => (if !outer then res ++ "  ".toList else res) ++ src.name_)
          ++ codeText err.code_) ++ err.msg_).getLast? != some '\n'
      then (((match err.source_ with
            | none => (if !outer then res ++ "  ".toList else res) ++ "NT".toList
            | some src => (if !outer then res ++ "  ".toList else res) ++ src.name_)
          ++ codeText err.code_) ++ err.msg_) ++ "\n".toList
      else (((match err.source_ with
            | none => (if !outer then res ++ "  ".toList else res) ++ "NT".toList
            | some src => (if !outer then res ++ "  ".toList else res) ++ src.name_)
          ++ codeText err.code_) ++ err.msg_))
      = res ++ renderNode outer err := by
  rw [newline_test]
  by_cases hnl : err.msg_.getLast? = some '\n' <;> cases outer <;> cases hsrc : err.source_ <;>
    simp [renderNode, codeText, hnl, hsrc, List.append_assoc]

theorem toStringLoop_step (hp : Heap) (fuel a : Nat) (outer : Bool) (res : WString)
    (err : ErrorMsg) (h : hp[a]? = some err) :
    toStringLoop hp (fuel + 1) (some a) outer res =
      toStringLoop hp fuel err.chain_ false (res ++ renderNode outer err) := by
  simp only [toStringLoop, h]
  rw [body_eq_renderNode]

theorem nodesOf_cons (hp : Heap) (a : Nat) (l : List Nat) (m : ErrorMsg) (h : hp[a]? = some m) :
    nodesOf hp (a :: l) = m :: nodesOf hp l := by
  simp [nodesOf, List.filterMap_cons, h]

theorem nodesOf_length (hp : Heap) :
    ∀ (l : List Nat) (p : Erref), isChain hp p l = true → (nodesOf hp l).length = l.length := by
  intro l
  induction l with
  | nil => intro _ _; rfl
  | cons a t ih =>
    intro p h
    rw [isChain_cons_iff] at h
    obtain ⟨_, m, hm, ht⟩ := h
    rw [nodesOf_cons hp a t m hm]
    simp [ih m.chain_ ht]

/-- The printing loop of `toString` on an acyclic chain appends the rendering of the chain. -/
theorem toStringLoop_chain (hp : Heap) :
    ∀ (l : List Nat) (p : Erref) (fuel : Nat) (outer : Bool) (res : WString),
      isChain hp p l = true → l.length + 1 ≤ fuel →
      toStringLoop hp fuel p outer res = some (res ++ renderChain outer (nodesOf hp l)) := by
  intro l
  induction l with
  | nil =>
    intro p fuel outer res h hf
    rw [isChain_nil_iff] at h
    subst h
    obtain ⟨f, rfl⟩ : ∃ f, fuel = f + 1 := ⟨fuel - 1, by simp at hf; omega⟩
    simp [toStringLoop, nodesOf, renderChain]
  | cons a t ih =>
    intro p fuel outer res h hf
    rw [isChain_cons_iff] at h
    obtain ⟨rfl, m, hm, ht⟩ := h
    obtain ⟨f, rfl⟩ : ∃ f, fuel = f + 1 := ⟨fuel - 1, by simp at hf; omega⟩
    rw [toStringLoop_step hp f a outer res m hm, ih m.chain_ f false _ ht (by simp at hf ⊢; omega),
      nodesOf_cons hp a t m hm]
    simp [renderChain, List.append_assoc]

theorem toString_chain (hp : Heap) (a : Nat) (l : List Nat)
    (h : isChain hp (some a) l = true) :
    toString hp a = some (renderChain true (nodesOf hp l)) := by
  have hlen := isChain_length_le hp l _ h
  unfold toString
  rw [toStringLoop_chain hp l (some a) (hp.length + 1) true [] h (by omega)]
  rfl

/-- C5: the line format of `ErrorMsg::toString`.  On every acyclic chain the call returns
the concatenation, over the nodes in chain order, of one rendering per node (`renderChain`
of `renderNode`): two spaces unless it is the first node, the source name or `NT`, a colon,
the decimal of the code masked with `0x3FFFFFFF`, `:0x`, the lowercase hexadecimal of the
whole code, a colon and a space, the message, and a newline unless the message already ends
with one. -/
theorem toString_format (hp : Heap) (a : Nat) (l : List Nat)
    (h : isChain hp (some a) l = true) :
    toString hp a = some (renderChain true (nodesOf hp l)) ∧
      (nodesOf hp l).length = l.length ∧
      (∀ (first : Bool) (m : ErrorMsg), renderNode first m =
        (if first then [] else [' ', ' '])
          ++ (match m.source_ with
              | none => ['N', 'T']
              | some src => src.name_)
          ++ [':'] ++ Nat.toDigits 10 (m.code_ &&& 0x3FFFFFFF)
          ++ [':', '0', 'x'] ++ Nat.toDigits 16 m.code_
          ++ [':', ' '] ++ m.msg_
          ++ (if m.msg_.getLast? = some '\n' then [] else ['\n'])) :=
  ⟨toString_chain hp a l h, nodesOf_length hp l _ h, fun _ _ => rfl⟩

/-- Witness of C5: source `Widget`, code 5, message `disk full`. -/
theorem toString_format_witness :
    isChain hpWidget (some 0) [0] = true ∧
      toString hpWidget 0 = some "Widget:5:0x5: disk full\n".toList :=
  ⟨by decide, (toString_format hpWidget 0 [0] (by decide)).1.trans (by decide)⟩

/-! ### Lines -/

theorem digitChar_ne_newline (n : Nat) : Nat.digitChar n ≠ '\n' := by
  by_cases h : n < 16
  · interval_cases n <;> decide
  · unfold Nat.digitChar
    repeat (rw [if_neg (by omega)])
    decide

theorem toDigitsCore_no_newline (b : Nat) :
    ∀ (fuel n : Nat) (ds : List Char), '\n' ∉ ds → '\n' ∉ Nat.toDigitsCore b fuel n ds := by
  intro fuel
  induction fuel with
  | zero => intro n ds h; simpa [Nat.toDigitsCore] using h
  | succ f ih =>
    intro n ds h
    have hcons : '\n' ∉ Nat.digitChar (n % b) :: ds := by
      intro hmem
      rcases List.mem_cons.mp hmem with h1 | h1
      · exact digitChar_ne_newline _ h1.symm
      · exact h h1
    simp only [Nat.toDigitsCore]
    split
    · exact hcons
    · exact ih _ _ hcons

theorem toDigits_no_newline (b n : Nat) : '\n' ∉ Nat.toDigits b n :=
  toDigitsCore_no_newline b _ _ _ (by simp)

theorem linesAux_line (x rest : WString) (hx : '\n' ∉ x) :
    ∀ cur : WString, linesAux cur (x ++ '\n' :: rest) = (cur ++ x ++ ['\n']) :: linesAux [] rest := by
  induction x with
  | nil => intro cur; simp [linesAux]
  | cons c t ih =>
    intro cur
    have hc : c ≠ '\n' := fun h => hx (h ▸ List.mem_cons_self _ _)
    have ht : '\n' ∉ t := fun h => hx (List.mem_cons_of_mem _ h)
    rw [List.cons_append, linesAux, if_neg hc, ih ht]
    simp

theorem renderNode_eq_head (first : Bool) (m : ErrorMsg) :
    renderNode first m =
      nodeHead first m ++ m.msg_ ++ (if m.msg_.getLast? = some '\n' then [] else "\n".toList) :=
  rfl

theorem nodeHead_no_newline (first : Bool) (m : ErrorMsg)
    (hsrc : ∀ s, m.source_ = some s → '\n' ∉ s.name_) : '\n' ∉ nodeHead first m := by
  have h10 := toDigits_no_newline 10 (m.code_ &&& 0x3FFFFFFF)
  have h16 := toDigits_no_newline 16 m.code_
  have hname : '\n' ∉ (match m.source_ with
        | none => "NT".toList
        | some s => s.name_) := by
    cases hs : m.source_ with
    | none => decide
    | some s => exact hsrc s hs
  have hind : '\n' ∉ (if first then [] else "  ".toList) := by
    cases first <;> decide
  unfold nodeHead
  simp only [List.mem_append, not_or]
  exact ⟨⟨⟨⟨⟨⟨hind, hname⟩, by decide⟩, h10⟩, by decide⟩, h16⟩, by decide⟩

/-- A rendering is one line: a text without newline, then the newline. -/
theorem renderNode_line (first : Bool) (m : ErrorMsg)
    (hsrc : ∀ s, m.source_ = some s → '\n' ∉ s.name_) (hmsg : '\n' ∉ m.msg_.dropLast) :
    ∃ body, renderNode first m = body ++ ['\n'] ∧ '\n' ∉ body := by
  have hhead := nodeHead_no_newline first m hsrc
  rw [renderNode_eq_head]
  by_cases hnl : m.msg_.getLast? = some '\n'
  · have hne : m.msg_ ≠ [] := by
      intro h; rw [h] at hnl; simp at hnl
    have hlast : m.msg_.getLast hne = '\n' := by
      rw [List.getLast?_eq_getLast _ hne] at hnl
      exact Option.some.inj hnl
    have hsplit : m.msg_ = m.msg_.dropLast ++ ['\n'] := by
      conv_lhs => rw [← List.dropLast_append_getLast hne, hlast]
    refine ⟨nodeHead first m ++ m.msg_.dropLast, ?_, ?_⟩
    · rw [if_pos hnl, List.append_nil]
      conv_lhs => rw [hsplit]
      simp only [List.append_assoc]
    · simp only [List.mem_append, not_or]
      exact ⟨hhead, hmsg⟩
  · have hmsg2 : '\n' ∉ m.msg_ := by
      intro hmem
      by_cases hne : m.msg_ = []
      · rw [hne] at hmem; simp at hmem
      · rw [← List.dropLast_append_getLast hne, List.mem_append] at hmem
        rcases hmem with h1 | h1
        · exact hmsg h1
        · rw [List.getLast?_eq_getLast _ hne] at hnl
          simp only [List.mem_singleton] at h1
          exact hnl (by rw [← h1])
    refine ⟨nodeHead first m ++ m.msg_, ?_, ?_⟩
    · rw [if_neg hnl]
      rfl
    · simp only [List.mem_append, not_or]
      exact ⟨hhead, hmsg2⟩

theorem linesOf_renderChain :
    ∀ (ms : List ErrorMsg) (first : Bool),
      (∀ m ∈ ms, ∀ s, m.source_ = some s → '\n' ∉ s.name_) →
      (∀ m ∈ ms, '\n' ∉ m.msg_.dropLast) →
      linesOf (renderChain first ms) = renderLines first ms := by
  intro ms
  induction ms with
  | nil => intro _ _ _; rfl
  | cons m t ih =>
    intro first hsrc hmsg
    obtain ⟨body, hbody, hnl⟩ := renderNode_line first m (hsrc m (List.mem_cons_self _ _))
      (hmsg m (List.mem_cons_self _ _))
    have ht := ih false (fun x hx => hsrc x (List.mem_cons_of_mem _ hx))
      (fun x hx => hmsg x (List.mem_cons_of_mem _ hx))
    unfold linesOf at ht ⊢
    simp only [renderChain, renderLines]
    rw [hbody, List.append_assoc, List.singleton_append, linesAux_line body _ hnl, ht]
    simp

theorem renderLines_length : ∀ (ms : List ErrorMsg) (first : Bool),
    (renderLines first ms).length = ms.length := by
  intro ms
  induction ms with
  | nil => intro _; rfl
  | cons m t ih => intro first; simp [renderLines, ih]

/-- C6, as the code has it: for every non-empty handle with an acyclic chain in which no
source name contains a newline and no message contains a newline before its last
character, `toString()` returns a text whose newline-terminated lines are, in order, the
renderings of the nodes of the chain (outer node first), one line per node. -/
theorem toString_lines (hp : Heap) (a : Nat) (l : List Nat)
    (h : isChain hp (some a) l = true)
    (hsrc : ∀ m ∈ nodesOf hp l, ∀ s, m.source_ = some s → '\n' ∉ s.name_)
    (hmsg : ∀ m ∈ nodesOf hp l, '\n' ∉ m.msg_.dropLast) :
    ∃ out, toString hp a = some out ∧
      linesOf out = renderLines true (nodesOf hp l) ∧ (linesOf out).length = l.length := by
  refine ⟨_, toString_chain hp a l h, linesOf_renderChain _ true hsrc hmsg, ?_⟩
  rw [linesOf_renderChain _ true hsrc hmsg, renderLines_length, nodesOf_length hp l _ h]

/-- Witness of C6 (amended): the chain `0 → 1` of the example heap has two lines. -/
theorem toString_lines_witness :
    isChain hpTwoChains (some 0) [0, 1] = true ∧
    ∃ out, toString hpTwoChains 0 = some out ∧
      linesOf out = renderLines true (nodesOf hpTwoChains [0, 1]) ∧
      (linesOf out).length = [0, 1].length :=
  ⟨by decide, toString_lines hpTwoChains 0 [0, 1] (by decide) (by decide) (by decide)⟩

/-- Counterexample to C6 as stated: a chain of one node whose message is `a`, a newline and
`b` is rendered as two newline-terminated lines. -/
theorem toString_lines_counterexample :
    ¬ (∀ (hp : Heap) (a : Nat) (l : List Nat), isChain hp (some a) l = true →
        ∃ out, toString hp a = some out ∧ (linesOf out).length = l.length) := by
  intro hall
  obtain ⟨out, hout, hlen⟩ := hall hpTwoLines 0 [0] (by decide)
  have hval : toString hpTwoLines 0 = some "NT:1:0x1: a\nb\n".toList := by decide
  rw [hval] at hout
  cases hout
  revert hlen
  decide

/-! ## copy -/

theorem nodesOf_congr (hp hp' : Heap) :
    ∀ l : List Nat, (∀ a ∈ l, hp'[a]? = hp[a]?) → nodesOf hp' l = nodesOf hp l := by
  intro l
  induction l with
  | nil => intro _; rfl
  | cons b t ih =>
    intro h
    have hb := h b (List.mem_cons_self _ _)
    have ht := ih (fun a ha => h a (List.mem_cons_of_mem _ ha))
    unfold nodesOf at ht ⊢
    simp only [List.filterMap_cons, hb, ht]

theorem renderNode_payload (first : Bool) (m m' : ErrorMsg) (h : payload m = payload m') :
    renderNode first m = renderNode first m' := by
  simp only [payload, Prod.mk.injEq] at h
  obtain ⟨h1, h2, h3⟩ := h
  simp only [renderNode, h1, h2, h3]

theorem renderChain_payload :
    ∀ (ms ms' : List ErrorMsg) (first : Bool), ms.map payload = ms'.map payload →
      renderChain first ms = renderChain first ms' := by
  intro ms
  induction ms with
  | nil =>
    intro ms' first h
    cases ms' with
    | nil => rfl
    | cons _ _ => simp at h
  | cons m t ih =>
    intro ms' first h
    cases ms' with
    | nil => simp at h
    | cons m' t' =>
      simp only [List.map_cons, List.cons.injEq] at h
      simp only [renderChain, renderNode_payload first m m' h.1, ih t' false h.2]

theorem toString_congr (hp hp' : Heap) (a : Nat) (l : List Nat)
    (h : isChain hp (some a) l = true) (hfr : ∀ x ∈ l, hp'[x]? = hp[x]?) :
    toString hp' a = toString hp a := by
  rw [toString_chain hp a l h, toString_chain hp' a l (isChain_congr hp hp' l _ hfr h),
    nodesOf_congr hp hp' l hfr]

theorem getElem?_append_old (hp new : Heap) (a : Nat) (h : a < hp.length) :
    (hp ++ new)[a]? = hp[a]? :=
  List.getElem?_append_left h

/-- The recursive copy of an acyclic chain returns; the copy is a chain of fresh nodes with
the same sources, codes and messages, and the old nodes are kept. -/
theorem mkCopy_chain (hp : Heap) :
    ∀ (l : List Nat) (p : Erref) (fuel : Nat), isChain hp p l = true → l.length ≤ fuel →
      ∃ (new : Heap) (lc : List Nat) (c : Erref),
        mkCopy fuel hp p = some (hp ++ new, c) ∧
        isChain (hp ++ new) c lc = true ∧
        (∀ x ∈ lc, hp.length ≤ x) ∧
        (nodesOf (hp ++ new) lc).map payload = (nodesOf hp l).map payload ∧
        (c = none ↔ p = none) := by
  intro l
  induction l with
  | nil =>
    intro p fuel h _
    rw [isChain_nil_iff] at h
    subst h
    refine ⟨[], [], none, ?_, ?_, ?_, ?_, Iff.rfl⟩
    · cases fuel <;> simp [mkCopy]
    · rfl
    · intro x hx; simp at hx
    · rfl
  | cons a t ih =>
    intro p fuel h hf
    rw [isChain_cons_iff] at h
    obtain ⟨rfl, orig, horig, ht⟩ := h
    obtain ⟨f, rfl⟩ : ∃ f, fuel = f + 1 := ⟨fuel - 1, by simp at hf; omega⟩
    obtain ⟨new, lc, c, hcopy, hchain, hfresh, hpay, _⟩ :=
      ih orig.chain_ f ht (by simp at hf; omega)
    have hlt := isChain_lt (hp ++ new) lc c hchain
    let node : ErrorMsg :=
      { source_ := orig.source_, code_ := orig.code_, msg_ := orig.msg_, chain_ := c }
    have hold : ∀ x ∈ lc, ((hp ++ new) ++ [node])[x]? = (hp ++ new)[x]? :=
      fun x hx => List.getElem?_append_left (hlt x hx)
    have hnode : ((hp ++ new) ++ [node])[(hp ++ new).length]? = some node := by
      rw [List.getElem?_append_right (Nat.le_refl _)]
      simp
    refine ⟨new ++ [node], (hp ++ new).length :: lc, some (hp ++ new).length, ?_, ?_, ?_, ?_, ?_⟩
    · simp only [mkCopy, horig, hcopy, List.append_assoc]
    · rw [← List.append_assoc, isChain_cons_iff]
      exact ⟨rfl, node, hnode, isChain_congr (hp ++ new) _ lc c hold hchain⟩
    · intro x hx
      rcases List.mem_cons.mp hx with rfl | hx
      · simp
      · exact hfresh x hx
    · rw [← List.append_assoc, nodesOf_cons _ _ _ node hnode, nodesOf_cons hp a t orig horig,
        nodesOf_congr _ _ lc hold, List.map_cons, List.map_cons, hpay]
      rfl
    · simp

/-- When the walk to the last node returns, the nodes it visited form a chain. -/
theorem walkToLast_inv (hp : Heap) :
    ∀ (fuel a e : Nat), walkToLast hp fuel a = some e →
      ∃ lf, isChain hp (some a) (lf ++ [e]) = true := by
  intro fuel
  induction fuel with
  | zero => intro a e h; simp [walkToLast] at h
  | succ f ih =>
    intro a e h
    cases hm : hp[a]? with
    | none => simp [walkToLast, hm] at h
    | some m =>
      cases hc : m.chain_ with
      | none =>
        simp only [walkToLast, hm, hc, Option.some.injEq] at h
        subst h
        refine ⟨[], ?_⟩
        rw [List.nil_append, isChain_cons_iff]
        exact ⟨rfl, m, hm, by rw [hc]; rfl⟩
      | some b =>
        simp only [walkToLast, hm, hc] at h
        obtain ⟨lf, hlf⟩ := ih b e h
        refine ⟨a :: lf, ?_⟩
        rw [List.cons_append, isChain_cons_iff]
        exact ⟨rfl, m, hm, by rw [hc]; exact hlf⟩

/-- The chain of a node of a chain is a part of that chain. -/
theorem isChain_of_mem (hp : Heap) (p : Erref) (l : List Nat) (s : Nat)
    (h : isChain hp p l = true) (hs : s ∈ l) :
    ∃ l2, isChain hp (some s) (s :: l2) = true ∧ ∀ x ∈ s :: l2, x ∈ l := by
  obtain ⟨l1, l2, rfl⟩ := List.append_of_mem hs
  refine ⟨l2, isChain_suffix hp l1 s l2 p h, ?_⟩
  intro x hx
  exact List.mem_append_right _ hx

/-- An `append` on a node of a chain changes no node outside of that chain. -/
theorem append_frame (hp hp2 : Heap) (p : Erref) (l : List Nat) (s : Nat) (other r : Erref)
    (h : isChain hp p l = true) (hs : s ∈ l)
    (happ : append hp (some s) other = some (hp2, r)) :
    ∀ a : Nat, a ∉ l → hp2[a]? = hp[a]? := by
  intro a ha
  cases other with
  | none =>
    simp only [append, Option.some.injEq, Prod.mk.injEq] at happ
    rw [← happ.1]
  | some o =>
    cases hw : walkToLast hp hp.length s with
    | none => simp [append, hw] at happ
    | some e =>
      cases hset : setChain hp e (some o) with
      | none => simp [append, hw, hset] at happ
      | some hp1 =>
        simp only [append, hw, hset, Option.some.injEq, Prod.mk.injEq] at happ
        obtain ⟨lf, hlf⟩ := walkToLast_inv hp _ s e hw
        obtain ⟨l2, hl2, hsub⟩ := isChain_of_mem hp p l s h hs
        have heq := isChain_unique hp _ _ _ hlf hl2
        have hel : e ∈ l := hsub e (by rw [← heq]; simp)
        rw [← happ.1]
        exact setChain_get_other hp hp1 e _ hset a (fun hae => ha (hae ▸ hel))

/-- A `splice` changes no node of a chain that contains neither the spliced-into node nor
a node of the chain of the argument. -/
theorem splice_frame (hp hp2 : Heap) (s : Nat) (other r : Erref) (lo lc : List Nat)
    (ho : isChain hp other lo = true) (hs : s ∉ lc) (hdisj : ∀ x ∈ lo, x ∉ lc)
    (hspl : splice hp (some s) other = some (hp2, r)) :
    ∀ a ∈ lc, hp2[a]? = hp[a]? := by
  intro a ha
  have has : a ≠ s := fun h => hs (h ▸ ha)
  cases other with
  | none =>
    simp only [splice, Option.some.injEq, Prod.mk.injEq] at hspl
    rw [← hspl.1]
  | some o =>
    cases hm : hp[s]? with
    | none => simp [splice, hm] at hspl
    | some msg =>
      cases hset : setChain hp s (some o) with
      | none => cases hc : msg.chain_ <;> simp [splice, hm, hset, hc] at hspl
      | some hp1 =>
        have h1 : hp1[a]? = hp[a]? := setChain_get_other hp hp1 s _ hset a has
        cases hc : msg.chain_ with
        | none =>
          simp only [splice, hm, hset, hc, Option.some.injEq, Prod.mk.injEq] at hspl
          rw [← hspl.1]; exact h1
        | some old =>
          cases hw : walkToLast hp1 hp1.length o with
          | none => simp [splice, hm, hset, hc, hw] at hspl
          | some e =>
            cases hset2 : setChain hp1 e (some old) with
            | none => simp [splice, hm, hset, hc, hw, hset2] at hspl
            | some hp2' =>
              simp only [splice, hm, hset, hc, hw, hset2, Option.some.injEq,
                Prod.mk.injEq] at hspl
              obtain ⟨lf, hlf⟩ := walkToLast_inv hp1 _ o e hw
              have hs_lf : s ∉ lf ++ [e] := by
                intro hmem
                obtain ⟨l1, l2, hl⟩ := List.append_of_mem hmem
                rw [hl] at hlf
                have hsuf := isChain_suffix hp1 l1 s l2 _ hlf
                rw [isChain_cons_iff] at hsuf
                obtain ⟨_, m1, hm1, hl2⟩ := hsuf
                obtain ⟨m0, hm0, hm0'⟩ := setChain_get_self hp hp1 s _ hset
                rw [hm0'] at hm1
                cases hm1
                have heq := isChain_unique hp1 _ _ _ hl2 hlf
                have hlen := congrArg List.length heq
                simp at hlen
                omega
              have hlf0 : isChain hp (some o) (lf ++ [e]) = true :=
                isChain_congr hp1 hp _ _
                  (fun x hx => (setChain_get_other hp hp1 s _ hset x
                    (fun hxs => hs_lf (hxs ▸ hx))).symm) hlf
              have heq := isChain_unique hp _ _ _ hlf0 ho
              have helo : e ∈ lo := by rw [← heq]; simp
              have hae : a ≠ e := fun h => hdisj e helo (h ▸ ha)
              rw [← hspl.1, setChain_get_other hp1 hp2' e _ hset2 a hae]
              exact h1

/-! ## toLimitedString -/

theorem head_eq_nodeHead (res : WString) (outer : Bool) (err : ErrorMsg) :
    (match err.source_ with
      | none => (if !outer then res ++ "  ".toList else res) ++ "NT".toList
      | some src => (if !outer then res ++ "  ".toList else res) ++ src.name_)
      ++ codeText err.code_ = res ++ nodeHead outer err := by
  cases outer <;> cases hsrc : err.source_ <;>
    simp [nodeHead, codeText, hsrc, List.append_assoc]

theorem toLimitedStringLoop_step (hp : Heap) (limit fuel a : Nat) (lasterr : Erref)
    (outer : Bool) (res : WString) (err : ErrorMsg) (h : hp[a]? = some err) :
    toLimitedStringLoop hp limit (fuel + 1) (some a) lasterr outer res =
      if limit ≤ res.length + (nodeHead outer err).length + err.msg_.length ∧ lasterr.isSome then
        match lasterr.bind (fun la => hp[la]?) with
        | none => none
        | some lastmsg => some (res, lastmsg.chain_)
      else
        toLimitedStringLoop hp limit fuel err.chain_ (some a) false
          (res ++ renderNode outer err) := by
  simp only [toLimitedStringLoop, h]
  rw [body_eq_renderNode, head_eq_nodeHead, List.take_left, List.length_append]

/-- The printing loop of `toLimitedString` after the first node. -/
theorem toLimitedStringLoop_rest (hp : Heap) (limit : Nat) :
    ∀ (l : List Nat) (p : Erref) (la : Nat) (lm : ErrorMsg) (fuel : Nat) (res : WString),
      isChain hp p l = true → l.length + 1 ≤ fuel → hp[la]? = some lm → lm.chain_ = p →
      toLimitedStringLoop hp limit fuel p (some la) false res =
        some (res ++ renderChain false
            ((nodesOf hp l).take (fitCount limit res.length (nodesOf hp l))),
          l[fitCount limit res.length (nodesOf hp l)]?) := by
  intro l
  induction l with
  | nil =>
    intro p la lm fuel res h hf _ _
    rw [isChain_nil_iff] at h
    subst h
    obtain ⟨f, rfl⟩ : ∃ f, fuel = f + 1 := ⟨fuel - 1, by simp at hf; omega⟩
    simp [toLimitedStringLoop, nodesOf, fitCount, renderChain]
  | cons a t ih =>
    intro p la lm fuel res h hf hla hlm
    rw [isChain_cons_iff] at h
    obtain ⟨rfl, m, hm, ht⟩ := h
    obtain ⟨f, rfl⟩ : ∃ f, fuel = f + 1 := ⟨fuel - 1, by simp at hf; omega⟩
    rw [toLimitedStringLoop_step hp limit f a (some la) false res m hm,
      nodesOf_cons hp a t m hm]
    by_cases hstop : limit ≤ res.length + (nodeHead false m).length + m.msg_.length
    · have hfit : fitCount limit res.length (m :: nodesOf hp t) = 0 := by
        simp [fitCount, hstop]
      rw [if_pos ⟨hstop, rfl⟩, hfit]
      simp [hla, hlm, renderChain]
    · have hfit : fitCount limit res.length (m :: nodesOf hp t) =
          fitCount limit (res.length + (renderNode false m).length) (nodesOf hp t) + 1 := by
        simp [fitCount, hstop]
      rw [if_neg (fun hc => hstop hc.1), hfit,
        ih m.chain_ a m f (res ++ renderNode false m) ht (by simp at hf ⊢; omega) hm rfl]
      simp [renderChain, List.append_assoc]

/-- The result of `toLimitedString` on an acyclic chain: the first node and the further
nodes that fit, and the handle of the node after them. -/
theorem toLimitedString_chain (hp : Heap) (limit a : Nat) (t : List Nat) (m : ErrorMsg)
    (h : isChain hp (some a) (a :: t) = true) (hm : hp[a]? = some m) :
    toLimitedString hp a limit =
      some (renderChain true ((nodesOf hp (a :: t)).take
              (fitCount limit (renderNode true m).length (nodesOf hp t) + 1)),
        (a :: t)[fitCount limit (renderNode true m).length (nodesOf hp t) + 1]?) := by
  have hlen := isChain_length_le hp _ _ h
  rw [isChain_cons_iff] at h
  obtain ⟨_, m', hm', ht⟩ := h
  rw [hm] at hm'
  cases hm'
  unfold toLimitedString
  rw [toLimitedStringLoop_step hp limit hp.length a none true [] m hm,
    if_neg (fun hc => by simp at hc),
    toLimitedStringLoop_rest hp limit t m.chain_ a m hp.length _ ht
      (by simp at hlen ⊢; omega) hm rfl,
    nodesOf_cons hp a t m hm]
  simp [renderChain]

theorem fitCount_le (limit : Nat) :
    ∀ (ms : List ErrorMsg) (acc : Nat), fitCount limit acc ms ≤ ms.length := by
  intro ms
  induction ms with
  | nil => intro _; simp [fitCount]
  | cons m t ih =>
    intro acc
    simp only [fitCount]
    split
    · simp
    · have := ih (acc + (renderNode false m).length)
      simp
      omega

theorem renderChain_take_succ :
    ∀ (ms : List ErrorMsg) (first : Bool) (j : Nat) (m : ErrorMsg), ms[j]? = some m →
      renderChain first (ms.take (j + 1)) =
        renderChain first (ms.take j) ++ renderNode (first && j == 0) m := by
  intro ms
  induction ms with
  | nil => intro first j m h; simp at h
  | cons x t ih =>
    intro first j m h
    cases j with
    | zero =>
      simp only [List.getElem?_cons_zero, Option.some.injEq] at h
      subst h
      simp [renderChain]
    | succ i =>
      simp only [List.getElem?_cons_succ] at h
      have := ih false i m h
      simp only [List.take_succ_cons, renderChain, this]
      simp

theorem renderNode_length (first : Bool) (m : ErrorMsg) :
    (renderNode first m).length =
      (nodeHead first m).length + m.msg_.length +
        (if m.msg_.getLast? = some '\n' then 0 else 1) := by
  rw [renderNode_eq_head]
  split
  · simp
  · simp
    omega

/-- The length of the rendering of the first `j + 1` nodes is the tested length at node `j`
plus one for the newline, when one is appended. -/
theorem render_take_succ_length (ms : List ErrorMsg) (j : Nat) (m : ErrorMsg)
    (h : ms[j]? = some m) :
    (renderChain true (ms.take (j + 1))).length =
      pendingLength ms j + (if m.msg_.getLast? = some '\n' then 0 else 1) := by
  rw [renderChain_take_succ ms true j m h, List.length_append, renderNode_length]
  simp only [pendingLength, h, Bool.true_and]
  omega

theorem pendingLength_ge (ms : List ErrorMsg) (j : Nat) (m : ErrorMsg) (h : ms[j]? = some m) :
    (renderChain true (ms.take j)).length ≤ pendingLength ms j := by
  simp only [pendingLength, h]
  omega

theorem pendingLength_mono_succ (ms : List ErrorMsg) (j : Nat) (h : j + 1 < ms.length) :
    pendingLength ms j ≤ pendingLength ms (j + 1) := by
  have h0 : ms[j]? = some (ms[j]) := List.getElem?_eq_getElem (by omega)
  have h1 : ms[j + 1]? = some (ms[j + 1]) := List.getElem?_eq_getElem h
  have ha := render_take_succ_length ms j _ h0
  have hb := pendingLength_ge ms (j + 1) _ h1
  omega

theorem pendingLength_mono (ms : List ErrorMsg) (i : Nat) :
    ∀ j : Nat, i ≤ j → j < ms.length → pendingLength ms i ≤ pendingLength ms j := by
  intro j
  induction j with
  | zero => intro hij _; simp at hij; subst hij; exact le_refl _
  | succ j ih =>
    intro hij hj
    rcases Nat.lt_or_ge i (j + 1) with hlt | hge
    · exact le_trans (ih (by omega) (by omega)) (pendingLength_mono_succ ms j hj)
    · have : i = j + 1 := by omega
      subst this; exact le_refl _

theorem pendingLength_cons_succ (m0 : ErrorMsg) (rest : List ErrorMsg) (i : Nat) (m : ErrorMsg)
    (h : rest[i]? = some m) :
    pendingLength (m0 :: rest) (i + 1) =
      (renderNode true m0).length + (renderChain false (rest.take i)).length
        + (nodeHead false m).length + m.msg_.length := by
  simp [pendingLength, h, renderChain]

/-- Every node counted by `fitCount` passed the test against the limit. -/
theorem fitCount_lt (limit : Nat) :
    ∀ (ms : List ErrorMsg) (acc i : Nat), i < fitCount limit acc ms →
      ∃ m, ms[i]? = some m ∧
        acc + (renderChain false (ms.take i)).length + (nodeHead false m).length
          + m.msg_.length < limit := by
  intro ms
  induction ms with
  | nil => intro acc i h; simp [fitCount] at h
  | cons x t ih =>
    intro acc i h
    simp only [fitCount] at h
    split at h
    · simp at h
    · rename_i hstop
      cases i with
      | zero =>
        refine ⟨x, List.getElem?_cons_zero, ?_⟩
        simp only [List.take_zero, renderChain, List.length_nil]
        omega
      | succ i' =>
        obtain ⟨m, hm, hlt⟩ := ih (acc + (renderNode false x).length) i' (by omega)
        refine ⟨m, by simpa using hm, ?_⟩
        simp only [List.take_succ_cons, renderChain, List.length_append]
        omega

/-- The node after those counted by `fitCount` failed the test against the limit. -/
theorem fitCount_ge (limit : Nat) :
    ∀ (ms : List ErrorMsg) (acc : Nat) (m : ErrorMsg),
      ms[fitCount limit acc ms]? = some m →
      limit ≤ acc + (renderChain false (ms.take (fitCount limit acc ms))).length
          + (nodeHead false m).length + m.msg_.length := by
  intro ms
  induction ms with
  | nil => intro acc m h; simp at h
  | cons x t ih =>
    intro acc m h
    by_cases hstop : limit ≤ acc + (nodeHead false x).length + x.msg_.length
    · have hfit : fitCount limit acc (x :: t) = 0 := by simp [fitCount, hstop]
      rw [hfit] at h ⊢
      simp only [List.getElem?_cons_zero, Option.some.injEq] at h
      subst h
      simp only [List.take_zero, renderChain, List.length_nil]
      omega
    · have hfit : fitCount limit acc (x :: t) =
          fitCount limit (acc + (renderNode false x).length) t + 1 := by
        simp [fitCount, hstop]
      rw [hfit] at h ⊢
      simp only [List.getElem?_cons_succ] at h
      have := ih (acc + (renderNode false x).length) m h
      simp only [List.take_succ_cons, renderChain, List.length_append]
      omega

theorem nodesOf_getElem? (hp : Heap) (l : List Nat) (p : Erref) (j : Nat)
    (h : isChain hp p l = true) (hj : j < l.length) :
    ∃ m, (nodesOf hp l)[j]? = some m := by
  have hlt : j < (nodesOf hp l).length := by
    rw [nodesOf_length hp l p h]; exact hj
  exact ⟨(nodesOf hp l)[j], List.getElem?_eq_getElem hlt⟩

/-- The number of messages returned by `toLimitedString`: at least one, and a further node
is among them exactly when the length tested at it is below the limit. -/
theorem toLimitedString_count (hp : Heap) (a limit : Nat) (l : List Nat)
    (h : isChain hp (some a) l = true) :
    ∃ k, 1 ≤ k ∧ k ≤ l.length ∧
      toLimitedString hp a limit =
        some (renderChain true ((nodesOf hp l).take k), l[k]?) ∧
      (∀ j, 1 ≤ j → j < l.length → (j < k ↔ pendingLength (nodesOf hp l) j < limit)) := by
  obtain ⟨t, rfl⟩ := isChain_some_head hp a l h
  have h0 := h
  rw [isChain_cons_iff] at h
  obtain ⟨_, m, hm, ht⟩ := h
  have hfc := fitCount_le limit (nodesOf hp t) (renderNode true m).length
  have hlen := nodesOf_length hp t _ ht
  refine ⟨fitCount limit (renderNode true m).length (nodesOf hp t) + 1, by omega,
    by simp; omega, toLimitedString_chain hp limit a t m h0 hm, ?_⟩
  intro j hj1 hjn
  obtain ⟨i, rfl⟩ : ∃ i, j = i + 1 := ⟨j - 1, by omega⟩
  have hi : i < t.length := by simpa using hjn
  rw [nodesOf_cons hp a t m hm]
  constructor
  · intro hlt
    obtain ⟨mi, hmi, hbound⟩ :=
      fitCount_lt limit (nodesOf hp t) (renderNode true m).length i (by omega)
    rw [pendingLength_cons_succ m _ i mi hmi]
    omega
  · intro hpend
    by_contra hge
    have hfc2 : fitCount limit (renderNode true m).length (nodesOf hp t) ≤ i := by omega
    obtain ⟨mf, hmf⟩ := nodesOf_getElem? hp t _
      (fitCount limit (renderNode true m).length (nodesOf hp t)) ht (by omega)
    have hge2 := fitCount_ge limit (nodesOf hp t) (renderNode true m).length mf hmf
    rw [← pendingLength_cons_succ m _ _ mf hmf] at hge2
    have hmono := pendingLength_mono (m :: nodesOf hp t)
      (fitCount limit (renderNode true m).length (nodesOf hp t) + 1) (i + 1) (by omega)
      (by simp; omega)
    omega

/-- C7: `ErrorMsg::toLimitedString(limit, next)` returns whole messages.  For every
non-empty acyclic chain of `n` nodes and every limit (0 included) the call returns, and
there is a `k` with `1 ≤ k ≤ n` such that the returned text is the concatenation of the
whole renderings of the first `k` nodes and `next` is the handle of node `k + 1` when
`k < n` and the empty handle when `k = n` (this is `l[k]?`). -/
theorem toLimitedString_whole (hp : Heap) (a limit : Nat) (l : List Nat)
    (h : isChain hp (some a) l = true) :
    ∃ k, 1 ≤ k ∧ k ≤ l.length ∧
      toLimitedString hp a limit =
        some (renderChain true ((nodesOf hp l).take k), l[k]?) ∧
      (k = l.length → l[k]? = none) ∧
      (k < l.length → ∃ b, l[k]? = some b ∧ isChain hp (some b) (l.drop k) = true) := by
  obtain ⟨k, h1, h2, h3, _⟩ := toLimitedString_count hp a limit l h
  refine ⟨k, h1, h2, h3, ?_, ?_⟩
  · intro hk
    exact List.getElem?_eq_none (by omega)
  · intro hk
    refine ⟨l[k], List.getElem?_eq_getElem hk, ?_⟩
    have hsplit : l = l.take k ++ l[k] :: l.drop (k + 1) := by
      conv_lhs => rw [← List.take_append_drop k l, List.drop_eq_getElem_cons hk]
    have hsuf := isChain_suffix hp (l.take k) l[k] (l.drop (k + 1)) (some a) (hsplit ▸ h)
    rw [List.drop_eq_getElem_cons hk]
    exact hsuf

/-- Witness of C7: with limit 0 the chain `2 → 3` of the example heap yields its first
message alone, whole, and the handle of node `3`. -/
theorem toLimitedString_whole_witness :
    isChain hpTwoChains (some 2) [2, 3] = true ∧
    toLimitedString hpTwoChains 2 0 = some ("Widget:3:0x3: c\n".toList, some 3) ∧
    ∃ k, 1 ≤ k ∧ k ≤ [2, 3].length ∧
      toLimitedString hpTwoChains 2 0 =
        some (renderChain true ((nodesOf hpTwoChains [2, 3]).take k), [2, 3][k]?) ∧
      (k = [2, 3].length → [2, 3][k]? = none) ∧
      (k < [2, 3].length → ∃ b, [2, 3][k]? = some b ∧
        isChain hpTwoChains (some b) ([2, 3].drop k) = true) :=
  ⟨by decide, by decide, toLimitedString_whole hpTwoChains 2 0 [2, 3] (by decide)⟩

/-- The rule by which `toLimitedString` takes whole messages.  With `k` the number of
messages returned, a node after the first is among them exactly when the text up to and
including its message (before the newline that may follow it) is shorter than the limit;
whenever the result holds two or more messages its length is at most the limit; when a
continuation is returned, the rendering of the next node would bring the length to the
limit or beyond, and beyond it when the message of that node does not end with a newline;
and when no message of the chain ends with a newline, then for every `j ≥ 2` at least `j`
messages are returned exactly when the rendering of the first `j` nodes is at most `limit`
characters long. -/
theorem toLimitedString_fit_rule (hp : Heap) (a limit : Nat) (l : List Nat)
    (h : isChain hp (some a) l = true) :
    ∃ k, 1 ≤ k ∧ k ≤ l.length ∧
      toLimitedString hp a limit =
        some (renderChain true ((nodesOf hp l).take k), l[k]?) ∧
      (∀ j, 1 ≤ j → j < l.length → (j < k ↔ pendingLength (nodesOf hp l) j < limit)) ∧
      (2 ≤ k → (renderChain true ((nodesOf hp l).take k)).length ≤ limit) ∧
      (k < l.length → limit ≤ (renderChain true ((nodesOf hp l).take (k + 1))).length) ∧
      (∀ m, (nodesOf hp l)[k]? = some m → m.msg_.getLast? ≠ some '\n' →
        limit < (renderChain true ((nodesOf hp l).take (k + 1))).length) ∧
      ((∀ m ∈ nodesOf hp l, m.msg_.getLast? ≠ some '\n') →
        ∀ j, 2 ≤ j → j ≤ l.length →
          (j ≤ k ↔ (renderChain true ((nodesOf hp l).take j)).length ≤ limit)) := by
  obtain ⟨k, h1, h2, h3, h4⟩ := toLimitedString_count hp a limit l h
  have hlen := nodesOf_length hp l _ h
  refine ⟨k, h1, h2, h3, h4, ?_, ?_, ?_, ?_⟩
  · intro hk2
    obtain ⟨m, hm⟩ := nodesOf_getElem? hp l _ (k - 1) h (by omega)
    have hr := render_take_succ_length (nodesOf hp l) (k - 1) m hm
    have hp1 := (h4 (k - 1) (by omega) (by omega)).mp (by omega)
    have hk : k - 1 + 1 = k := by omega
    rw [hk] at hr
    split at hr <;> omega
  · intro hkn
    obtain ⟨m, hm⟩ := nodesOf_getElem? hp l _ k h hkn
    have hr := render_take_succ_length (nodesOf hp l) k m hm
    have hp1 := (h4 k h1 hkn).not.mp (by omega)
    omega
  · intro m hm hnl
    have hkn : k < l.length := by
      by_contra hge
      rw [List.getElem?_eq_none (by omega)] at hm
      cases hm
    have hr := render_take_succ_length (nodesOf hp l) k m hm
    have hp1 := (h4 k h1 hkn).not.mp (by omega)
    rw [if_neg hnl] at hr
    omega
  · intro hall j hj2 hjn
    obtain ⟨m, hm⟩ := nodesOf_getElem? hp l _ (j - 1) h (by omega)
    have hr := render_take_succ_length (nodesOf hp l) (j - 1) m hm
    have hmem : m ∈ nodesOf hp l := List.getElem?_mem hm
    rw [if_neg (hall m hmem)] at hr
    have hj : j - 1 + 1 = j := by omega
    rw [hj] at hr
    have hiff := h4 (j - 1) (by omega) (by omega)
    constructor
    · intro hjk
      have := hiff.mp (by omega)
      omega
    · intro hle
      have := hiff.mpr (by omega)
      omega

/-- C8 at the failing input: on the chain of `hpNewlineEnd` with limit 34 the call returns
the first message alone and a continuation to the second node, although the rendering of
both nodes is exactly 34 characters long and so fits the limit. -/
theorem toLimitedString_fit_failure :
    isChain hpNewlineEnd (some 0) [0, 1] = true ∧
    toLimitedString hpNewlineEnd 0 34 = some ("Widget:1:0x1: a\n".toList, some 1) ∧
    toString hpNewlineEnd 0 = some "Widget:1:0x1: a\n  Widget:7:0x7: b\n".toList ∧
    (renderChain true ((nodesOf hpNewlineEnd [0, 1]).take 2)).length = 34 ∧
    toLimitedString hpNewlineEnd 0 35 =
      some ("Widget:1:0x1: a\n  Widget:7:0x7: b\n".toList, none) := by
  decide

/-! ## Paging -/

theorem isChain_ptr (hp : Heap) (p : Erref) (l : List Nat) (h : isChain hp p l = true) :
    p = l[0]? := by
  cases l with
  | nil => rw [isChain_nil_iff] at h; subst h; rfl
  | cons a t => rw [isChain_cons_iff] at h; rw [h.1]; simp

theorem isChain_drop (hp : Heap) :
    ∀ (l : List Nat) (p : Erref) (k : Nat), isChain hp p l = true →
      isChain hp l[k]? (l.drop k) = true := by
  intro l
  induction l with
  | nil =>
    intro p k _
    simp [isChain]
  | cons a t ih =>
    intro p k h
    cases k with
    | zero =>
      have := isChain_ptr hp p _ h
      rw [← this]
      exact h
    | succ i =>
      rw [isChain_cons_iff] at h
      obtain ⟨_, m, _, ht⟩ := h
      simpa using ih m.chain_ i ht

theorem nodesOf_take (hp : Heap) :
    ∀ (l : List Nat) (p : Erref) (k : Nat), isChain hp p l = true →
      nodesOf hp (l.take k) = (nodesOf hp l).take k := by
  intro l
  induction l with
  | nil => intro p k _; simp [nodesOf]
  | cons a t ih =>
    intro p k h
    rw [isChain_cons_iff] at h
    obtain ⟨_, m, hm, ht⟩ := h
    cases k with
    | zero => simp [nodesOf]
    | succ i =>
      rw [List.take_succ_cons, nodesOf_cons hp a _ m hm, nodesOf_cons hp a t m hm,
        List.take_succ_cons, ih m.chain_ i ht]

theorem length_le_flatten_length :
    ∀ segs : List (List Nat), (∀ s ∈ segs, s ≠ []) → segs.length ≤ segs.flatten.length := by
  intro segs
  induction segs with
  | nil => intro _; simp
  | cons s t ih =>
    intro h
    have hs : s ≠ [] := h s (List.mem_cons_self _ _)
    have hlen : 1 ≤ s.length := List.length_pos.mpr hs
    have := ih (fun x hx => h x (List.mem_cons_of_mem _ hx))
    simp only [List.length_cons, List.flatten_cons, List.length_append]
    omega

/-- Paging through an acyclic chain ends within as many calls as the chain has nodes; the
calls render consecutive, non-empty parts of the chain. -/
theorem limitedChunks_chain (hp : Heap) (limit : Nat) :
    ∀ (n : Nat) (l : List Nat) (p : Erref) (calls : Nat), l.length ≤ n →
      isChain hp p l = true → l.length ≤ calls →
      ∃ segs : List (List Nat),
        limitedChunks hp limit calls p =
          some (segs.map (fun s => renderChain true (nodesOf hp s))) ∧
        segs.flatten = l ∧ (∀ s ∈ segs, s ≠ []) := by
  intro n
  induction n with
  | zero =>
    intro l p calls hn h _
    have hl : l = [] := List.length_eq_zero.mp (by omega)
    subst hl
    rw [isChain_nil_iff] at h
    subst h
    refine ⟨[], ?_, rfl, by simp⟩
    cases calls <;> rfl
  | succ n ih =>
    intro l p calls hn h hc
    cases l with
    | nil =>
      rw [isChain_nil_iff] at h
      subst h
      refine ⟨[], ?_, rfl, by simp⟩
      cases calls <;> rfl
    | cons a t =>
      have hpa : p = some a := ((isChain_cons_iff hp p a t).mp h).1
      subst hpa
      obtain ⟨c, rfl⟩ : ∃ c, calls = c + 1 := ⟨calls - 1, by simp at hc; omega⟩
      obtain ⟨k, hk1, hk2, hres, _⟩ := toLimitedString_count hp a limit (a :: t) h
      have hdrop := isChain_drop hp (a :: t) _ k h
      obtain ⟨segs, hsegs, hflat, hne⟩ :=
        ih ((a :: t).drop k) _ c (by simp at hn ⊢; omega) hdrop (by simp at hc ⊢; omega)
      refine ⟨(a :: t).take k :: segs, ?_, ?_, ?_⟩
      · simp only [limitedChunks, hres, hsegs, List.map_cons]
        rw [nodesOf_take hp (a :: t) _ k h]
      · rw [List.flatten_cons, hflat, List.take_append_drop]
      · intro s hs
        rcases List.mem_cons.mp hs with rfl | hs
        · obtain ⟨i, rfl⟩ : ∃ i, k = i + 1 := ⟨k - 1, by omega⟩
          simp
        · exact hne s hs

/-- C9: paging with `toLimitedString` ends and loses nothing.  For every acyclic chain of
`n ≥ 1` nodes and every limit, calling `toLimitedString` on the current handle and going
on from the returned continuation reaches the empty continuation within `n` calls; the
successive calls render consecutive non-empty parts of the chain which, put together in
order, are the nodes of the chain, each once: the nodes that `toString()` renders. -/
theorem paging_complete (hp : Heap) (a limit : Nat) (l : List Nat)
    (h : isChain hp (some a) l = true) :
    ∃ segs : List (List Nat),
      limitedChunks hp limit l.length (some a) =
        some (segs.map (fun s => renderChain true (nodesOf hp s))) ∧
      1 ≤ segs.length ∧ segs.length ≤ l.length ∧
      segs.flatten = l ∧ (∀ s ∈ segs, s ≠ []) ∧
      toString hp a = some (renderChain true (nodesOf hp segs.flatten)) := by
  obtain ⟨segs, h1, h2, h3⟩ := limitedChunks_chain hp limit l.length l (some a) l.length
    (le_refl _) h (le_refl _)
  have hlen := length_le_flatten_length segs h3
  rw [h2] at hlen
  refine ⟨segs, h1, ?_, hlen, h2, h3, ?_⟩
  · cases segs with
    | nil =>
      simp only [List.flatten_nil] at h2
      subst h2
      simp [isChain] at h
    | cons s t => simp
  · rw [h2]
    exact toString_chain hp a l h

/-- Witness of C9: the chain `2 → 3` of the example heap paged with limit 0 takes two
calls, one message each. -/
theorem paging_complete_witness :
    isChain hpTwoChains (some 2) [2, 3] = true ∧
    limitedChunks hpTwoChains 0 2 (some 2) =
      some ["Widget:3:0x3: c\n".toList, "NT:4:0x4: d\n".toList] ∧
    ∃ segs : List (List Nat),
      limitedChunks hpTwoChains 0 [2, 3].length (some 2) =
        some (segs.map (fun s => renderChain true (nodesOf hpTwoChains s))) ∧
      1 ≤ segs.length ∧ segs.length ≤ [2, 3].length ∧
      segs.flatten = [2, 3] ∧ (∀ s ∈ segs, s ≠ []) ∧
      toString hpTwoChains 2 = some (renderChain true (nodesOf hpTwoChains segs.flatten)) :=
  ⟨by decide, by decide, paging_complete hpTwoChains 2 0 [2, 3] (by decide)⟩

/-! ## Accessors -/

/-- C10: the accessors of `Erref`.  On the empty handle `hasError()` is false, `getCode()`
is 0, `getChain()` is the empty handle and `getChainCode()` is 0.  On a handle that refers
to a node, `hasError()` is true iff the code of that node is not 0, `getCode()` is its
whole code, `getChain()` is its chained handle, and `getChainCode()` is the code of the
chained node, or 0 when there is none. -/
theorem accessors_spec :
    (∀ hp : Heap, hasError hp none = some false ∧ getCode hp none = some 0 ∧
      getChain hp none = some none ∧ getChainCode hp none = some 0) ∧
    (∀ (hp : Heap) (a : Nat) (m : ErrorMsg), hp[a]? = some m →
      hasError hp (some a) = some (decide (m.code_ ≠ 0)) ∧
      getCode hp (some a) = some m.code_ ∧
      getChain hp (some a) = some m.chain_ ∧
      (m.chain_ = none → getChainCode hp (some a) = some 0) ∧
      (∀ (b : Nat) (mb : ErrorMsg), m.chain_ = some b → hp[b]? = some mb →
        getChainCode hp (some a) = some mb.code_)) ∧
    (∀ (hp : Heap) (h : Erref),
      hasError hp h = some true ↔ ∃ a m, h = some a ∧ hp[a]? = some m ∧ m.code_ ≠ 0) := by
  refine ⟨fun hp => ⟨rfl, rfl, rfl, rfl⟩, ?_, ?_⟩
  · intro hp a m hm
    refine ⟨?_, ?_, ?_, ?_, ?_⟩
    · by_cases hz : m.code_ = 0 <;> simp [hasError, hm, hz]
    · simp [getCode, hm]
    · simp [getChain, hm]
    · intro hc
      simp [getChainCode, hm, hc]
    · intro b mb hc hb
      simp [getChainCode, hm, hc, hb]
  · intro hp h
    cases h with
    | none => simp [hasError]
    | some a =>
      cases hm : hp[a]? with
      | none => simp [hasError, hm]
      | some m => simp [hasError, hm]

/-- Witness of C10: node `0` of the example heap has code 1 and is chained to node `1`,
whose code is 2. -/
theorem accessors_spec_witness :
    hpTwoChains[0]? =
      some { source_ := none, code_ := 1, msg_ := "a".toList, chain_ := some 1 } ∧
    hasError hpTwoChains (some 0) = some true ∧
    getCode hpTwoChains (some 0) = some 1 ∧
    getChain hpTwoChains (some 0) = some (some 1) ∧
    getChainCode hpTwoChains (some 0) = some 2 := by
  have h := accessors_spec.2.1 hpTwoChains 0
    { source_ := none, code_ := 1, msg_ := "a".toList, chain_ := some 1 } (by decide)
  exact ⟨by decide, h.1, h.2.1, h.2.2.1,
    h.2.2.2.2 1 { source_ := none, code_ := 2, msg_ := "b".toList, chain_ := none } rfl
      (by decide)⟩

/-! ## The loggers: the severity gate and the enable signal -/

theorem Severity.toNat_injective (a b : Severity) (h : a.toNat = b.toNat) : a = b := by
  cases a <;> cases b <;> simp [Severity.toNat] at h <;> rfl

theorem logBody_gate (env : Env) (w : World) (this : EtwLogger) (err : Erref) (sev : Severity)
    (entity : Option LogEntity) (h : sev.toNat < this.minSeverity_.toNat ∨ this.h_ = none) :
    EtwLogger.logBody env w this err sev entity = some (w, this) := by
  simp [EtwLogger.logBody, h]

theorem log_gate (env : Env) (w : World) (this : EtwLogger) (err : Erref) (sev : Severity)
    (entity : Option LogEntity)
    (h : err = none ∨ sev.toNat < this.minSeverity_.toNat ∨ this.h_ = none) :
    EtwLogger.log env w (some this) err sev entity = some (w, some this) := by
  cases err with
  | none => rfl
  | some e =>
    have h2 : sev.toNat < this.minSeverity_.toNat ∨ this.h_ = none := by
      rcases h with h | h
      · cases h
      · exact h
    simp [EtwLogger.log, Logger.log, logBody_gate env w this (some e) sev entity h2]

/-- C12: the severity gate.  A call of `log` with an empty error, or with a severity below
the current minimum, returns and changes nothing, neither the calls of `EventWrite` made
nor the backlog nor any other part of the logger, whether the sink is enabled or not;
so a call that emits a record or changes the backlog has a non-empty error and a severity
at or above the current minimum. -/
theorem severity_gate (env : Env) (w : World) (this : EtwLogger) (err : Erref)
    (sev : Severity) (entity : Option LogEntity) :
    ((err = none ∨ sev.toNat < this.minSeverity_.toNat) →
      EtwLogger.log env w (some this) err sev entity = some (w, some this)) ∧
    (∀ (w1 : World) (this1 : EtwLogger),
      EtwLogger.log env w (some this) err sev entity = some (w1, some this1) →
      (w1.emitted ≠ w.emitted ∨ this1.backlog_ ≠ this.backlog_) →
      err ≠ none ∧ this.minSeverity_.toNat ≤ sev.toNat) := by
  refine ⟨fun h => log_gate env w this err sev entity (by tauto), ?_⟩
  intro w1 this1 hlog hchg
  by_contra hnot
  have hgate : err = none ∨ sev.toNat < this.minSeverity_.toNat := by
    by_cases he : err = none
    · exact Or.inl he
    · right
      by_contra hlt
      exact hnot ⟨he, by omega⟩
  rw [log_gate env w this err sev entity (by tauto)] at hlog
  simp only [Option.some.injEq, Prod.mk.injEq] at hlog
  obtain ⟨hw, ht⟩ := hlog
  subst hw
  subst ht
  rcases hchg with h | h <;> exact h rfl

/-- Witness of C12: minimum Warning, a call at Info with a non-empty error, on a disabled
and on an enabled logger. -/
theorem severity_gate_witness :
    ((some 0 : Erref) = none ∨
      Severity.SV_INFO.toNat < (loggerNew .SV_WARNING).minSeverity_.toNat) ∧
    EtwLogger.log envOk worldFour (some (loggerNew .SV_WARNING)) (some 0) .SV_INFO none =
      some (worldFour, some (loggerNew .SV_WARNING)) ∧
    EtwLogger.log envOk worldFour
        (some { loggerNew .SV_WARNING with enabled_ := true }) (some 0) .SV_INFO none =
      some (worldFour, some { loggerNew .SV_WARNING with enabled_ := true }) :=
  ⟨by decide,
    (severity_gate envOk worldFour (loggerNew .SV_WARNING) (some 0) .SV_INFO none).1 (by decide),
    by decide⟩

/-- C13: the enable signal.  After the callback with the enable code the sink is enabled
and its minimum severity is the greater of the minimum set at construction and the
severity mapped from the level: levels 1 and 2 map to Error, 3 to Warning, 4 to Info, 5 to
Verbose and every other level to Debug; so the minimum is not below the configured one.
The constructor stores the configured minimum in `origMinSeverity_`. -/
theorem enable_signal :
    (∀ (level : Nat) (logger : EtwLogger),
      (EtwLogger.callback EVENT_CONTROL_CODE_ENABLE_PROVIDER level logger).enabled_ = true ∧
      (EtwLogger.callback EVENT_CONTROL_CODE_ENABLE_PROVIDER level logger).minSeverity_.toNat =
        max logger.origMinSeverity_.toNat (EtwLogger.levelSeverity level).toNat ∧
      logger.origMinSeverity_.toNat ≤
        (EtwLogger.callback EVENT_CONTROL_CODE_ENABLE_PROVIDER level logger).minSeverity_.toNat ∧
      (EtwLogger.callback EVENT_CONTROL_CODE_ENABLE_PROVIDER level logger).origMinSeverity_ =
        logger.origMinSeverity_) ∧
    EtwLogger.levelSeverity 1 = .SV_ERROR ∧ EtwLogger.levelSeverity 2 = .SV_ERROR ∧
    EtwLogger.levelSeverity 3 = .SV_WARNING ∧ EtwLogger.levelSeverity 4 = .SV_INFO ∧
    EtwLogger.levelSeverity 5 = .SV_VERBOSE ∧
    (∀ level : Nat, level = 0 ∨ 5 < level → EtwLogger.levelSeverity level = .SV_DEBUG) ∧
    (∀ (env : Env) (w w1 : World) (guidName : WString) (minSeverity : Severity)
      (this : EtwLogger), EtwLogger.construct env w guidName minSeverity = some (w1, this) →
      this.origMinSeverity_ = minSeverity ∧ this.minSeverity_ = minSeverity) := by
  refine ⟨?_, rfl, rfl, rfl, rfl, rfl, ?_, ?_⟩
  · intro level logger
    simp only [EtwLogger.callback, EVENT_CONTROL_CODE_ENABLE_PROVIDER,
      EVENT_CONTROL_CODE_DISABLE_PROVIDER]
    simp only [show ¬ ((1 : Nat) = 0) by decide, if_false, if_true]
    split <;> simp <;> omega
  · intro level h
    simp only [EtwLogger.levelSeverity, TRACE_LEVEL_CRITICAL, TRACE_LEVEL_ERROR,
      TRACE_LEVEL_WARNING, TRACE_LEVEL_INFORMATION, TRACE_LEVEL_VERBOSE]
    rw [if_neg (by omega), if_neg (by omega), if_neg (by omega), if_neg (by omega)]
  · intro env w w1 guidName minSeverity this h
    simp only [EtwLogger.construct] at h
    split at h
    · split at h
      · cases h
      · simp only [Option.some.injEq, Prod.mk.injEq] at h
        obtain ⟨_, rfl⟩ := h
        exact ⟨rfl, rfl⟩
    · simp only [Option.some.injEq, Prod.mk.injEq] at h
      obtain ⟨_, rfl⟩ := h
      exact ⟨rfl, rfl⟩

/-- Witness of C13: a logger configured with Warning, enabled with the level 4 (Info), has
the minimum Warning; configured with Debug it has the minimum Info. -/
theorem enable_signal_witness :
    (EtwLogger.callback EVENT_CONTROL_CODE_ENABLE_PROVIDER 4 (loggerNew .SV_WARNING)).enabled_
      = true ∧
    (EtwLogger.callback EVENT_CONTROL_CODE_ENABLE_PROVIDER 4
      (loggerNew .SV_WARNING)).minSeverity_ = .SV_WARNING ∧
    (EtwLogger.callback EVENT_CONTROL_CODE_ENABLE_PROVIDER 4
      (loggerNew .SV_DEBUG)).minSeverity_ = .SV_INFO :=
  ⟨(enable_signal.1 4 (loggerNew .SV_WARNING)).1, by decide, by decide⟩

/-! ## The disable signal, the absent logger, the severity Never -/

/-- C18: the absent logger.  When the logger pointer is `NULL`, `log` returns and changes
nothing for every error, severity and entity, `getMinSeverity` returns Never and
`allowsSeverity` returns false for every severity. -/
theorem absent_logger :
    (∀ (σ : Type)
      (logBody : World → σ → Erref → Severity → Option LogEntity → Option (World × σ))
      (w : World) (err : Erref) (sev : Severity) (entity : Option LogEntity),
      Logger.log logBody w none err sev entity = some (w, none)) ∧
    (∀ (env : Env) (w : World) (err : Erref) (sev : Severity) (entity : Option LogEntity),
      EtwLogger.log env w none err sev entity = some (w, none)) ∧
    Logger.getMinSeverity none = .SV_NEVER ∧
    (∀ sv : Severity, Logger.allowsSeverity none sv = false) := by
  refine ⟨?_, ?_, rfl, fun _ => rfl⟩
  · intro σ logBody w err sev entity
    cases err <;> rfl
  · intro env w err sev entity
    cases err <;> rfl

/-- C19, as the code has it: `allowsSeverity(sv)` holds iff `sv` is at or above the minimum
in the order Debug < Verbose < Info < Warning < Error < Never; so with the minimum Never it
is false for every severity other than Never itself, and an `EtwLogger` with the minimum
Never neither emits nor buffers a `log` call whose severity is not Never. -/
theorem never_accepts :
    (∀ (logger : Logger) (sv : Severity),
      Logger.allowsSeverity (some logger) sv = true ↔ logger.minSeverity_.toNat ≤ sv.toNat) ∧
    (Severity.SV_DEBUG.toNat < Severity.SV_VERBOSE.toNat ∧
      Severity.SV_VERBOSE.toNat < Severity.SV_INFO.toNat ∧
      Severity.SV_INFO.toNat < Severity.SV_WARNING.toNat ∧
      Severity.SV_WARNING.toNat < Severity.SV_ERROR.toNat ∧
      Severity.SV_ERROR.toNat < Severity.SV_NEVER.toNat) ∧
    (∀ (logger : Logger) (sv : Severity), logger.minSeverity_ = .SV_NEVER → sv ≠ .SV_NEVER →
      Logger.allowsSeverity (some logger) sv = false) ∧
    (∀ (env : Env) (w : World) (this : EtwLogger) (err : Erref) (sev : Severity)
      (entity : Option LogEntity), this.minSeverity_ = .SV_NEVER → sev ≠ .SV_NEVER →
      EtwLogger.log env w (some this) err sev entity = some (w, some this)) := by
  refine ⟨?_, by decide, ?_, ?_⟩
  · intro logger sv
    simp [Logger.allowsSeverity]
  · intro logger sv hmin hsv
    simp only [Logger.allowsSeverity, hmin]
    cases sv <;> simp [Severity.toNat] at hsv ⊢
  · intro env w this err sev entity hmin hsev
    apply log_gate
    right; left
    rw [hmin]
    cases sev <;> simp [Severity.toNat] at hsev ⊢

/-- Witness of C19 (amended): with the minimum Never an Error-level call is not allowed and
changes nothing. -/
theorem never_accepts_witness :
    Logger.allowsSeverity (some { minSeverity_ := .SV_NEVER }) .SV_ERROR = false ∧
    EtwLogger.log envOk worldFour (some (loggerNew .SV_NEVER)) (some 0) .SV_ERROR none =
      some (worldFour, some (loggerNew .SV_NEVER)) :=
  ⟨never_accepts.2.2.1 { minSeverity_ := .SV_NEVER } .SV_ERROR rfl (by decide),
    never_accepts.2.2.2 envOk worldFour (loggerNew .SV_NEVER) (some 0) .SV_ERROR none rfl
      (by decide)⟩

/-- Counterexample to C19 as stated: with the minimum Never the severity Never is allowed,
and an `EtwLogger` with the minimum Never buffers a `log` call of the severity Never. -/
theorem never_accepts_counterexample :
    Logger.allowsSeverity (some { minSeverity_ := .SV_NEVER }) .SV_NEVER = true ∧
    (EtwLogger.log envOk worldFour (some (loggerNew .SV_NEVER)) (some 0) .SV_NEVER none).map
        (fun r => r.2.map (fun t => t.backlog_)) =
      some (some [{ err_ := some 0, sev_ := .SV_NEVER, entity_ := none }]) := by
  decide

/-! ## printAndExitOnError -/

/-- C20, as the code has it: `Erref::printAndExitOnError`.  For the empty handle, and for a
handle whose outer node has the code 0, the call writes nothing and returns; for a handle
with an acyclic chain whose outer node has a code other than 0 it writes exactly
`toString()` of the chain to the standard output and ends the process with the status 1. -/
theorem printAndExitOnError_spec :
    (∀ (hp : Heap) (out : WString), printAndExitOnError hp out none = some (out, none)) ∧
    (∀ (hp : Heap) (out : WString) (a : Nat) (m : ErrorMsg), hp[a]? = some m → m.code_ = 0 →
      printAndExitOnError hp out (some a) = some (out, none)) ∧
    (∀ (hp : Heap) (out : WString) (a : Nat) (m : ErrorMsg) (l : List Nat),
      hp[a]? = some m → m.code_ ≠ 0 → isChain hp (some a) l = true →
      ∃ s, toString hp a = some s ∧
        printAndExitOnError hp out (some a) = some (out ++ s, some 1) ∧ (1 : Nat) ≠ 0) := by
  refine ⟨fun hp out => rfl, ?_, ?_⟩
  · intro hp out a m hm hc
    simp [printAndExitOnError, hasError, hm, hc]
  · intro hp out a m l hm hc hl
    refine ⟨_, toString_chain hp a l hl, ?_, by decide⟩
    have hb : (m.code_ != 0) = true := by simp [hc]
    simp [printAndExitOnError, hasError, hm, hb, toString_chain hp a l hl]

/-- Witness of C20 (amended): the node `Widget`, 5, `disk full`. -/
theorem printAndExitOnError_spec_witness :
    printAndExitOnError hpWidget [] (some 0) =
      some ("Widget:5:0x5: disk full\n".toList, some 1) := by
  obtain ⟨s, hs, hp, _⟩ := printAndExitOnError_spec.2.2 hpWidget [] 0
    { source_ := some ⟨"Widget".toList, none⟩, code_ := 5, msg_ := "disk full".toList,
      chain_ := none } [0] (by decide) (by decide) (by decide)
  have hval : toString hpWidget 0 = some "Widget:5:0x5: disk full\n".toList := by decide
  rw [hval] at hs
  cases hs
  simpa using hp

/-- Counterexample to C20 as stated: for the non-empty handle to a node with the code 0 the
call writes nothing and returns, while `toString()` of the handle is not empty. -/
theorem printAndExitOnError_counterexample :
    printAndExitOnError hpCodeZero [] (some 0) = some ([], none) ∧
    toString hpCodeZero 0 = some "Widget:0:0x0: nothing wrong\n".toList := by
  decide

/-! ## The backlog -/

theorem popExcess_eq_drop :
    ∀ (fuel : Nat) (b : List BacklogEntry), b.length - BACKLOG_LIMIT ≤ fuel →
      EtwLogger.popExcess fuel b = b.drop (b.length - BACKLOG_LIMIT) := by
  intro fuel
  induction fuel with
  | zero =>
    intro b h
    have h0 : b.length - BACKLOG_LIMIT = 0 := by omega
    simp [EtwLogger.popExcess, h0]
  | succ f ih =>
    intro b h
    simp only [EtwLogger.popExcess]
    split
    · rename_i hgt
      cases b with
      | nil => simp at hgt
      | cons x t =>
        simp only [List.tail_cons, List.length_cons] at hgt ⊢
        rw [ih t (by simp at h; omega)]
        have hsub : t.length + 1 - BACKLOG_LIMIT = (t.length - BACKLOG_LIMIT) + 1 := by omega
        rw [hsub, List.drop_succ_cons]
    · rename_i hle
      have h0 : b.length - BACKLOG_LIMIT = 0 := by omega
      simp [h0]

theorem popExcess_length (b : List BacklogEntry) :
    (EtwLogger.popExcess b.length b).length ≤ BACKLOG_LIMIT := by
  rw [popExcess_eq_drop b.length b (by omega), List.length_drop]
  omega

theorem close_backlog (env : Env) (w w1 : World) (this this1 : EtwLogger)
    (h : EtwLogger.close env w this = some (w1, this1)) : this1.backlog_ = this.backlog_ := by
  simp only [EtwLogger.close] at h
  split at h
  · simp only [Option.some.injEq, Prod.mk.injEq] at h
    rw [← h.2]
  · split at h
    · split at h
      · cases h
      · split at h
        · cases h
        · simp only [Option.some.injEq, Prod.mk.injEq] at h
          rw [← h.2]
    · simp only [Option.some.injEq, Prod.mk.injEq] at h
      rw [← h.2]

theorem writeFailed_backlog (env : Env) (w w1 : World) (this this1 : EtwLogger) (status : Nat)
    (h : EtwLogger.writeFailed env w this status = some (w1, this1)) :
    this1.backlog_ = this.backlog_ := by
  simp only [EtwLogger.writeFailed] at h
  split at h
  · cases h
  · split at h
    · cases h
    · have hc := close_backlog env _ w1 _ this1 h
      simpa using hc

theorem keep_last_append (A B : List BacklogEntry) (L : Nat) :
    (A.drop (A.length - L) ++ B).drop ((A.drop (A.length - L) ++ B).length - L) =
      (A ++ B).drop ((A ++ B).length - L) := by
  have h1 : A.drop (A.length - L) ++ B = (A ++ B).drop (A.length - L) := by
    rw [List.drop_append_of_le_length (by omega)]
  rw [h1, List.drop_drop]
  congr 1
  simp only [List.length_drop, List.length_append]
  omega

theorem logBodyInternalLoop_backlog (env : Env) (err : Erref) (sev : Severity) :
    ∀ (fuel : Nat) (w w1 : World) (this this1 : EtwLogger) (cur next : Erref),
      EtwLogger.logBodyInternalLoop env err sev fuel w this cur next = some (w1, this1) →
      this1.backlog_ = this.backlog_ := by
  intro fuel
  induction fuel with
  | zero => intro w w1 this this1 cur next h; simp [EtwLogger.logBodyInternalLoop] at h
  | succ f ih =>
    intro w w1 this this1 cur next h
    cases cur with
    | none =>
      simp only [EtwLogger.logBodyInternalLoop, Option.some.injEq, Prod.mk.injEq] at h
      rw [← h.2]
    | some c =>
      simp only [EtwLogger.logBodyInternalLoop] at h
      split at h
      · cases h
      · split at h
        · exact ih _ _ _ _ _ _ h
        · exact writeFailed_backlog env _ w1 this this1 _ h

theorem processBacklogL_backlog (env : Env) :
    ∀ (fuel : Nat) (w w1 : World) (this this1 : EtwLogger),
      EtwLogger.processBacklogL env fuel w this = some (w1, this1) → this1.backlog_ = [] := by
  intro fuel
  induction fuel with
  | zero => intro w w1 this this1 h; simp [EtwLogger.processBacklogL] at h
  | succ f ih =>
    intro w w1 this this1 h
    simp only [EtwLogger.processBacklogL] at h
    split at h
    · rename_i hb
      simp only [Option.some.injEq, Prod.mk.injEq] at h
      rw [← h.2]; exact hb
    · split at h
      · cases h
      · exact ih _ _ _ _ h

theorem logBody_backlog_le (env : Env) (w w1 : World) (this this1 : EtwLogger) (err : Erref)
    (sev : Severity) (entity : Option LogEntity)
    (hb : this.backlog_.length ≤ BACKLOG_LIMIT)
    (h : EtwLogger.logBody env w this err sev entity = some (w1, this1)) :
    this1.backlog_.length ≤ BACKLOG_LIMIT := by
  simp only [EtwLogger.logBody] at h
  split at h
  · simp only [Option.some.injEq, Prod.mk.injEq] at h
    rw [← h.2]; exact hb
  · split at h
    · split at h
      · cases h
      · rename_i w2 this2 hproc
        have h1 := processBacklogL_backlog env _ _ _ _ _ hproc
        have h2 := logBodyInternalLoop_backlog env err sev _ _ _ _ _ _ _ h
        rw [h2, h1]
        simp
    · simp only [Option.some.injEq, Prod.mk.injEq] at h
      rw [← h.2]
      have := popExcess_length
        (this.backlog_ ++ [{ err_ := err, sev_ := sev, entity_ := entity }])
      simpa using this

theorem step_backlog_le (env : Env) (w w1 : World) (this this1 : EtwLogger) (op : LoggerOp)
    (hb : this.backlog_.length ≤ BACKLOG_LIMIT)
    (h : EtwLogger.step env w this op = some (w1, this1)) :
    this1.backlog_.length ≤ BACKLOG_LIMIT := by
  cases op with
  | log err sev entity =>
    simp only [EtwLogger.step, EtwLogger.log, Logger.log] at h
    cases err with
    | none =>
      simp only [Option.some.injEq, Prod.mk.injEq] at h
      rw [← h.2]; exact hb
    | some e =>
      simp only at h
      cases hlb : EtwLogger.logBody env w this (some e) sev entity with
      | none => rw [hlb] at h; simp at h
      | some r =>
        obtain ⟨w2, this2⟩ := r
        rw [hlb] at h
        simp only [Option.some.injEq, Prod.mk.injEq] at h
        rw [← h.2]
        exact logBody_backlog_le env w w2 this this2 (some e) sev entity hb hlb
  | poll =>
    simp only [EtwLogger.step, EtwLogger.poll] at h
    split at h
    · simp only [Option.some.injEq, Prod.mk.injEq] at h
      rw [← h.2]; exact hb
    · rw [processBacklogL_backlog env _ _ _ _ _ h]
      simp
  | signal isEnabled level =>
    simp only [EtwLogger.step, Option.some.injEq, Prod.mk.injEq] at h
    rw [← h.2]
    simp only [EtwLogger.callback]
    split
    · exact hb
    · split
      · split <;> exact hb
      · exact hb
  | close =>
    simp only [EtwLogger.step] at h
    rw [close_backlog env w w1 this this1 h]
    exact hb

theorem run_backlog_le (env : Env) :
    ∀ (ops : List LoggerOp) (w w1 : World) (this this1 : EtwLogger),
      this.backlog_.length ≤ BACKLOG_LIMIT →
      EtwLogger.run env ops w this = some (w1, this1) →
      this1.backlog_.length ≤ BACKLOG_LIMIT := by
  intro ops
  induction ops with
  | nil =>
    intro w w1 this this1 hb h
    simp only [EtwLogger.run, Option.some.injEq, Prod.mk.injEq] at h
    rw [← h.2]; exact hb
  | cons op rest ih =>
    intro w w1 this this1 hb h
    simp only [EtwLogger.run] at h
    cases hs : EtwLogger.step env w this op with
    | none => rw [hs] at h; cases h
    | some r =>
      obtain ⟨w2, this2⟩ := r
      rw [hs] at h
      exact ih w2 w1 this2 this1 (step_backlog_le env w w2 this this2 op hb hs) h

theorem construct_backlog (env : Env) (w w1 : World) (guidName : WString)
    (minSeverity : Severity) (this : EtwLogger)
    (h : EtwLogger.construct env w guidName minSeverity = some (w1, this)) :
    this.backlog_ = [] ∧ this.enabled_ = false := by
  simp only [EtwLogger.construct] at h
  split at h
  · split at h
    · cases h
    · simp only [Option.some.injEq, Prod.mk.injEq] at h
      obtain ⟨_, rfl⟩ := h
      exact ⟨rfl, rfl⟩
  · simp only [Option.some.injEq, Prod.mk.injEq] at h
    obtain ⟨_, rfl⟩ := h
    exact ⟨rfl, rfl⟩

/-- Accepted `log` calls on a disabled open sink append to the backlog and keep its last
`BACKLOG_LIMIT` entries. -/
theorem run_log_disabled (env : Env) (w : World) :
    ∀ (entries : List BacklogEntry) (this : EtwLogger),
      this.h_ ≠ none → this.enabled_ = false → this.backlog_.length ≤ BACKLOG_LIMIT →
      (∀ e ∈ entries, e.err_ ≠ none ∧ this.minSeverity_.toNat ≤ e.sev_.toNat) →
      EtwLogger.run env (entries.map (fun e => LoggerOp.log e.err_ e.sev_ e.entity_)) w this =
        some (w, { this with backlog_ :=
          (this.backlog_ ++ entries).drop ((this.backlog_ ++ entries).length - BACKLOG_LIMIT) })
    := by
  intro entries
  induction entries with
  | nil =>
    intro this _ _ hb _
    have h0 : this.backlog_.length - BACKLOG_LIMIT = 0 := by omega
    simp [EtwLogger.run, h0]
  | cons e rest ih =>
    intro this hopen hdis hb hacc
    obtain ⟨herr, hsev⟩ := hacc e (List.mem_cons_self _ _)
    obtain ⟨a, ha⟩ : ∃ a, e.err_ = some a := by
      cases he : e.err_ with
      | none => exact absurd he herr
      | some a => exact ⟨a, rfl⟩
    have hstep : EtwLogger.step env w this (LoggerOp.log e.err_ e.sev_ e.entity_) =
        some (w, { this with backlog_ :=
          (this.backlog_ ++ [e]).drop ((this.backlog_ ++ [e]).length - BACKLOG_LIMIT) }) := by
      have hpop := popExcess_eq_drop (this.backlog_ ++ [e]).length (this.backlog_ ++ [e])
        (by omega)
      have hnot : ¬ (e.sev_.toNat < this.minSeverity_.toNat ∨ this.h_ = none) := by
        intro h
        rcases h with h | h
        · omega
        · exact hopen h
      have he : ({ err_ := some a, sev_ := e.sev_, entity_ := e.entity_ } : BacklogEntry) = e := by
        cases e
        simp only at ha
        subst ha
        rfl
      simp only [EtwLogger.step, EtwLogger.log, Logger.log, ha, EtwLogger.logBody, hdis]
      rw [← ha] at *
      simp only [ha, hnot, if_false, Bool.false_eq_true, he, hpop]
    simp only [List.map_cons, EtwLogger.run, hstep]
    have hacc2 : ∀ x ∈ rest, x.err_ ≠ none ∧ this.minSeverity_.toNat ≤ x.sev_.toNat :=
      fun x hx => hacc x (List.mem_cons_of_mem _ hx)
    have h2 := ih
      { this with backlog_ :=
          (this.backlog_ ++ [e]).drop ((this.backlog_ ++ [e]).length - BACKLOG_LIMIT) }
      hopen hdis (by simp only [List.length_drop, List.length_append]; omega) hacc2
    rw [h2]
    simp only [keep_last_append]
    simp

/-- C11: the backlog bound and the eviction of the oldest entries.  The constructor leaves
an empty backlog, and every sequence of `log`, `poll`, signal and `close` operations that
starts with at most `BACKLOG_LIMIT` (4096) entries ends with at most `BACKLOG_LIMIT`
entries; after `N` accepted `log` calls on a disabled open sink whose backlog was empty
the backlog holds the last `min N 4096` entries, in call order, and nothing was emitted. -/
theorem backlog_bound :
    BACKLOG_LIMIT = 4096 ∧
    (∀ (env : Env) (w w1 : World) (guidName : WString) (minSeverity : Severity)
      (this : EtwLogger), EtwLogger.construct env w guidName minSeverity = some (w1, this) →
      this.backlog_ = []) ∧
    (∀ (env : Env) (ops : List LoggerOp) (w w1 : World) (this this1 : EtwLogger),
      this.backlog_.length ≤ BACKLOG_LIMIT →
      EtwLogger.run env ops w this = some (w1, this1) →
      this1.backlog_.length ≤ BACKLOG_LIMIT) ∧
    (∀ (env : Env) (w : World) (this : EtwLogger) (entries : List BacklogEntry),
      this.h_ ≠ none → this.enabled_ = false → this.backlog_ = [] →
      (∀ e ∈ entries, e.err_ ≠ none ∧ this.minSeverity_.toNat ≤ e.sev_.toNat) →
      EtwLogger.run env (entries.map (fun e => LoggerOp.log e.err_ e.sev_ e.entity_)) w this =
          some (w, { this with backlog_ := entries.drop (entries.length - BACKLOG_LIMIT) }) ∧
        (entries.drop (entries.length - BACKLOG_LIMIT)).length =
          min entries.length BACKLOG_LIMIT) := by
  refine ⟨rfl, ?_, run_backlog_le, ?_⟩
  · intro env w w1 guidName minSeverity this h
    exact (construct_backlog env w w1 guidName minSeverity this h).1
  · intro env w this entries hopen hdis hempty hacc
    have h := run_log_disabled env w entries this hopen hdis (by rw [hempty]; simp) hacc
    rw [hempty] at h
    simp only [List.nil_append] at h
    refine ⟨h, ?_⟩
    rw [List.length_drop]
    omega

/-- Witness of C11: three accepted `log` calls on a new logger leave the three entries in
the backlog, in call order. -/
theorem backlog_bound_witness :
    (loggerNew .SV_INFO).h_ ≠ none ∧ (loggerNew .SV_INFO).enabled_ = false ∧
    (loggerNew .SV_INFO).backlog_ = [] ∧
    EtwLogger.run envOk
        [.log (some 0) .SV_ERROR none, .log (some 1) .SV_ERROR none,
         .log (some 2) .SV_ERROR none] worldFour (loggerNew .SV_INFO) =
      some (worldFour, { loggerNew .SV_INFO with backlog_ :=
        [{ err_ := some 0, sev_ := .SV_ERROR, entity_ := none },
         { err_ := some 1, sev_ := .SV_ERROR, entity_ := none },
         { err_ := some 2, sev_ := .SV_ERROR, entity_ := none }] }) :=
  ⟨by decide, by decide, by decide,
    (backlog_bound.2.2.2 envOk worldFour (loggerNew .SV_INFO)
      [{ err_ := some 0, sev_ := .SV_ERROR, entity_ := none },
       { err_ := some 1, sev_ := .SV_ERROR, entity_ := none },
       { err_ := some 2, sev_ := .SV_ERROR, entity_ := none }]
      (by decide) (by decide) (by decide) (by decide)).1⟩

/-! ## The records of one error -/

theorem getCode_some_of_chain (hp : Heap) (p : Erref) (l : List Nat)
    (h : isChain hp p l = true) : ∃ code, getCode hp p = some code := by
  cases p with
  | none => exact ⟨0, rfl⟩
  | some a =>
    obtain ⟨t, rfl⟩ := isChain_some_head hp a l h
    rw [isChain_cons_iff] at h
    obtain ⟨_, m, hm, _⟩ := h
    exact ⟨m.code_, by simp [getCode, hm]⟩

/-- The loop over the codes returns when it walks an acyclic chain towards `next`, a node
of that chain or `NULL`. -/
theorem codesLoop_some (hp : Heap) (next : Erref) :
    ∀ (slots : Nat) (l : List Nat) (eit : Erref), isChain hp eit l = true →
      (next = none ∨ ∃ b, next = some b ∧ b ∈ l) →
      ∃ codes, EtwLogger.codesLoop hp next slots eit = some codes := by
  intro slots
  induction slots with
  | zero => intro l eit _ _; exact ⟨[], rfl⟩
  | succ n ih =>
    intro l eit h hnext
    by_cases heq : eit = next
    · exact ⟨[], by simp [EtwLogger.codesLoop, heq]⟩
    · cases eit with
      | none =>
        rcases hnext with hn | ⟨b, hb, hmem⟩
        · exact absurd hn.symm heq
        · have hl : l = [] := by
            cases l with
            | nil => rfl
            | cons x t => simp [isChain] at h
          subst hl
          simp at hmem
      | some a =>
        obtain ⟨t, rfl⟩ := isChain_some_head hp a l h
        rw [isChain_cons_iff] at h
        obtain ⟨_, m, hm, ht⟩ := h
        have hnext2 : next = none ∨ ∃ b, next = some b ∧ b ∈ t := by
          rcases hnext with hn | ⟨b, hb, hmem⟩
          · exact Or.inl hn
          · right
            refine ⟨b, hb, ?_⟩
            rcases List.mem_cons.mp hmem with hba | hbt
            · subst hba
              exact absurd hb.symm heq
            · exact hbt
        obtain ⟨codes, hcodes⟩ := ih t m.chain_ ht hnext2
        exact ⟨(m.code_ &&& 0x3FFFFFFF) :: codes, by
          simp [EtwLogger.codesLoop, heq, hm, hcodes]⟩

theorem getElem?_none_or_mem (l : List Nat) (k : Nat) :
    l[k]? = none ∨ ∃ b, l[k]? = some b ∧ b ∈ l := by
  cases h : l[k]? with
  | none => exact Or.inl rfl
  | some b => exact Or.inr ⟨b, rfl, List.getElem?_mem h⟩

/-- On an acyclic chain one pass of the loop of `logBodyInternalL` builds its record, and
the new `next` is a handle further down the chain. -/
theorem buildRecord_some (hp : Heap) (h : Option Nat) (err : Erref) (sev : Severity)
    (c : Nat) (next : Erref) (l : List Nat) (hl : isChain hp (some c) l = true)
    (herr : ∃ code, getCode hp err = some code) :
    ∃ r k, 1 ≤ k ∧ k ≤ l.length ∧
      EtwLogger.buildRecord hp h err sev c next = some (r, l[k]?) := by
  obtain ⟨k, hk1, hk2, hres, _⟩ := toLimitedString_count hp c STRING_LIMIT l hl
  obtain ⟨code, hcode⟩ := herr
  obtain ⟨codes, hcodes⟩ := codesLoop_some hp l[k]? (MSG_FIELD_LIMIT - 3) l (some c) hl
    (getElem?_none_or_mem l k)
  have hex : ∃ r, EtwLogger.buildRecord hp h err sev c next = some (r, l[k]?) := by
    simp only [EtwLogger.buildRecord, hres, hcode, hcodes]
    exact ⟨_, rfl⟩
  obtain ⟨r, hr⟩ := hex
  exact ⟨r, k, hk1, hk2, hr⟩

/-- For an acyclic chain the records of an error exist, at least one for a non-empty
handle. -/
theorem entryRecords_some (hp : Heap) (h : Option Nat) (err : Erref) (sev : Severity)
    (herr : ∃ code, getCode hp err = some code) :
    ∀ (n : Nat) (l : List Nat) (cur next : Erref) (fuel : Nat), l.length ≤ n →
      isChain hp cur l = true → l.length + 1 ≤ fuel →
      ∃ recs, EtwLogger.entryRecords hp h err sev fuel cur next = some recs ∧
        (cur ≠ none → recs ≠ []) := by
  intro n
  induction n with
  | zero =>
    intro l cur next fuel hn hl hf
    have hl0 : l = [] := List.length_eq_zero.mp (by omega)
    subst hl0
    rw [isChain_nil_iff] at hl
    subst hl
    obtain ⟨f, rfl⟩ : ∃ f, fuel = f + 1 := ⟨fuel - 1, by omega⟩
    exact ⟨[], rfl, fun hne => absurd rfl hne⟩
  | succ n ih =>
    intro l cur next fuel hn hl hf
    obtain ⟨f, rfl⟩ : ∃ f, fuel = f + 1 := ⟨fuel - 1, by omega⟩
    cases cur with
    | none => exact ⟨[], rfl, fun hne => absurd rfl hne⟩
    | some c =>
      obtain ⟨r, k, hk1, hk2, hb⟩ := buildRecord_some hp h err sev c next l hl herr
      have hdrop := isChain_drop hp l _ k hl
      obtain ⟨rest, hrest, _⟩ := ih (l.drop k) l[k]? l[k]? f
        (by simp only [List.length_drop]; omega) hdrop
        (by simp only [List.length_drop]; omega)
      exact ⟨r :: rest, by simp [EtwLogger.entryRecords, hb, hrest], fun _ => by simp⟩

theorem recordsOf_some (hp : Heap) (h : Option Nat) (e : BacklogEntry) (l : List Nat)
    (hl : isChain hp e.err_ l = true) :
    ∃ recs, EtwLogger.recordsOf hp h e = some recs ∧ (e.err_ ≠ none → recs ≠ []) :=
  entryRecords_some hp h e.err_ e.sev_ (getCode_some_of_chain hp _ l hl) l.length l e.err_ none
    (hp.length + 1) (le_refl _) hl (by have := isChain_length_le hp l _ hl; omega)

theorem backlog_records_exist (hp : Heap) (h : Option Nat) :
    ∀ b : List BacklogEntry, (∀ e ∈ b, ∃ l, isChain hp e.err_ l = true) →
      ∃ recs : List (List EventRecord),
        List.Forall₂ (fun e r => EtwLogger.recordsOf hp h e = some r ∧ (e.err_ ≠ none → r ≠ []))
          b recs := by
  intro b
  induction b with
  | nil => intro _; exact ⟨[], List.Forall₂.nil⟩
  | cons e rest ih =>
    intro hall
    obtain ⟨l, hl⟩ := hall e (List.mem_cons_self _ _)
    obtain ⟨r, hr⟩ := recordsOf_some hp h e l hl
    obtain ⟨rs, hrs⟩ := ih (fun x hx => hall x (List.mem_cons_of_mem _ hx))
    exact ⟨r :: rs, List.Forall₂.cons hr hrs⟩

/-! ## Logging without a fatal status -/

/-- When every status is tolerated the loop of `logBodyInternalL` appends the records of
the error to the calls of `EventWrite` and changes nothing else. -/
theorem logBodyInternalLoop_ok (env : Env) (err : Erref) (sev : Severity)
    (hok : ∀ n r, EtwLogger.isTolerated (env.eventWrite n r) = true) :
    ∀ (fuel : Nat) (w : World) (this : EtwLogger) (cur next : Erref),
      EtwLogger.logBodyInternalLoop env err sev fuel w this cur next =
        (EtwLogger.entryRecords w.hp this.h_ err sev fuel cur next).map
          (fun recs => ({ w with emitted := w.emitted ++ recs }, this)) := by
  intro fuel
  induction fuel with
  | zero => intro w this cur next; rfl
  | succ f ih =>
    intro w this cur next
    cases cur with
    | none => simp [EtwLogger.logBodyInternalLoop, EtwLogger.entryRecords]
    | some c =>
      simp only [EtwLogger.logBodyInternalLoop, EtwLogger.entryRecords]
      cases hb : EtwLogger.buildRecord w.hp this.h_ err sev c next with
      | none => rfl
      | some r =>
        obtain ⟨record, next1⟩ := r
        simp only [hok, if_true]
        rw [ih]
        cases hrest : EtwLogger.entryRecords w.hp this.h_ err sev f next1 next1 with
        | none => rfl
        | some rest => simp

theorem logBodyInternalL_ok (env : Env) (w : World) (this : EtwLogger) (e : BacklogEntry)
    (hok : ∀ n r, EtwLogger.isTolerated (env.eventWrite n r) = true) :
    EtwLogger.logBodyInternalL env w this e.err_ e.sev_ e.entity_ =
      (EtwLogger.recordsOf w.hp this.h_ e).map
        (fun recs => ({ w with emitted := w.emitted ++ recs }, this)) :=
  logBodyInternalLoop_ok env e.err_ e.sev_ hok _ w this e.err_ none

/-- When every status is tolerated the drain of an open sink appends the records of the
backlog entries, in order, and empties the backlog. -/
theorem processBacklogL_ok (env : Env)
    (hok : ∀ n r, EtwLogger.isTolerated (env.eventWrite n r) = true) :
    ∀ (b : List BacklogEntry) (recs : List (List EventRecord)) (fuel : Nat) (w : World)
      (this : EtwLogger), this.h_ ≠ none → this.backlog_ = b → b.length + 1 ≤ fuel →
      List.Forall₂ (fun e r => EtwLogger.recordsOf w.hp this.h_ e = some r ∧
        (e.err_ ≠ none → r ≠ [])) b recs →
      EtwLogger.processBacklogL env fuel w this =
        some ({ w with emitted := w.emitted ++ recs.flatten }, { this with backlog_ := [] }) := by
  intro b
  induction b with
  | nil =>
    intro recs fuel w this _ hb hf hF
    cases hF
    obtain ⟨f, rfl⟩ : ∃ f, fuel = f + 1 := ⟨fuel - 1, by simp at hf; omega⟩
    simp only [EtwLogger.processBacklogL, hb, List.flatten_nil, List.append_nil]
    rw [← hb]
  | cons e rest ih =>
    intro recs fuel w this hopen hb hf hF
    cases hF with
    | cons hr hrs =>
      rename_i r rs
      obtain ⟨f, rfl⟩ : ∃ f, fuel = f + 1 := ⟨fuel - 1, by simp at hf; omega⟩
      simp only [EtwLogger.processBacklogL, hb, hopen, ne_eq, not_false_eq_true, if_true]
      rw [logBodyInternalL_ok env w this e hok, hr.1]
      simp only [Option.map_some']
      have h2 := ih rs f { w with emitted := w.emitted ++ r }
        { this with backlog_ := this.backlog_.tail } hopen (by simp [hb])
        (by simp at hf ⊢; omega) hrs
      rw [h2]
      simp [List.append_assoc]

theorem callback_enable_fields (level : Nat) (this : EtwLogger) :
    (EtwLogger.callback EVENT_CONTROL_CODE_ENABLE_PROVIDER level this).h_ = this.h_ ∧
    (EtwLogger.callback EVENT_CONTROL_CODE_ENABLE_PROVIDER level this).backlog_ = this.backlog_ ∧
    (EtwLogger.callback EVENT_CONTROL_CODE_ENABLE_PROVIDER level this).enabled_ = true := by
  simp only [EtwLogger.callback, EVENT_CONTROL_CODE_ENABLE_PROVIDER,
    EVENT_CONTROL_CODE_DISABLE_PROVIDER]
  simp only [show ¬ ((1 : Nat) = 0) by decide, if_false, if_true]
  split <;> exact ⟨rfl, rfl, rfl⟩

/-- An accepted `log` call on an enabled open sink, when every status is tolerated: the
records of the backlog entries, in order, then the records of the new error; the backlog is
empty afterwards. -/
theorem logBody_enabled_ok (env : Env) (w : World) (t : EtwLogger) (m : BacklogEntry)
    (recs : List (List EventRecord)) (rm : List EventRecord)
    (hopen : t.h_ ≠ none) (hen : t.enabled_ = true)
    (hok : ∀ n r, EtwLogger.isTolerated (env.eventWrite n r) = true)
    (hsev : t.minSeverity_.toNat ≤ m.sev_.toNat)
    (hF : List.Forall₂ (fun e r => EtwLogger.recordsOf w.hp t.h_ e = some r ∧
      (e.err_ ≠ none → r ≠ [])) t.backlog_ recs)
    (hrm : EtwLogger.recordsOf w.hp t.h_ m = some rm) :
    EtwLogger.logBody env w t m.err_ m.sev_ m.entity_ =
      some ({ w with emitted := w.emitted ++ recs.flatten ++ rm }, { t with backlog_ := [] }) := by
  have hgate : ¬ (m.sev_.toNat < t.minSeverity_.toNat ∨ t.h_ = none) := by
    intro h
    rcases h with h | h
    · omega
    · exact hopen h
  simp only [EtwLogger.logBody, hgate, if_false, hen, if_true]
  rw [processBacklogL_ok env hok t.backlog_ recs _ w t hopen rfl (le_refl _) hF]
  simp only
  rw [logBodyInternalL_ok env _ _ m hok]
  simp only [hrm, Option.map_some']
  simp [hen]

/-- C14: the drain on enable.  For an open sink with the backlog `e1..ek` (as a disabled
sink has collected it), after the enable signal the first accepted `log(m)` (no fatal
status of `EventWrite`, acyclic chains) returns, and the calls of `EventWrite` it makes
are the records of `e1`, ..., `ek` in insertion order and then the records of `m` (at
least one record for each non-empty error); the backlog is empty afterwards. -/
theorem drain_on_enable (env : Env) (w : World) (this : EtwLogger) (level : Nat)
    (m : BacklogEntry) (hopen : this.h_ ≠ none)
    (hok : ∀ n r, EtwLogger.isTolerated (env.eventWrite n r) = true)
    (hch : ∀ e ∈ this.backlog_, ∃ l, isChain w.hp e.err_ l = true)
    (hm : ∃ a l, m.err_ = some a ∧ isChain w.hp (some a) l = true)
    (hsev : (EtwLogger.callback EVENT_CONTROL_CODE_ENABLE_PROVIDER level this).minSeverity_.toNat
      ≤ m.sev_.toNat) :
    ∃ (recs : List (List EventRecord)) (rm : List EventRecord),
      List.Forall₂ (fun e r => EtwLogger.recordsOf w.hp this.h_ e = some r ∧
        (e.err_ ≠ none → r ≠ [])) this.backlog_ recs ∧
      EtwLogger.recordsOf w.hp this.h_ m = some rm ∧ rm ≠ [] ∧
      EtwLogger.log env w (some (EtwLogger.callback EVENT_CONTROL_CODE_ENABLE_PROVIDER level this))
          m.err_ m.sev_ m.entity_ =
        some ({ w with emitted := w.emitted ++ recs.flatten ++ rm },
          some { EtwLogger.callback EVENT_CONTROL_CODE_ENABLE_PROVIDER level this with
                 backlog_ := [] }) := by
  obtain ⟨a, l, ha, hl⟩ := hm
  obtain ⟨recs, hF⟩ := backlog_records_exist w.hp this.h_ this.backlog_ hch
  obtain ⟨rm, hrm, hne⟩ := recordsOf_some w.hp this.h_ m l (ha ▸ hl)
  obtain ⟨hth, htb, hte⟩ := callback_enable_fields level this
  refine ⟨recs, rm, hF, hrm, hne (by rw [ha]; simp), ?_⟩
  have hbody := logBody_enabled_ok env w
    (EtwLogger.callback EVENT_CONTROL_CODE_ENABLE_PROVIDER level this) m recs rm
    (by rw [hth]; exact hopen) hte hok hsev (by rw [hth, htb]; exact hF) (by rw [hth]; exact hrm)
  simp only [EtwLogger.log, Logger.log, ha]
  rw [ha] at hbody
  rw [hbody]

/-- Witness of C14: three Error-level `log` calls on a new logger, the enable signal with
the level 4 (Info), then a fourth call: the four records are written in call order. -/
theorem drain_on_enable_witness :
    (EtwLogger.run envOk
        [.log (some 0) .SV_ERROR none, .log (some 1) .SV_ERROR none,
         .log (some 2) .SV_ERROR none, .signal EVENT_CONTROL_CODE_ENABLE_PROVIDER 4,
         .log (some 3) .SV_INFO none] worldFour (loggerNew .SV_INFO)).map
        (fun r => (r.1.emitted.map (fun rec => rec.text), r.2.backlog_)) =
      some (["E Widget:1:0x1: one\n".toList, "E Widget:2:0x2: two\n".toList,
             "E Widget:3:0x3: three\n".toList, "I Widget:4:0x4: four\n".toList], []) ∧
    ∃ (recs : List (List EventRecord)) (rm : List EventRecord),
      List.Forall₂ (fun e r => EtwLogger.recordsOf hpFourErrors (some 7) e = some r ∧
        (e.err_ ≠ none → r ≠ []))
        [{ err_ := some 0, sev_ := .SV_ERROR, entity_ := none },
         { err_ := some 1, sev_ := .SV_ERROR, entity_ := none },
         { err_ := some 2, sev_ := .SV_ERROR, entity_ := none }] recs ∧
      EtwLogger.recordsOf hpFourErrors (some 7)
        { err_ := some 3, sev_ := .SV_INFO, entity_ := none } = some rm ∧ rm ≠ [] ∧
      EtwLogger.log envOk worldFour
          (some (EtwLogger.callback EVENT_CONTROL_CODE_ENABLE_PROVIDER 4
            { loggerNew .SV_INFO with backlog_ :=
              [{ err_ := some 0, sev_ := .SV_ERROR, entity_ := none },
               { err_ := some 1, sev_ := .SV_ERROR, entity_ := none },
               { err_ := some 2, sev_ := .SV_ERROR, entity_ := none }] }))
          (some 3) .SV_INFO none =
        some ({ worldFour with emitted := worldFour.emitted ++ recs.flatten ++ rm },
          some { EtwLogger.callback EVENT_CONTROL_CODE_ENABLE_PROVIDER 4
            { loggerNew .SV_INFO with backlog_ :=
              [{ err_ := some 0, sev_ := .SV_ERROR, entity_ := none },
               { err_ := some 1, sev_ := .SV_ERROR, entity_ := none },
               { err_ := some 2, sev_ := .SV_ERROR, entity_ := none }] } with backlog_ := [] }) :=
  ⟨by decide,
    drain_on_enable envOk worldFour
      { loggerNew .SV_INFO with backlog_ :=
        [{ err_ := some 0, sev_ := .SV_ERROR, entity_ := none },
         { err_ := some 1, sev_ := .SV_ERROR, entity_ := none },
         { err_ := some 2, sev_ := .SV_ERROR, entity_ := none }] } 4
      { err_ := some 3, sev_ := .SV_INFO, entity_ := none } (by decide)
      (fun _ _ => rfl)
      (by
        intro e he
        simp only [List.mem_cons, List.mem_singleton, List.not_mem_nil, or_false] at he
        rcases he with rfl | rfl | rfl
        · exact ⟨[0], by decide⟩
        · exact ⟨[1], by decide⟩
        · exact ⟨[2], by decide⟩)
      ⟨3, [3], rfl, by decide⟩ (by decide)⟩

/-! ## The constructors build chains of new nodes -/

theorem length_le_of_kept (hp hp1 : Heap) (h : ∀ x : Nat, x < hp.length → hp1[x]? = hp[x]?) :
    hp.length ≤ hp1.length := by
  by_contra hlt
  have hpos : 0 < hp.length := by omega
  have h1 := h (hp.length - 1) (by omega)
  rw [List.getElem?_eq_none (by omega), List.getElem?_eq_getElem (by omega)] at h1
  cases h1

theorem fresh_rebase (hp hp1 hp2 : Heap) (p : Erref)
    (hk : ∀ x : Nat, x < hp.length → hp1[x]? = hp[x]?) (h : FreshChain hp1 hp2 p) :
    FreshChain hp hp2 p := by
  have hle := length_le_of_kept hp hp1 hk
  obtain ⟨hk2, l, hl, hfresh⟩ := h
  refine ⟨fun x hx => ?_, l, hl, fun x hx => ?_⟩
  · rw [hk2 x (by omega), hk x hx]
  · have := hfresh x hx
    omega

theorem fresh_alloc (hp : Heap) (n : ErrorMsg) (hn : n.chain_ = none) :
    FreshChain hp (hp ++ [n]) (some hp.length) := by
  refine ⟨fun x hx => List.getElem?_append_left hx, [hp.length], ?_, ?_⟩
  · rw [isChain_cons_iff]
    refine ⟨rfl, n, ?_, ?_⟩
    · rw [List.getElem?_append_right (Nat.le_refl _)]
      simp
    · rw [hn]; rfl
  · intro x hx
    simp at hx
    omega

theorem fresh_mkSystem (env : Env) (hp : Heap) (code : Nat) :
    FreshChain hp (mkSystem env hp code).1 (mkSystem env hp code).2 :=
  fresh_alloc hp _ rfl

theorem fresh_mkStringPlain (hp : Heap) (source : Source) (code : Nat) (text : WString) :
    FreshChain hp (mkStringPlain hp source code text).1
      (some (mkStringPlain hp source code text).2) :=
  fresh_alloc hp _ rfl

/-- Splicing a chain of newer nodes into a chain of new nodes gives a chain of new nodes. -/
theorem fresh_splice (hp hp1 hp2 : Heap) (s : Nat) (o : Erref)
    (hs : FreshChain hp hp1 (some s)) (ho : FreshChain hp1 hp2 o) :
    ∃ hp3, splice hp2 (some s) o = some (hp3, some s) ∧ FreshChain hp hp3 (some s) := by
  obtain ⟨hk1, ls, hls, hfs⟩ := hs
  obtain ⟨hk2, lo, hlo, hfo⟩ := ho
  have hle := length_le_of_kept hp hp1 hk1
  have hlt1 := isChain_lt hp1 ls _ hls
  have hls2 : isChain hp2 (some s) ls = true :=
    isChain_congr hp1 hp2 ls _ (fun a ha => hk2 a (hlt1 a ha)) hls
  have hkeep : ∀ x : Nat, x < hp.length → hp2[x]? = hp[x]? := by
    intro x hx
    rw [hk2 x (by omega), hk1 x hx]
  cases o with
  | none => exact ⟨hp2, rfl, hkeep, ls, hls2, hfs⟩
  | some ov =>
    obtain ⟨t, rfl⟩ := isChain_some_head hp2 s ls hls2
    have hdisj : ∀ x ∈ lo, x ∉ s :: t := by
      intro x hx hmem
      have h1 := hfo x hx
      have h2 := hlt1 x hmem
      omega
    obtain ⟨hp3, hsp, hch, _, hfr⟩ := splice_chain hp2 s ov t lo hls2 hlo hdisj
    refine ⟨hp3, hsp, fun x hx => ?_, s :: (lo ++ t), hch, ?_⟩
    · have hxs : x ≠ s := by
        have := hfs s (List.mem_cons_self _ _)
        omega
      have hxlo : x ∉ lo := by
        intro hmem
        have := hfo x hmem
        omega
      rw [hfr x hxs hxlo, hkeep x hx]
    · intro x hx
      rcases List.mem_cons.mp hx with rfl | hx
      · exact hfs x (List.mem_cons_self _ _)
      · rcases List.mem_append.mp hx with h1 | h1
        · have := hfo x h1
          omega
        · exact hfs x (List.mem_cons_of_mem _ h1)

theorem fresh_mkStringVa (hp : Heap) (source : Source) (code : Nat) (text : WString) :
    ∃ hp1 a, mkStringVa hp source code text = some (hp1, some a) ∧
      FreshChain hp hp1 (some a) := by
  by_cases hmui : source.muiModule_ = none
  · exact ⟨_, _, by simp [mkStringVa, hmui], fresh_mkStringPlain hp source code text⟩
  · have h1 := fresh_mkStringPlain hp source code text
    have h2 := fresh_mkStringPlain (mkStringPlain hp source code text).1
      internalErrorSource MUST_USE_MUI (mustUseMuiText source.name_)
    obtain ⟨hp3, hsp, hfr⟩ := fresh_splice hp _ _ _ _ h1 h2
    exact ⟨hp3, _, by simp [mkStringVa, hmui, hsp], hfr⟩

/-- The assignment `err->chain_ = other` on a new node without a chain. -/
theorem fresh_link (hp hp1 hp2 : Heap) (s : Nat) (o : Erref) (m : ErrorMsg)
    (hk : ∀ x : Nat, x < hp.length → hp1[x]? = hp[x]?) (hs : hp.length ≤ s)
    (hm : hp1[s]? = some m) (hmc : m.chain_ = none) (ho : FreshChain hp1 hp2 o) :
    ∃ hp3, setChain hp2 s o = some hp3 ∧ FreshChain hp hp3 (some s) := by
  obtain ⟨hk2, lo, hlo, hfo⟩ := ho
  have hslt : s < hp1.length := by
    by_contra hge
    rw [List.getElem?_eq_none (by omega)] at hm
    cases hm
  have hm2 : hp2[s]? = some m := by rw [hk2 s hslt]; exact hm
  have hset := setChain_eq_some hp2 s o m hm2
  have hs_lo : s ∉ lo := by
    intro hmem
    have := hfo s hmem
    omega
  have hch0 : isChain hp2 (some s) ([] ++ [s]) = true := by
    rw [List.nil_append, isChain_cons_iff]
    exact ⟨rfl, m, hm2, by rw [hmc]; rfl⟩
  have hlo3 : isChain (hp2.set s { m with chain_ := o }) o lo = true :=
    isChain_congr hp2 _ lo o
      (fun a ha => setChain_get_other hp2 _ s o hset a (fun h => hs_lo (h ▸ ha))) hlo
  have hch := isChain_relink hp2 _ s o lo hset hlo3 [] (some s) hch0 (by simp)
  have hle := length_le_of_kept hp hp1 hk
  refine ⟨_, hset, fun x hx => ?_, s :: lo, by simpa using hch, ?_⟩
  · rw [setChain_get_other hp2 _ s o hset x (by omega), hk2 x (by omega), hk x hx]
  · intro x hx
    rcases List.mem_cons.mp hx with rfl | hx
    · exact hs
    · have := hfo x hx
      omega

theorem fresh_mkSystemVa (env : Env) (hp : Heap) (sysCode : Nat) (source : Source)
    (appCode : Nat) (text : WString) :
    ∃ hp1 a, mkSystemVa env hp sysCode source appCode text = some (hp1, some a) ∧
      FreshChain hp hp1 (some a) := by
  have hsys := fresh_mkSystem env
    (hp ++ [{ source_ := some source, code_ := appCode, msg_ := text, chain_ := none }]) sysCode
  obtain ⟨hp2, hset, hfr⟩ := fresh_link hp _ _ hp.length _
    { source_ := some source, code_ := appCode, msg_ := text, chain_ := none }
    (fun x hx => List.getElem?_append_left hx) (le_refl _)
    (by rw [List.getElem?_append_right (Nat.le_refl _)]; simp) rfl hsys
  by_cases hmui : source.muiModule_ = none
  · exact ⟨hp2, hp.length, by simp [mkSystemVa, hset, hmui], hfr⟩
  · have h2 := fresh_mkStringPlain hp2 internalErrorSource MUST_USE_MUI
      (mustUseMuiText source.name_)
    obtain ⟨hp3, hsp, hfr3⟩ := fresh_splice hp hp2 _ _ _ hfr h2
    exact ⟨hp3, hp.length, by simp [mkSystemVa, hset, hmui, hsp], hfr3⟩

theorem fresh_mkMuiVa (env : Env) (hp : Heap) (source : Source) (code : Nat)
    (args : List WString) :
    ∃ hp1 a, mkMuiVa env hp source code args = some (hp1, some a) ∧
      FreshChain hp hp1 (some a) := by
  cases hmui : source.muiModule_ with
  | none =>
    have h1 := fresh_alloc hp
      { source_ := some source, code_ := code, msg_ := [], chain_ := none } rfl
    obtain ⟨hp2, b, hstr, h2⟩ := fresh_mkStringVa
      (hp ++ [{ source_ := some source, code_ := code, msg_ := [], chain_ := none }])
      internalErrorSource NO_MUI_HANDLE (noMuiHandleText source.name_)
    obtain ⟨hp3, hsp, hfr⟩ := fresh_splice hp _ _ _ _ h1 h2
    exact ⟨hp3, hp.length, by simp [mkMuiVa, hmui, hstr, hsp], hfr⟩
  | some module =>
    have h1 := fresh_alloc hp
      { source_ := some source, code_ := code,
        msg_ := muiStored (env.muiMessage module code args).2, chain_ := none } rfl
    by_cases hres : (env.muiMessage module code args).1 = 0
    · obtain ⟨hp2, b, hsv, h2⟩ := fresh_mkSystemVa env
        (hp ++ [{ source_ := some source, code_ := code,
                  msg_ := muiStored (env.muiMessage module code args).2, chain_ := none }])
        env.getLastError internalErrorSource MUI_NO_MESSAGE (muiNoMessageText source.name_ code)
      obtain ⟨hp3, hsp, hfr⟩ := fresh_splice hp _ _ _ _ h1 h2
      refine ⟨hp3, hp.length, ?_, hfr⟩
      simp only [mkMuiVa, hmui]
      rw [if_pos hres, hsv]
      exact hsp
    · refine ⟨_, hp.length, ?_, h1⟩
      simp only [mkMuiVa, hmui]
      rw [if_neg hres]

theorem fresh_mkMuiSystemVa (env : Env) (hp : Heap) (sysCode : Nat) (source : Source)
    (appCode : Nat) (args : List WString) :
    ∃ hp1 a, mkMuiSystemVa env hp sysCode source appCode args = some (hp1, some a) ∧
      FreshChain hp hp1 (some a) := by
  obtain ⟨hp1, a, hmui, h1⟩ := fresh_mkMuiVa env hp source appCode args
  have h2 := fresh_mkSystem env hp1 sysCode
  obtain ⟨hp3, hsp, hfr⟩ := fresh_splice hp hp1 _ a _ h1 h2
  exact ⟨hp3, a, by simp [mkMuiSystemVa, hmui, hsp], hfr⟩

/-! ## Recording a failure keeps the chains acyclic -/

theorem acyclic_of_kept (hp hp1 : Heap) (hk : ∀ x : Nat, x < hp.length → hp1[x]? = hp[x]?)
    (p : Erref) (h : Acyclic hp p) : Acyclic hp1 p := by
  obtain ⟨l, hl⟩ := h
  exact ⟨l, isChain_congr hp hp1 l p (fun a ha => hk a (isChain_lt hp l p hl a ha)) hl⟩

/-- A node without a chained node can only be the last node of a chain. -/
theorem isChain_mem_last (hp : Heap) (p : Erref) (l : List Nat) (e : Nat) (m : ErrorMsg)
    (h : isChain hp p l = true) (he : e ∈ l) (hm : hp[e]? = some m) (hmc : m.chain_ = none) :
    ∃ lf, l = lf ++ [e] := by
  obtain ⟨l1, l2, rfl⟩ := List.append_of_mem he
  have hs := isChain_suffix hp l1 e l2 p h
  rw [isChain_cons_iff] at hs
  obtain ⟨_, m2, hm2, hl2⟩ := hs
  rw [hm] at hm2
  cases hm2
  rw [hmc] at hl2
  have : l2 = [] := by
    cases l2 with
    | nil => rfl
    | cons x t => simp [isChain] at hl2
  subst this
  exact ⟨l1, rfl⟩

/-- Chaining an acyclic chain to a node that had no chained node keeps every chain
acyclic. -/
theorem acyclic_setChain_last (hp hp1 : Heap) (e : Nat) (m : ErrorMsg) (q : Erref)
    (hm : hp[e]? = some m) (hmc : m.chain_ = none) (hset : setChain hp e q = some hp1)
    (hq : Acyclic hp1 q) (p : Erref) (h : Acyclic hp p) : Acyclic hp1 p := by
  obtain ⟨l, hl⟩ := h
  obtain ⟨lq, hlq⟩ := hq
  by_cases he : e ∈ l
  · obtain ⟨lf, rfl⟩ := isChain_mem_last hp p l e m hl he hm hmc
    have hnd := isChain_nodup hp _ _ hl
    have he_lf : e ∉ lf := fun hmem =>
      (List.nodup_append.mp hnd).2.2 hmem (List.mem_singleton_self e)
    exact ⟨_, isChain_relink hp hp1 e q lq hset hlq lf p hl he_lf⟩
  · exact ⟨l, isChain_congr hp hp1 l p
      (fun a ha => setChain_get_other hp hp1 e q hset a (fun h => he (h ▸ ha))) hl⟩

/-- Appending a chain of new nodes to the recorded error: the call returns, the recorded
error is not empty and has an acyclic chain, and every chain of the old heap is still
acyclic. -/
theorem append_new_error (hp hp1 : Heap) (err : Erref) (a : Nat)
    (herr : Acyclic hp err) (hnew : FreshChain hp hp1 (some a)) :
    ∃ hp2 err2, append hp1 err (some a) = some (hp2, err2) ∧ err2 ≠ none ∧
      Acyclic hp2 err2 ∧ (∀ p, Acyclic hp p → Acyclic hp2 p) := by
  obtain ⟨hk, lo, hlo, hfo⟩ := hnew
  cases err with
  | none =>
    exact ⟨hp1, some a, rfl, by simp, ⟨lo, hlo⟩, fun p hp0 => acyclic_of_kept hp hp1 hk p hp0⟩
  | some s =>
    obtain ⟨ls, hls⟩ := herr
    have hlt := isChain_lt hp ls _ hls
    have hls1 : isChain hp1 (some s) ls = true :=
      isChain_congr hp hp1 ls _ (fun x hx => hk x (hlt x hx)) hls
    have hlsne : ls ≠ [] := by
      intro h; subst h; simp [isChain] at hls
    obtain ⟨lf, e, rfl⟩ := list_eq_dropLast_concat ls hlsne
    have hlen := isChain_length_le hp1 _ _ hls1
    have hwalk := walkToLast_chain hp1 lf e s hp1.length hls1 (by simpa using hlen)
    obtain ⟨me, hme, hmec⟩ := isChain_last hp1 lf e _ hls1
    have hset := setChain_eq_some hp1 e (some a) me hme
    have he_lo : e ∉ lo := by
      intro hmem
      have h1 := hfo e hmem
      have h2 := hlt e (by simp)
      omega
    have hlo2 : isChain (hp1.set e { me with chain_ := some a }) (some a) lo = true :=
      isChain_congr hp1 _ lo _
        (fun x hx => setChain_get_other hp1 _ e _ hset x (fun h => he_lo (h ▸ hx))) hlo
    have hpres : ∀ p, Acyclic hp p → Acyclic (hp1.set e { me with chain_ := some a }) p :=
      fun p hp0 => acyclic_setChain_last hp1 _ e me (some a) hme hmec hset ⟨lo, hlo2⟩ p
        (acyclic_of_kept hp hp1 hk p hp0)
    refine ⟨_, some s, ?_, by simp, hpres (some s) ⟨_, hls⟩, hpres⟩
    simp [append, hwalk, hset]

theorem kept_of_freshChain (hp hp1 : Heap) (p : Erref) (h : FreshChain hp hp1 p) :
    ∀ x : Nat, x < hp.length → hp1[x]? = hp[x]? :=
  h.1

/-- The method `close` returns on every logger with an acyclic recorded error; the handle is
`NULL` afterwards, the sink is disabled when it was open or disabled before, and no call
of `EventWrite` is made. -/
theorem close_total (env : Env) (w : World) (this : EtwLogger) (herr : Acyclic w.hp this.err_) :
    ∃ w1 t1, EtwLogger.close env w this = some (w1, t1) ∧ t1.h_ = none ∧
      (this.h_ ≠ none ∨ this.enabled_ = false → t1.enabled_ = false) ∧
      (this.err_ ≠ none → t1.err_ ≠ none) ∧ Acyclic w1.hp t1.err_ ∧
      (∀ p, Acyclic w.hp p → Acyclic w1.hp p) ∧ w1.emitted = w.emitted ∧
      t1.backlog_ = this.backlog_ := by
  cases hh : this.h_ with
  | none =>
    refine ⟨w, this, by simp [EtwLogger.close, hh], hh, ?_, id, herr, fun _ h => h, rfl, rfl⟩
    intro h
    rcases h with h | h
    · exact absurd rfl h
    · exact h
  | some hv =>
    by_cases hst : env.eventUnregister hv ≠ STATUS_SUCCESS
    · obtain ⟨hp1, a, hmk, hfresh⟩ := fresh_mkMuiSystemVa env w.hp env.getLastError
        (LogErrorSource env) env.EPEM_LOG_EVENT_UNREGISTER_FAIL [this.guidName_]
      obtain ⟨hp2, err2, happ, hne, hac, hpres⟩ :=
        append_new_error w.hp hp1 this.err_ a herr hfresh
      refine ⟨{ w with hp := hp2 }, { this with err_ := err2, h_ := none, enabled_ := false },
        ?_, rfl, fun _ => rfl, fun _ => hne, hac, hpres, rfl, rfl⟩
      simp only [EtwLogger.close, hh, hst, if_true, hmk, happ, ne_eq, not_false_eq_true]
    · refine ⟨w, { this with h_ := none, enabled_ := false }, ?_, rfl, fun _ => rfl, id, herr,
        fun _ h => h, rfl, rfl⟩
      simp only [EtwLogger.close, hh, hst, if_false]

/-- The branch of `logBodyInternalL` for a fatal status returns: the failure is recorded,
the sink is closed, and it is disabled when it was open or disabled before. -/
theorem writeFailed_total (env : Env) (w : World) (this : EtwLogger) (status : Nat)
    (herr : Acyclic w.hp this.err_) :
    ∃ w1 t1, EtwLogger.writeFailed env w this status = some (w1, t1) ∧ t1.h_ = none ∧
      (this.h_ ≠ none ∨ this.enabled_ = false → t1.enabled_ = false) ∧
      t1.err_ ≠ none ∧ Acyclic w1.hp t1.err_ ∧
      (∀ p, Acyclic w.hp p → Acyclic w1.hp p) ∧ w1.emitted = w.emitted ∧
      t1.backlog_ = this.backlog_ := by
  obtain ⟨hp1, a, hmk, hfresh⟩ := fresh_mkMuiSystemVa env w.hp status
    (LogErrorSource env) env.EPEM_LOG_EVENT_WRITE_FAIL [this.guidName_]
  obtain ⟨hp2, err2, happ, hne, hac, hpres⟩ :=
    append_new_error w.hp hp1 this.err_ a herr hfresh
  obtain ⟨w1, t1, hcl, h1, h2, h3, h4, h5, h6, h7⟩ :=
    close_total env { w with hp := hp2 } { this with err_ := err2 } hac
  refine ⟨w1, t1, ?_, h1, h2, h3 hne, h4, fun p hp0 => h5 p (hpres p hp0), h6, h7⟩
  simp only [EtwLogger.writeFailed, hmk, happ, hcl]

/-! ## Logging with a fatal status -/

theorem outcome_refl (env : Env) (w : World) (this : EtwLogger)
    (herr : Acyclic w.hp this.err_) : EtwLogger.Outcome env w this w this := by
  refine ⟨⟨[], by simp⟩, herr, fun _ h => h, id, Or.inl ⟨?_, rfl, rfl, rfl, rfl⟩⟩
  intro n r hn hr
  rw [List.getElem?_eq_none (by omega)] at hr
  cases hr

theorem outcome_congr (env : Env) (w w1 : World) (this this2 t1 t2 : EtwLogger)
    (h1 : this2.h_ = this.h_) (h2 : this2.enabled_ = this.enabled_) (h3 : this2.err_ = this.err_)
    (h4 : t2.h_ = t1.h_) (h5 : t2.enabled_ = t1.enabled_) (h6 : t2.err_ = t1.err_)
    (h : EtwLogger.Outcome env w this w1 t1) : EtwLogger.Outcome env w this2 w1 t2 := by
  simp only [EtwLogger.Outcome, EtwLogger.Failed, h1, h2, h3, h4, h5, h6] at h ⊢
  exact h

theorem outcome_trans (env : Env) (w w1 w2 : World) (this t1 t2 : EtwLogger)
    (ha : EtwLogger.Outcome env w this w1 t1) (hb : EtwLogger.Outcome env w1 t1 w2 t2) :
    EtwLogger.Outcome env w this w2 t2 := by
  obtain ⟨⟨r1, hr1⟩, _, hp1, hf1, hd1⟩ := ha
  obtain ⟨⟨r2, hr2⟩, hac2, hp2, hf2, hd2⟩ := hb
  refine ⟨⟨r1 ++ r2, by rw [hr2, hr1, List.append_assoc]⟩, hac2, fun p h => hp2 p (hp1 p h),
    fun h => hf2 (hf1 h), ?_⟩
  rcases hd2 with ⟨hc2, hh2, he2, her2, hhp2⟩ | hfail
  · rcases hd1 with ⟨hc1, hh1, he1, her1, hhp1⟩ | hfail1
    · left
      refine ⟨?_, by rw [hh2, hh1], by rw [he2, he1], by rw [her2, her1], by rw [hhp2, hhp1]⟩
      intro n r hn hr
      by_cases hlt : n < w1.emitted.length
      · apply hc1 n r hn
        rw [hr2, List.getElem?_append_left hlt] at hr
        exact hr
      · exact hc2 n r (by omega) hr
    · right
      exact hf2 hfail1
  · exact Or.inr hfail

theorem outcome_state (env : Env) (w w1 : World) (this t1 : EtwLogger)
    (h : EtwLogger.Outcome env w this w1 t1) (hs : this.h_ ≠ none ∨ this.enabled_ = false) :
    t1.h_ ≠ none ∨ t1.enabled_ = false := by
  rcases h.2.2.2.2 with ⟨_, hh, he, _, _⟩ | hfail
  · rw [hh, he]; exact hs
  · exact Or.inr hfail.2.1

/-- The loop of `logBodyInternalL` on an acyclic chain returns, whatever the statuses. -/
theorem logBodyInternalLoop_total (env : Env) (err : Erref) (sev : Severity) :
    ∀ (n : Nat) (l : List Nat) (cur next : Erref) (fuel : Nat) (w : World) (this : EtwLogger),
      l.length ≤ n → isChain w.hp cur l = true → l.length + 1 ≤ fuel →
      (∃ code, getCode w.hp err = some code) → Acyclic w.hp this.err_ →
      (this.h_ ≠ none ∨ this.enabled_ = false) →
      ∃ w1 t1, EtwLogger.logBodyInternalLoop env err sev fuel w this cur next = some (w1, t1) ∧
        EtwLogger.Outcome env w this w1 t1 ∧ t1.backlog_ = this.backlog_ := by
  intro n
  induction n with
  | zero =>
    intro l cur next fuel w this hn hl hf _ herr _
    have hl0 : l = [] := List.length_eq_zero.mp (by omega)
    subst hl0
    rw [isChain_nil_iff] at hl
    subst hl
    obtain ⟨f, rfl⟩ : ∃ f, fuel = f + 1 := ⟨fuel - 1, by omega⟩
    exact ⟨w, this, rfl, outcome_refl env w this herr, rfl⟩
  | succ n ih =>
    intro l cur next fuel w this hn hl hf hcode herr hstate
    obtain ⟨f, rfl⟩ : ∃ f, fuel = f + 1 := ⟨fuel - 1, by omega⟩
    cases cur with
    | none => exact ⟨w, this, rfl, outcome_refl env w this herr, rfl⟩
    | some c =>
      obtain ⟨record, k, hk1, hk2, hb⟩ :=
        buildRecord_some w.hp this.h_ err sev c next l hl hcode
      by_cases htol : EtwLogger.isTolerated (env.eventWrite w.emitted.length record) = true
      · obtain ⟨w2, t2, hloop, hout, hbl⟩ := ih (l.drop k) l[k]? l[k]? f
          { w with emitted := w.emitted ++ [record] } this
          (by simp only [List.length_drop]; omega) (isChain_drop w.hp l _ k hl)
          (by simp only [List.length_drop]; omega) hcode herr hstate
        have hstep : EtwLogger.Outcome env w this
            { w with emitted := w.emitted ++ [record] } this := by
          refine ⟨⟨[record], rfl⟩, herr, fun _ h => h, id, Or.inl ⟨?_, rfl, rfl, rfl, rfl⟩⟩
          intro m r hm hr
          simp only at hr
          by_cases hmeq : m = w.emitted.length
          · subst hmeq
            simp at hr
            subst hr
            exact htol
          · rw [List.getElem?_eq_none (by simp; omega)] at hr
            cases hr
        refine ⟨w2, t2, ?_, outcome_trans env _ _ _ _ _ _ hstep hout, hbl⟩
        simp only [EtwLogger.logBodyInternalLoop, hb, htol, if_true]
        exact hloop
      · obtain ⟨w2, t2, hwf, h1, h2, h3, h4, h5, h6, h7⟩ :=
          writeFailed_total env { w with emitted := w.emitted ++ [record] } this
            (env.eventWrite w.emitted.length record) herr
        have hfailed : EtwLogger.Failed t2 := ⟨h1, h2 hstate, h3⟩
        refine ⟨w2, t2, ?_, ⟨⟨[record], by rw [h6]⟩, h4, h5, fun _ => hfailed, Or.inr hfailed⟩,
          h7⟩
        simp only [EtwLogger.logBodyInternalLoop, hb, htol, if_false]
        exact hwf

theorem logBodyInternalL_total (env : Env) (w : World) (this : EtwLogger) (err : Erref)
    (sev : Severity) (entity : Option LogEntity) (he : Acyclic w.hp err)
    (herr : Acyclic w.hp this.err_) (hstate : this.h_ ≠ none ∨ this.enabled_ = false) :
    ∃ w1 t1, EtwLogger.logBodyInternalL env w this err sev entity = some (w1, t1) ∧
      EtwLogger.Outcome env w this w1 t1 ∧ t1.backlog_ = this.backlog_ := by
  obtain ⟨l, hl⟩ := he
  exact logBodyInternalLoop_total env err sev l.length l err none (w.hp.length + 1) w this
    (le_refl _) hl (by have := isChain_length_le w.hp l _ hl; omega)
    (getCode_some_of_chain w.hp err l hl) herr hstate

/-- The drain returns, whatever the statuses, and leaves an empty backlog. -/
theorem processBacklogL_total (env : Env) :
    ∀ (b : List BacklogEntry) (fuel : Nat) (w : World) (this : EtwLogger),
      this.backlog_ = b → b.length + 1 ≤ fuel → (∀ e ∈ b, Acyclic w.hp e.err_) →
      Acyclic w.hp this.err_ → (this.h_ ≠ none ∨ this.enabled_ = false) →
      ∃ w1 t1, EtwLogger.processBacklogL env fuel w this = some (w1, t1) ∧
        EtwLogger.Outcome env w this w1 t1 ∧ t1.backlog_ = [] := by
  intro b
  induction b with
  | nil =>
    intro fuel w this hb hf _ herr _
    obtain ⟨f, rfl⟩ : ∃ f, fuel = f + 1 := ⟨fuel - 1, by simp at hf; omega⟩
    exact ⟨w, this, by simp [EtwLogger.processBacklogL, hb], outcome_refl env w this herr, hb⟩
  | cons e rest ih =>
    intro fuel w this hb hf hall herr hstate
    obtain ⟨f, rfl⟩ : ∃ f, fuel = f + 1 := ⟨fuel - 1, by simp at hf; omega⟩
    by_cases hopen : this.h_ ≠ none
    · obtain ⟨w1, t1, hlog, hout, hbl⟩ := logBodyInternalL_total env w this e.err_ e.sev_
        e.entity_ (hall e (List.mem_cons_self _ _)) herr hstate
      obtain ⟨w2, t2, hrec, hout2, hbl2⟩ := ih f w1 { t1 with backlog_ := t1.backlog_.tail }
        (by simp [hbl, hb]) (by simp at hf ⊢; omega)
        (fun x hx => hout.2.2.1 _ (hall x (List.mem_cons_of_mem _ hx))) hout.2.1
        (outcome_state env w w1 this t1 hout hstate)
      refine ⟨w2, t2, ?_, outcome_trans env _ _ _ _ _ _ hout
        (outcome_congr env w1 w2 _ t1 t2 t2 rfl rfl rfl rfl rfl rfl hout2), hbl2⟩
      simp only [EtwLogger.processBacklogL, hb, hopen, ne_eq, not_false_eq_true, if_true, hlog]
      exact hrec
    · obtain ⟨w2, t2, hrec, hout2, hbl2⟩ := ih f w { this with backlog_ := this.backlog_.tail }
        (by simp [hb]) (by simp at hf ⊢; omega)
        (fun x hx => hall x (List.mem_cons_of_mem _ hx)) herr hstate
      refine ⟨w2, t2, ?_,
        outcome_congr env w w2 _ this t2 t2 rfl rfl rfl rfl rfl rfl hout2, hbl2⟩
      simp only [hb] at hrec
      simp only [EtwLogger.processBacklogL, hb, hopen, if_false]
      exact hrec

/-- A `log` call on a logger with acyclic chains returns, whatever the statuses. -/
theorem logBody_total (env : Env) (w : World) (this : EtwLogger) (err : Erref)
    (sev : Severity) (entity : Option LogEntity) (he : Acyclic w.hp err)
    (herr : Acyclic w.hp this.err_) (hall : ∀ e ∈ this.backlog_, Acyclic w.hp e.err_)
    (hstate : this.h_ ≠ none ∨ this.enabled_ = false) :
    ∃ w1 t1, EtwLogger.logBody env w this err sev entity = some (w1, t1) ∧
      EtwLogger.Outcome env w this w1 t1 := by
  by_cases hgate : sev.toNat < this.minSeverity_.toNat ∨ this.h_ = none
  · exact ⟨w, this, by simp [EtwLogger.logBody, hgate], outcome_refl env w this herr⟩
  · cases hen : this.enabled_ with
    | false =>
      refine ⟨w, _, by simp only [EtwLogger.logBody, hgate, if_false, hen]; rfl, ?_⟩
      exact outcome_congr env w w this this this _ rfl rfl rfl rfl (by simp [hen]) rfl
        (outcome_refl env w this herr)
    | true =>
      obtain ⟨w1, t1, hproc, hout, _⟩ := processBacklogL_total env this.backlog_ _ w this rfl
        (le_refl _) hall herr hstate
      obtain ⟨w2, t2, hlog, hout2, _⟩ := logBodyInternalL_total env w1 t1 err sev entity
        (hout.2.2.1 _ he) hout.2.1 (outcome_state env w w1 this t1 hout hstate)
      refine ⟨w2, t2, ?_, outcome_trans env _ _ _ _ _ _ hout hout2⟩
      simp only [EtwLogger.logBody, hgate, if_false, hen, if_true, hproc]
      exact hlog

theorem outcome_fatal (env : Env) (w w1 : World) (this t1 : EtwLogger)
    (h : EtwLogger.Outcome env w this w1 t1)
    (hf : ∃ n r, w.emitted.length ≤ n ∧ w1.emitted[n]? = some r ∧
      EtwLogger.isTolerated (env.eventWrite n r) = false) :
    t1.h_ = none ∧ t1.enabled_ = false ∧ t1.err_ ≠ none := by
  obtain ⟨n, r, hn, hr, hst⟩ := hf
  rcases h.2.2.2.2 with ⟨hc, _⟩ | hfail
  · rw [hc n r hn hr] at hst
    cases hst
  · exact hfail

/-- On a closed logger every sequence of operations returns and changes nothing but the
enabled flag and the minimum severity. -/
theorem run_closed (env : Env) :
    ∀ (ops : List LoggerOp) (w : World) (c : EtwLogger), c.h_ = none →
      ∃ t, EtwLogger.run env ops w c = some (w, t) ∧ t.h_ = none ∧
        t.backlog_ = c.backlog_ ∧ t.err_ = c.err_ := by
  intro ops
  induction ops with
  | nil => intro w c hc; exact ⟨c, rfl, hc, rfl, rfl⟩
  | cons op ops ih =>
    intro w c hc
    have hstep : ∃ t, EtwLogger.step env w c op = some (w, t) ∧ t.h_ = none ∧
        t.backlog_ = c.backlog_ ∧ t.err_ = c.err_ := by
      cases op with
      | log err sev entity =>
        refine ⟨c, ?_, hc, rfl, rfl⟩
        cases err <;> simp [EtwLogger.step, EtwLogger.log, Logger.log, EtwLogger.logBody, hc]
      | poll => exact ⟨c, by simp [EtwLogger.step, EtwLogger.poll, hc], hc, rfl, rfl⟩
      | signal isEnabled level =>
        refine ⟨EtwLogger.callback isEnabled level c, rfl, ?_, ?_, ?_⟩ <;>
          (simp only [EtwLogger.callback]; split_ifs <;> simp [hc])
      | close => exact ⟨c, by simp [EtwLogger.step, EtwLogger.close, hc], hc, rfl, rfl⟩
    obtain ⟨t, hs, h1, h2, h3⟩ := hstep
    obtain ⟨t2, hr, h4, h5, h6⟩ := ih w t h1
    refine ⟨t2, ?_, h4, by rw [h5, h2], by rw [h6, h3]⟩
    simp only [EtwLogger.run, hs]
    exact hr

/-- Claim C16 (fatal sink failure). On an open logger whose chains are acyclic, `log` and
`poll` return; when one of the calls of `EventWrite` they made returned a status that is not
tolerated, the logger is left closed and disabled with a non-empty recorded error, and from
that state every sequence of `log`, `poll`, signals and `close` returns, calls `EventWrite`
no more, leaves the heap, the backlog and the recorded error as they are and the handle
closed. -/
theorem fatal_failure (env : Env) (w : World) (this : EtwLogger) (err : Erref)
    (sev : Severity) (entity : Option LogEntity) (hopen : this.h_ ≠ none)
    (he : Acyclic w.hp err) (herr : Acyclic w.hp this.err_)
    (hall : ∀ e ∈ this.backlog_, Acyclic w.hp e.err_) :
    (∃ w1 t1, EtwLogger.log env w (some this) err sev entity = some (w1, some t1) ∧
      ((∃ n r, w.emitted.length ≤ n ∧ w1.emitted[n]? = some r ∧
          EtwLogger.isTolerated (env.eventWrite n r) = false) →
        t1.h_ = none ∧ t1.enabled_ = false ∧ t1.err_ ≠ none ∧
        ∀ ops, ∃ t2, EtwLogger.run env ops w1 t1 = some (w1, t2) ∧ t2.h_ = none ∧
          t2.backlog_ = t1.backlog_ ∧ t2.err_ = t1.err_)) ∧
    (∃ w1 t1, EtwLogger.poll env w this = some (w1, t1) ∧
      ((∃ n r, w.emitted.length ≤ n ∧ w1.emitted[n]? = some r ∧
          EtwLogger.isTolerated (env.eventWrite n r) = false) →
        t1.h_ = none ∧ t1.enabled_ = false ∧ t1.err_ ≠ none ∧
        ∀ ops, ∃ t2, EtwLogger.run env ops w1 t1 = some (w1, t2) ∧ t2.h_ = none ∧
          t2.backlog_ = t1.backlog_ ∧ t2.err_ = t1.err_)) := by
  constructor
  · cases err with
    | none =>
      refine ⟨w, this, rfl, ?_⟩
      rintro ⟨n, r, hn, hr, _⟩
      rw [List.getElem?_eq_none (by omega)] at hr
      cases hr
    | some a =>
      obtain ⟨w1, t1, hlog, hout⟩ :=
        logBody_total env w this (some a) sev entity he herr hall (Or.inl hopen)
      refine ⟨w1, t1, by simp [EtwLogger.log, Logger.log, hlog], ?_⟩
      intro hf
      obtain ⟨h1, h2, h3⟩ := outcome_fatal env w w1 this t1 hout hf
      exact ⟨h1, h2, h3, fun ops => run_closed env ops w1 t1 h1⟩
  · by_cases hen : this.enabled_ = false
    · refine ⟨w, this, by simp [EtwLogger.poll, hen], ?_⟩
      rintro ⟨n, r, hn, hr, _⟩
      rw [List.getElem?_eq_none (by omega)] at hr
      cases hr
    · obtain ⟨w1, t1, hproc, hout, _⟩ := processBacklogL_total env this.backlog_ _ w this rfl
        (le_refl _) hall herr (Or.inl hopen)
      refine ⟨w1, t1, by simp [EtwLogger.poll, hen, hopen, hproc], ?_⟩
      intro hf
      obtain ⟨h1, h2, h3⟩ := outcome_fatal env w w1 this t1 hout hf
      exact ⟨h1, h2, h3, fun ops => run_closed env ops w1 t1 h1⟩

theorem fatal_failure_witness :
    (EtwLogger.run envWriteFails
        [.log (some 1) .SV_ERROR none, .signal EVENT_CONTROL_CODE_ENABLE_PROVIDER 4,
         .log (some 2) .SV_ERROR none, .poll] worldFour loggerPending).map
        (fun r => (r.1.emitted.map (fun rec => rec.text), r.2.h_, r.2.err_.isSome,
          r.2.backlog_)) =
      some (["E Widget:1:0x1: one\n".toList, "E Widget:2:0x2: two\n".toList], none, true, []) ∧
    (∃ w1 t1, EtwLogger.log envWriteFails worldFour (some loggerPending) (some 1) .SV_ERROR
        none = some (w1, some t1) ∧
      ((∃ n r, worldFour.emitted.length ≤ n ∧ w1.emitted[n]? = some r ∧
          EtwLogger.isTolerated (envWriteFails.eventWrite n r) = false) →
        t1.h_ = none ∧ t1.enabled_ = false ∧ t1.err_ ≠ none ∧
        ∀ ops, ∃ t2, EtwLogger.run envWriteFails ops w1 t1 = some (w1, t2) ∧ t2.h_ = none ∧
          t2.backlog_ = t1.backlog_ ∧ t2.err_ = t1.err_)) :=
  ⟨by decide,
    (fatal_failure envWriteFails worldFour loggerPending (some 1) .SV_ERROR none (by decide)
      ⟨[1], by decide⟩ ⟨[], rfl⟩
      (by
        intro e he
        simp only [loggerPending, List.mem_singleton] at he
        subst he
        exact ⟨[0], by decide⟩)).1⟩

/-! ## Chunks and the whole rendering -/

theorem renderNode_dependent (m : ErrorMsg) :
    renderNode false m = "  ".toList ++ renderNode true m := by
  simp [renderNode]

theorem renderChain_dependent (ms : List ErrorMsg) (hne : ms ≠ []) :
    renderChain false ms = "  ".toList ++ renderChain true ms := by
  cases ms with
  | nil => exact absurd rfl hne
  | cons m rest =>
    simp only [renderChain, renderNode_dependent, List.append_assoc]

theorem renderChain_append :
    ∀ (xs ys : List ErrorMsg) (first : Bool), xs ≠ [] →
      renderChain first (xs ++ ys) = renderChain first xs ++ renderChain false ys := by
  intro xs
  induction xs with
  | nil => intro ys first h; exact absurd rfl h
  | cons x rest ih =>
    intro ys first _
    cases rest with
    | nil => simp [renderChain]
    | cons y rest2 =>
      have h2 := ih ys false (by simp)
      simp only [List.cons_append, renderChain, List.append_assoc] at h2 ⊢
      rw [h2]

theorem nodesOf_append (hp : Heap) (l1 l2 : List Nat) :
    nodesOf hp (l1 ++ l2) = nodesOf hp l1 ++ nodesOf hp l2 := by
  simp [nodesOf, List.filterMap_append]

/-- Claim C29 (chunk and whole rendering). On an acyclic chain `toLimitedString` and
`toString` return; with a non-empty continuation the whole rendering is the chunk, two
spaces, and the rendering of the continuation; with an empty continuation the chunk is the
whole rendering; in both cases the chunk is a prefix of the whole rendering. -/
theorem chunk_whole (hp : Heap) (a limit : Nat) (l : List Nat)
    (h : isChain hp (some a) l = true) :
    ∃ s c whole, toLimitedString hp a limit = some (s, c) ∧ toString hp a = some whole ∧
      (∀ b, c = some b →
        ∃ rest, toString hp b = some rest ∧ whole = s ++ "  ".toList ++ rest) ∧
      (c = none → s = whole) ∧ s <+: whole := by
  obtain ⟨k, hk1, hk2, hlim, _⟩ := toLimitedString_count hp a limit l h
  have hsplit : nodesOf hp l = (nodesOf hp l).take k ++ nodesOf hp (l.drop k) := by
    conv_lhs => rw [← List.take_append_drop k l]
    rw [nodesOf_append, nodesOf_take hp l _ k h]
  have hne : (nodesOf hp l).take k ≠ [] := by
    intro h0
    have hlen := congrArg List.length h0
    rw [List.length_take, nodesOf_length hp l _ h, List.length_nil] at hlen
    omega
  have hwhole : renderChain true (nodesOf hp l) =
      renderChain true ((nodesOf hp l).take k) ++ renderChain false (nodesOf hp (l.drop k)) := by
    conv_lhs => rw [hsplit]
    exact renderChain_append _ _ true hne
  refine ⟨_, _, _, hlim, toString_chain hp a l h, ?_, ?_, ?_⟩
  · intro b hb
    have hd := isChain_drop hp l _ k h
    rw [hb] at hd
    refine ⟨_, toString_chain hp b _ hd, ?_⟩
    obtain ⟨t, ht⟩ := isChain_some_head hp b _ hd
    have hne2 : nodesOf hp (l.drop k) ≠ [] := by
      rw [ht] at hd ⊢
      obtain ⟨_, m, hm, _⟩ := (isChain_cons_iff hp _ b t).mp hd
      rw [nodesOf_cons hp b t m hm]
      simp
    rw [hwhole, renderChain_dependent _ hne2, List.append_assoc]
  · intro hc
    have hkl : k = l.length := by
      by_contra hne3
      have hlt : k < l.length := by omega
      rw [List.getElem?_eq_getElem hlt] at hc
      cases hc
    have hd : l.drop k = [] := by rw [hkl]; simp
    rw [hwhole, hd]
    simp [nodesOf, renderChain]
  · rw [hwhole]
    exact List.prefix_append _ _

theorem chunk_whole_witness :
    isChain hpTwoChains (some 2) [2, 3] = true ∧
    toLimitedString hpTwoChains 2 0 = some ("Widget:3:0x3: c\n".toList, some 3) ∧
    toString hpTwoChains 3 = some "NT:4:0x4: d\n".toList ∧
    toString hpTwoChains 2 = some "Widget:3:0x3: c\n  NT:4:0x4: d\n".toList ∧
    ∃ s c whole, toLimitedString hpTwoChains 2 0 = some (s, c) ∧
      toString hpTwoChains 2 = some whole ∧
      (∀ b, c = some b →
        ∃ rest, toString hpTwoChains b = some rest ∧ whole = s ++ "  ".toList ++ rest) ∧
      (c = none → s = whole) ∧ s <+: whole :=
  ⟨by decide, by decide, by decide, by decide,
    chunk_whole hpTwoChains 2 0 [2, 3] (by decide)⟩

/-! ## Termination after splice -/

/-- C25, as the code has it: `Erref::splice` keeps chains terminating when the two chains
have no node in common.  For acyclic chains of `self` and `other` without a common node the
call returns, the chain of the new `self` is acyclic (it visits no node twice), and
`toString()` on it returns. -/
theorem splice_terminates (hp : Heap) (self other : Erref) (ls lo : List Nat)
    (hs : isChain hp self ls = true) (ho : isChain hp other lo = true)
    (hdisj : ∀ x ∈ lo, x ∉ ls) :
    ∃ hp' self' l, splice hp self other = some (hp', self') ∧
      isChain hp' self' l = true ∧ l.Nodup ∧
      (∀ a, self' = some a → ∃ text, toString hp' a = some text) := by
  cases other with
  | none =>
    refine ⟨hp, self, ls, by cases self <;> rfl, hs, isChain_nodup hp ls _ hs, ?_⟩
    intro a ha
    subst ha
    exact ⟨_, toString_chain hp a ls hs⟩
  | some o =>
    cases self with
    | none =>
      refine ⟨hp, some o, lo, rfl, ho, isChain_nodup hp lo _ ho, ?_⟩
      intro a ha
      cases ha
      exact ⟨_, toString_chain hp o lo ho⟩
    | some s =>
      obtain ⟨t, rfl⟩ := isChain_some_head hp s ls hs
      obtain ⟨hp', hsp, hch, _, _⟩ := splice_chain hp s o t lo hs ho hdisj
      refine ⟨hp', some s, _, hsp, hch, isChain_nodup hp' _ _ hch, ?_⟩
      intro a ha
      cases ha
      exact ⟨_, toString_chain hp' s _ hch⟩

theorem splice_terminates_witness :
    (splice hpTwoChains (some 0) (some 2)).bind (fun r => r.2.bind (fun a => toString r.1 a)) =
      some "NT:1:0x1: a\n  Widget:3:0x3: c\n  NT:4:0x4: d\n  NT:2:0x2: b\n".toList ∧
    ∃ hp' self' l, splice hpTwoChains (some 0) (some 2) = some (hp', self') ∧
      isChain hp' self' l = true ∧ l.Nodup ∧
      (∀ a, self' = some a → ∃ text, toString hp' a = some text) :=
  ⟨by decide,
    splice_terminates hpTwoChains (some 0) (some 2) [0, 1] [2, 3] (by decide) (by decide)
      (by decide)⟩

/-- Counterexample to C25 as stated: `self = 0 → 2` and `other = 1 → 2` are acyclic and the
outer node of `other` is not a node of the chain of `self`, yet after `self.splice(other)`
the shared node `2` is chained to itself: the chain of `self` is not acyclic and `toString()`
on it does not return. -/
theorem splice_terminates_counterexample :
    isChain hpSharedTail (some 0) [0, 2] = true ∧
    isChain hpSharedTail (some 1) [1, 2] = true ∧ 1 ∉ [0, 2] ∧
    splice hpSharedTail (some 0) (some 1) =
      some ([ { source_ := none, code_ := 1, msg_ := "a".toList, chain_ := some 1 },
              { source_ := none, code_ := 2, msg_ := "b".toList, chain_ := some 2 },
              { source_ := none, code_ := 3, msg_ := "t".toList, chain_ := some 2 } ],
        some 0) ∧
    (∀ hp', splice hpSharedTail (some 0) (some 1) = some (hp', some 0) →
      toString hp' 0 = none ∧ ¬ ∃ l, isChain hp' (some 0) l = true) := by
  refine ⟨by decide, by decide, by decide, by decide, ?_⟩
  intro hp' h
  have he : splice hpSharedTail (some 0) (some 1) =
      some ([ { source_ := none, code_ := 1, msg_ := "a".toList, chain_ := some 1 },
              { source_ := none, code_ := 2, msg_ := "b".toList, chain_ := some 2 },
              { source_ := none, code_ := 3, msg_ := "t".toList, chain_ := some 2 } ],
        some 0) := by decide
  rw [he] at h
  simp only [Option.some.injEq, Prod.mk.injEq, and_true] at h
  subst h
  have hn : toString [ { source_ := none, code_ := 1, msg_ := "a".toList, chain_ := some 1 },
              { source_ := none, code_ := 2, msg_ := "b".toList, chain_ := some 2 },
              ({ source_ := none, code_ := 3, msg_ := "t".toList, chain_ := some 2 } : ErrorMsg) ]
      0 = none := by decide
  refine ⟨hn, ?_⟩
  rintro ⟨l, hl⟩
  rw [toString_chain _ 0 l hl] at hn
  cases hn

/-! ## The constructors: the nodes they build -/

theorem getElem?_append_new (hp xs : Heap) (a k : Nat) (ha : a = hp.length + k) :
    (hp ++ xs)[a]? = xs[k]? := by
  subst ha
  rw [List.getElem?_append_right (Nat.le_add_right _ _)]
  simp

theorem setChain_append_new (hp xs : Heap) (a k : Nat) (c : Erref) (m : ErrorMsg)
    (ha : a = hp.length + k) (hm : xs[k]? = some m) :
    setChain (hp ++ xs) a c = some (hp ++ xs.set k { m with chain_ := c }) := by
  subst ha
  rw [setChain_eq_some _ _ c m (by rw [getElem?_append_new hp xs _ k rfl]; exact hm)]
  rw [List.set_append_right _ _ (Nat.le_add_right _ _)]
  simp

theorem walkToLast_new (hp xs : Heap) (fuel a k : Nat) (m : ErrorMsg)
    (ha : a = hp.length + k) (hm : xs[k]? = some m) (hc : m.chain_ = none) :
    walkToLast (hp ++ xs) (fuel + 1) a = some a := by
  simp only [walkToLast, getElem?_append_new hp xs a k ha, hm, hc]

theorem mkSystem_eq (env : Env) (hp : Heap) (code : Nat) :
    mkSystem env hp code =
      (hp ++ [{ source_ := none, code_ := code, msg_ := trimTrailing (systemText env code),
                chain_ := none }], some hp.length) := by
  cases h : env.sysMessage code <;> simp [mkSystem, systemText, h]

/-- The heap that `mkStringVa` builds on a plain source. -/
theorem mkStringVa_plain (hp : Heap) (source : Source) (code : Nat) (text : WString)
    (hmui : source.muiModule_ = none) :
    mkStringVa hp source code text =
      some (hp ++
        [ { source_ := some source, code_ := code, msg_ := trimTrailing text,
            chain_ := none } ],
        some hp.length) := by
  simp [mkStringVa, mkStringPlain, hmui]

/-- The heap that `mkStringVa` builds on a MUI source. -/
theorem mkStringVa_mui (hp : Heap) (source : Source) (code : Nat) (text : WString)
    (hmui : source.muiModule_ ≠ none) :
    mkStringVa hp source code text =
      some (hp ++
        [ { source_ := some source, code_ := code, msg_ := trimTrailing text,
            chain_ := some (hp.length + 1) },
          { source_ := some internalErrorSource, code_ := MUST_USE_MUI,
            msg_ := trimTrailing (mustUseMuiText source.name_), chain_ := none } ],
        some hp.length) := by
  simp only [mkStringVa, mkStringPlain, hmui, ne_eq, not_false_eq_true, if_true,
    List.append_assoc, List.singleton_append, List.length_append, List.length_singleton]
  simp only [splice]
  rw [getElem?_append_new hp _ hp.length 0 rfl]
  simp only [List.getElem?_cons_zero]
  rw [setChain_append_new hp _ hp.length 0 _ _ rfl rfl]
  rfl

/-- The heap that `mkSystemVa` builds on a plain source. -/
theorem mkSystemVa_plain (env : Env) (hp : Heap) (sysCode : Nat) (source : Source)
    (appCode : Nat) (text : WString) (hmui : source.muiModule_ = none) :
    mkSystemVa env hp sysCode source appCode text =
      some (hp ++
        [ { source_ := some source, code_ := appCode, msg_ := text,
            chain_ := some (hp.length + 1) },
          { source_ := none, code_ := sysCode, msg_ := trimTrailing (systemText env sysCode),
            chain_ := none } ],
        some hp.length) := by
  simp only [mkSystemVa, mkSystem_eq, hmui, ne_eq, not_true_eq_false, if_false,
    List.append_assoc, List.singleton_append, List.length_append, List.length_singleton]
  rw [setChain_append_new hp _ hp.length 0 _ _ rfl rfl]
  rfl

/-- The heap that `mkSystemVa` builds on a MUI source. -/
theorem mkSystemVa_mui (env : Env) (hp : Heap) (sysCode : Nat) (source : Source)
    (appCode : Nat) (text : WString) (hmui : source.muiModule_ ≠ none) :
    mkSystemVa env hp sysCode source appCode text =
      some (hp ++
        [ { source_ := some source, code_ := appCode, msg_ := text,
            chain_ := some (hp.length + 2) },
          { source_ := none, code_ := sysCode, msg_ := trimTrailing (systemText env sysCode),
            chain_ := none },
          { source_ := some internalErrorSource, code_ := MUST_USE_MUI,
            msg_ := trimTrailing (mustUseMuiText source.name_),
            chain_ := some (hp.length + 1) } ],
        some hp.length) := by
  simp only [mkSystemVa, mkSystem_eq, hmui, ne_eq, not_false_eq_true, if_true,
    List.append_assoc, List.singleton_append, List.length_append, List.length_singleton]
  rw [setChain_append_new hp _ hp.length 0 _ _ rfl rfl]
  simp only [List.set, mkStringPlain, List.append_assoc, List.cons_append, List.nil_append,
    List.length_append, List.length_cons, List.length_nil, splice]
  rw [getElem?_append_new hp _ hp.length 0 rfl]
  simp only [List.getElem?_cons_zero]
  rw [setChain_append_new hp _ hp.length 0 _ _ rfl rfl]
  simp only [List.set, List.length_append, List.length_cons, List.length_nil]
  rw [walkToLast_new hp _ _ (hp.length + 0 + 1 + 1) 2 _ rfl rfl rfl]
  simp only [Nat.add_zero]
  rw [setChain_append_new hp _ (hp.length + 1 + 1) 2 _ _ rfl rfl]
  rfl

/-- The heap that `mkMuiVa` builds on a plain source. -/
theorem mkMuiVa_plain (env : Env) (hp : Heap) (source : Source) (code : Nat)
    (args : List WString) (hmui : source.muiModule_ = none) :
    mkMuiVa env hp source code args =
      some (hp ++
        [ { source_ := some source, code_ := code, msg_ := [],
            chain_ := some (hp.length + 1) },
          { source_ := some internalErrorSource, code_ := NO_MUI_HANDLE,
            msg_ := trimTrailing (noMuiHandleText source.name_), chain_ := none } ],
        some hp.length) := by
  simp only [mkMuiVa, hmui]
  rw [mkStringVa_plain _ _ _ _ rfl]
  simp only [List.append_assoc, List.singleton_append, List.length_append,
    List.length_singleton, splice]
  rw [getElem?_append_new hp _ hp.length 0 rfl]
  simp only [List.getElem?_cons_zero]
  rw [setChain_append_new hp _ hp.length 0 _ _ rfl rfl]
  rfl

/-- The heap that `mkMuiVa` builds on a MUI source when `FormatMessageW` succeeds. -/
theorem mkMuiVa_found (env : Env) (hp : Heap) (source : Source) (code : Nat)
    (args : List WString) (module : Nat) (hmui : source.muiModule_ = some module)
    (hres : (env.muiMessage module code args).1 ≠ 0) :
    mkMuiVa env hp source code args =
      some (hp ++
        [ { source_ := some source, code_ := code,
            msg_ := muiStored (env.muiMessage module code args).2, chain_ := none } ],
        some hp.length) := by
  simp [mkMuiVa, hmui, hres]

/-- The heap that `mkMuiVa` builds on a MUI source when `FormatMessageW` returns 0. -/
theorem mkMuiVa_missing (env : Env) (hp : Heap) (source : Source) (code : Nat)
    (args : List WString) (module : Nat) (hmui : source.muiModule_ = some module)
    (hres : (env.muiMessage module code args).1 = 0) :
    mkMuiVa env hp source code args =
      some (hp ++
        [ { source_ := some source, code_ := code,
            msg_ := muiStored (env.muiMessage module code args).2,
            chain_ := some (hp.length + 1) },
          { source_ := some internalErrorSource, code_ := MUI_NO_MESSAGE,
            msg_ := muiNoMessageText source.name_ code, chain_ := some (hp.length + 2) },
          { source_ := none, code_ := env.getLastError,
            msg_ := trimTrailing (systemText env env.getLastError), chain_ := none } ],
        some hp.length) := by
  simp only [mkMuiVa, hmui, hres, if_true]
  rw [mkSystemVa_plain _ _ _ _ _ _ rfl]
  simp only [List.append_assoc, List.singleton_append, List.length_append,
    List.length_singleton, splice]
  rw [getElem?_append_new hp _ hp.length 0 rfl]
  simp only [List.getElem?_cons_zero]
  rw [setChain_append_new hp _ hp.length 0 _ _ rfl rfl]
  rfl

/-- The heap that `mkMuiSystemVa` builds on a MUI source when `FormatMessageW` succeeds. -/
theorem mkMuiSystemVa_found (env : Env) (hp : Heap) (sysCode : Nat) (source : Source)
    (appCode : Nat) (args : List WString) (module : Nat)
    (hmui : source.muiModule_ = some module)
    (hres : (env.muiMessage module appCode args).1 ≠ 0) :
    mkMuiSystemVa env hp sysCode source appCode args =
      some (hp ++
        [ { source_ := some source, code_ := appCode,
            msg_ := muiStored (env.muiMessage module appCode args).2,
            chain_ := some (hp.length + 1) },
          { source_ := none, code_ := sysCode, msg_ := trimTrailing (systemText env sysCode),
            chain_ := none } ],
        some hp.length) := by
  simp only [mkMuiSystemVa, mkMuiVa_found env hp source appCode args module hmui hres,
    mkSystem_eq, List.append_assoc, List.singleton_append, List.length_append,
    List.length_singleton, splice]
  rw [getElem?_append_new hp _ hp.length 0 rfl]
  simp only [List.getElem?_cons_zero]
  rw [setChain_append_new hp _ hp.length 0 _ _ rfl rfl]
  rfl

/-- The heap that `mkMuiSystemVa` builds on a MUI source when `FormatMessageW` returns 0. -/
theorem mkMuiSystemVa_missing (env : Env) (hp : Heap) (sysCode : Nat) (source : Source)
    (appCode : Nat) (args : List WString) (module : Nat)
    (hmui : source.muiModule_ = some module)
    (hres : (env.muiMessage module appCode args).1 = 0) :
    mkMuiSystemVa env hp sysCode source appCode args =
      some (hp ++
        [ { source_ := some source, code_ := appCode,
            msg_ := muiStored (env.muiMessage module appCode args).2,
            chain_ := some (hp.length + 3) },
          { source_ := some internalErrorSource, code_ := MUI_NO_MESSAGE,
            msg_ := muiNoMessageText source.name_ appCode, chain_ := some (hp.length + 2) },
          { source_ := none, code_ := env.getLastError,
            msg_ := trimTrailing (systemText env env.getLastError), chain_ := none },
          { source_ := none, code_ := sysCode, msg_ := trimTrailing (systemText env sysCode),
            chain_ := some (hp.length + 1) } ],
        some hp.length) := by
  simp only [mkMuiSystemVa, mkMuiVa_missing env hp source appCode args module hmui hres,
    mkSystem_eq, List.append_assoc, List.cons_append, List.nil_append, List.length_append,
    List.length_cons, List.length_nil, splice]
  rw [getElem?_append_new hp _ hp.length 0 rfl]
  simp only [List.getElem?_cons_zero]
  rw [setChain_append_new hp _ hp.length 0 _ _ rfl rfl]
  simp only [List.set, List.length_append, List.length_cons, List.length_nil]
  rw [walkToLast_new hp _ _ (hp.length + (0 + 1 + 1 + 1)) 3 _ rfl rfl rfl]
  simp only [Nat.add_zero]
  rw [setChain_append_new hp _ (hp.length + (0 + 1 + 1 + 1)) 3 _ _ rfl rfl]
  rfl

/-- The heap that `mkMuiSystemVa` builds on a plain source. -/
theorem mkMuiSystemVa_plain (env : Env) (hp : Heap) (sysCode : Nat) (source : Source)
    (appCode : Nat) (args : List WString) (hmui : source.muiModule_ = none) :
    mkMuiSystemVa env hp sysCode source appCode args =
      some (hp ++
        [ { source_ := some source, code_ := appCode, msg_ := [],
            chain_ := some (hp.length + 2) },
          { source_ := some internalErrorSource, code_ := NO_MUI_HANDLE,
            msg_ := trimTrailing (noMuiHandleText source.name_), chain_ := none },
          { source_ := none, code_ := sysCode, msg_ := trimTrailing (systemText env sysCode),
            chain_ := some (hp.length + 1) } ],
        some hp.length) := by
  simp only [mkMuiSystemVa, mkMuiVa_plain env hp source appCode args hmui,
    mkSystem_eq, List.append_assoc, List.cons_append, List.nil_append, List.length_append,
    List.length_cons, List.length_nil, splice]
  rw [getElem?_append_new hp _ hp.length 0 rfl]
  simp only [List.getElem?_cons_zero]
  rw [setChain_append_new hp _ hp.length 0 _ _ rfl rfl]
  simp only [List.set, List.length_append, List.length_cons, List.length_nil]
  rw [walkToLast_new hp _ _ (hp.length + (0 + 1 + 1)) 2 _ rfl rfl rfl]
  simp only [Nat.add_zero]
  rw [setChain_append_new hp _ (hp.length + (0 + 1 + 1)) 2 _ _ rfl rfl]
  rfl

/-! ## The constructors: reporting mode, lookup failure, trimming -/

/-- The trimming loop removes line breaks from the end, and only those. -/
theorem trimLoop_spec :
    ∀ (n : Nat) (s : WString), s.length ≤ n →
      ∃ suffix, s = trimLoop n s ++ suffix ∧ (∀ c ∈ suffix, c = '\n' ∨ c = '\r') ∧
        (trimLoop n s).getLast? ≠ some '\n' ∧ (trimLoop n s).getLast? ≠ some '\r' := by
  intro n
  induction n with
  | zero =>
    intro s hs
    have h0 : s = [] := List.length_eq_zero.mp (by omega)
    subst h0
    exact ⟨[], by simp [trimLoop], by simp, by simp [trimLoop], by simp [trimLoop]⟩
  | succ n ih =>
    intro s hs
    cases hl : s.getLast? with
    | none =>
      have h0 : s = [] := List.getLast?_eq_none_iff.mp hl
      subst h0
      exact ⟨[], by simp [trimLoop], by simp, by simp [trimLoop], by simp [trimLoop]⟩
    | some c =>
      by_cases hc : c = '\n' ∨ c = '\r'
      · have hsplit : s = s.dropLast ++ [c] := by
          have hne : s ≠ [] := by
            intro h0
            rw [h0] at hl
            cases hl
          have h1 := List.dropLast_append_getLast hne
          rw [List.getLast?_eq_getLast _ hne] at hl
          cases hl
          exact h1.symm
        obtain ⟨suffix, h1, h2, h3, h4⟩ := ih s.dropLast (by
          rw [List.length_dropLast]; omega)
        refine ⟨suffix ++ [c], ?_, ?_, ?_, ?_⟩
        · simp only [trimLoop, hl, hc, if_true]
          rw [← List.append_assoc, ← h1]
          exact hsplit
        · intro x hx
          rcases List.mem_append.mp hx with h | h
          · exact h2 x h
          · rw [List.mem_singleton] at h
            rw [h]
            exact hc
        · simp only [trimLoop, hl, hc, if_true]
          exact h3
        · simp only [trimLoop, hl, hc, if_true]
          exact h4
      · refine ⟨[], ?_, by simp, ?_, ?_⟩
        · simp [trimLoop, hl, hc]
        · simp only [trimLoop, hl, hc, if_false]
          intro h
          cases h
          exact hc (Or.inl rfl)
        · simp only [trimLoop, hl, hc, if_false]
          intro h
          cases h
          exact hc (Or.inr rfl)

theorem trimTrailing_spec (t : WString) :
    ∃ suffix, t = trimTrailing t ++ suffix ∧ (∀ c ∈ suffix, c = '\n' ∨ c = '\r') ∧
      (trimTrailing t).getLast? ≠ some '\n' ∧ (trimTrailing t).getLast? ≠ some '\r' :=
  trimLoop_spec t.length t (le_refl _)

/-- C21, as the code has it: the wrong reporting mode.  `mkString` and `mkSystem` with a
format on a MUI source, and `mkMui` on a plain source, return the handle of the node with
the caller's source and code; the report of the internal source (code `MUST_USE_MUI`,
respectively `NO_MUI_HANDLE`) is the node chained right after it, and for `mkSystem` the
system node follows the report. -/
theorem wrong_mode (env : Env) (hp : Heap) (mui plain : Source) (code sysCode : Nat)
    (text : WString) (args : List WString) (hmui : mui.muiModule_ ≠ none)
    (hplain : plain.muiModule_ = none) :
    mkStringVa hp mui code text =
      some (hp ++
        [ { source_ := some mui, code_ := code, msg_ := trimTrailing text,
            chain_ := some (hp.length + 1) },
          { source_ := some internalErrorSource, code_ := MUST_USE_MUI,
            msg_ := trimTrailing (mustUseMuiText mui.name_), chain_ := none } ],
        some hp.length) ∧
    mkSystemVa env hp sysCode mui code text =
      some (hp ++
        [ { source_ := some mui, code_ := code, msg_ := text,
            chain_ := some (hp.length + 2) },
          { source_ := none, code_ := sysCode, msg_ := trimTrailing (systemText env sysCode),
            chain_ := none },
          { source_ := some internalErrorSource, code_ := MUST_USE_MUI,
            msg_ := trimTrailing (mustUseMuiText mui.name_),
            chain_ := some (hp.length + 1) } ],
        some hp.length) ∧
    mkMuiVa env hp plain code args =
      some (hp ++
        [ { source_ := some plain, code_ := code, msg_ := [],
            chain_ := some (hp.length + 1) },
          { source_ := some internalErrorSource, code_ := NO_MUI_HANDLE,
            msg_ := trimTrailing (noMuiHandleText plain.name_), chain_ := none } ],
        some hp.length) :=
  ⟨mkStringVa_mui hp mui code text hmui, mkSystemVa_mui env hp sysCode mui code text hmui,
    mkMuiVa_plain env hp plain code args hplain⟩

/-- Witness of C21 (amended): the renderings of the three errors for the MUI source
`Service` and the plain source `Widget`. -/
theorem wrong_mode_witness :
    (mkStringVa [] serviceSource 7 "boom\r\n".toList).bind
        (fun r => r.2.bind (fun a => toString r.1 a)) =
      some ("Service:7:0x7: boom\n  ErrorMsg:4:0x4: Internal error: used a plain-text " ++
        "error on the MUIsource 'Service'.\n").toList ∧
    (mkStringVa [] serviceSource 7 "boom\r\n".toList =
      some ([] ++
        [ { source_ := some serviceSource, code_ := 7,
            msg_ := trimTrailing "boom\r\n".toList, chain_ := some (([] : Heap).length + 1) },
          { source_ := some internalErrorSource, code_ := MUST_USE_MUI,
            msg_ := trimTrailing (mustUseMuiText serviceSource.name_), chain_ := none } ],
        some ([] : Heap).length) ∧
    mkSystemVa envOk [] 2 serviceSource 7 "boom\r\n".toList =
      some ([] ++
        [ { source_ := some serviceSource, code_ := 7, msg_ := "boom\r\n".toList,
            chain_ := some (([] : Heap).length + 2) },
          { source_ := none, code_ := 2, msg_ := trimTrailing (systemText envOk 2),
            chain_ := none },
          { source_ := some internalErrorSource, code_ := MUST_USE_MUI,
            msg_ := trimTrailing (mustUseMuiText serviceSource.name_),
            chain_ := some (([] : Heap).length + 1) } ],
        some ([] : Heap).length) ∧
    mkMuiVa envOk [] widgetSource 7 [] =
      some ([] ++
        [ { source_ := some widgetSource, code_ := 7, msg_ := [],
            chain_ := some (([] : Heap).length + 1) },
          { source_ := some internalErrorSource, code_ := NO_MUI_HANDLE,
            msg_ := trimTrailing (noMuiHandleText widgetSource.name_), chain_ := none } ],
        some ([] : Heap).length)) :=
  ⟨by decide,
    wrong_mode envOk [] serviceSource widgetSource 7 2 "boom\r\n".toList [] (by decide) rfl⟩

/-- Counterexample to C21 as stated: for the MUI source `Service` the handle that
`mkString` returns refers to a node with the source `Service` and the code 7, not to the
report of the internal source with the code `MUST_USE_MUI`; likewise `mkMui` on the plain
source `Widget` returns the node with the source `Widget` and the code 7. -/
theorem wrong_mode_counterexample :
    (∃ hp1 a m, mkStringVa [] serviceSource 7 "boom".toList = some (hp1, some a) ∧
      hp1[a]? = some m ∧ m.source_ = some serviceSource ∧ m.code_ = 7 ∧
      m.source_ ≠ some internalErrorSource ∧ m.code_ ≠ MUST_USE_MUI ∧
      getCode hp1 (some a) = some 7) ∧
    (∃ hp1 a m, mkMuiVa envOk [] widgetSource 7 [] = some (hp1, some a) ∧
      hp1[a]? = some m ∧ m.source_ = some widgetSource ∧ m.code_ = 7 ∧
      m.source_ ≠ some internalErrorSource ∧ m.code_ ≠ NO_MUI_HANDLE ∧
      getCode hp1 (some a) = some 7) := by
  constructor
  · exact ⟨_, 0, _, mkStringVa_mui [] serviceSource 7 "boom".toList (by decide), rfl, rfl,
      rfl, by decide, by decide, rfl⟩
  · exact ⟨_, 0, _, mkMuiVa_plain envOk [] widgetSource 7 [] rfl, rfl, rfl,
      rfl, by decide, by decide, rfl⟩

/-- C22, as the code has it: the localized lookup failure.  When `FormatMessageW` returns 0
for a MUI source, `mkMui` returns the handle of the node with the caller's source and
code; the report of the internal source with the code `MUI_NO_MESSAGE` is chained right
after it and the system error for `GetLastError()` is chained beneath the report.  The
four reserved codes of the internal source are pairwise distinct and none is 0. -/
theorem mui_lookup_failure (env : Env) (hp : Heap) (source : Source) (code : Nat)
    (args : List WString) (module : Nat) (hmui : source.muiModule_ = some module)
    (hres : (env.muiMessage module code args).1 = 0) :
    mkMuiVa env hp source code args =
      some (hp ++
        [ { source_ := some source, code_ := code,
            msg_ := muiStored (env.muiMessage module code args).2,
            chain_ := some (hp.length + 1) },
          { source_ := some internalErrorSource, code_ := MUI_NO_MESSAGE,
            msg_ := muiNoMessageText source.name_ code, chain_ := some (hp.length + 2) },
          { source_ := none, code_ := env.getLastError,
            msg_ := trimTrailing (systemText env env.getLastError), chain_ := none } ],
        some hp.length) ∧
    [ MODULE_LOAD_FAILURE, NO_MUI_HANDLE, MUST_USE_MUI, MUI_NO_MESSAGE].Nodup ∧
    ∀ c ∈ [ MODULE_LOAD_FAILURE, NO_MUI_HANDLE, MUST_USE_MUI, MUI_NO_MESSAGE], c ≠ 0 :=
  ⟨mkMuiVa_missing env hp source code args module hmui hres, by decide, by decide⟩

/-- Witness of C22 (amended): `mkMui` for the source `Service` and the code 7 when the
lookup fails with the last error 317. -/
theorem mui_lookup_failure_witness :
    (mkMuiVa envNoMessage [] serviceSource 7 []).bind
        (fun r => r.2.bind (fun a => toString r.1 a)) =
      some ("Service:7:0x7: \n  ErrorMsg:5:0x5: Internal error: cannot find a MUI message " ++
        "for source 'Service' code 0x7.\n  NT:317:0x13d: The system cannot find the file " ++
        "specified.\n").toList ∧
    (mkMuiVa envNoMessage [] serviceSource 7 [] =
      some ([] ++
        [ { source_ := some serviceSource, code_ := 7,
            msg_ := muiStored (envNoMessage.muiMessage 1 7 []).2,
            chain_ := some (([] : Heap).length + 1) },
          { source_ := some internalErrorSource, code_ := MUI_NO_MESSAGE,
            msg_ := muiNoMessageText serviceSource.name_ 7,
            chain_ := some (([] : Heap).length + 2) },
          { source_ := none, code_ := envNoMessage.getLastError,
            msg_ := trimTrailing (systemText envNoMessage envNoMessage.getLastError),
            chain_ := none } ],
        some ([] : Heap).length) ∧
    [ MODULE_LOAD_FAILURE, NO_MUI_HANDLE, MUST_USE_MUI, MUI_NO_MESSAGE].Nodup ∧
    ∀ c ∈ [ MODULE_LOAD_FAILURE, NO_MUI_HANDLE, MUST_USE_MUI, MUI_NO_MESSAGE], c ≠ 0) :=
  ⟨by decide, mui_lookup_failure envNoMessage [] serviceSource 7 [] 1 rfl rfl⟩

/-- Counterexample to C22 as stated: when the lookup fails for the source `Service` and
the code 7, the handle that `mkMui` returns refers to the node with the source `Service`
and the code 7, not to the report with the code `MUI_NO_MESSAGE`, which comes second. -/
theorem mui_lookup_failure_counterexample :
    ∃ hp1 a m, mkMuiVa envNoMessage [] serviceSource 7 [] = some (hp1, some a) ∧
      hp1[a]? = some m ∧ m.source_ = some serviceSource ∧ m.code_ = 7 ∧
      m.source_ ≠ some internalErrorSource ∧ m.code_ ≠ MUI_NO_MESSAGE ∧
      getCode hp1 (some a) = some 7 ∧ getChainCode hp1 (some a) = some MUI_NO_MESSAGE :=
  ⟨_, 0, _, mkMuiVa_missing envNoMessage [] serviceSource 7 [] 1 rfl rfl, rfl, rfl, rfl,
    by decide, by decide, rfl, rfl⟩

/-- C23: the trimming of trailing line breaks.  `trimTrailing t` is `t` without the line
breaks at its end; `mkString`, `mkSystem(code)` and `mkMui` store the trimmed text; but
`mkSystem(sysCode, source, appCode, fmt, ...)` stores the formatted text as it is, and for
the text `cannot open x.txt` followed by a carriage return and a line feed the stored
message ends with the line break. -/
theorem mkSystemVa_keeps_line_break :
    (∀ t : WString, ∃ suffix, t = trimTrailing t ++ suffix ∧
      (∀ c ∈ suffix, c = '\n' ∨ c = '\r') ∧
      (trimTrailing t).getLast? ≠ some '\n' ∧ (trimTrailing t).getLast? ≠ some '\r') ∧
    (∀ (hp : Heap) (source : Source) (code : Nat) (text : WString),
      ∃ hp1 m, mkStringVa hp source code text = some (hp1, some hp.length) ∧
        hp1[hp.length]? = some m ∧ m.msg_ = trimTrailing text) ∧
    (∀ (env : Env) (hp : Heap) (code : Nat),
      ∃ m, (mkSystem env hp code).2 = some hp.length ∧
        (mkSystem env hp code).1[hp.length]? = some m ∧
        m.msg_ = trimTrailing (systemText env code)) ∧
    (∀ (env : Env) (hp : Heap) (source : Source) (code : Nat) (args : List WString)
      (module : Nat) (buf : WString), source.muiModule_ = some module →
      (env.muiMessage module code args).2 = some buf →
      ∃ hp1 m, mkMuiVa env hp source code args = some (hp1, some hp.length) ∧
        hp1[hp.length]? = some m ∧ m.msg_ = trimTrailing buf) ∧
    (∀ (env : Env) (hp : Heap) (sysCode : Nat) (source : Source) (appCode : Nat)
      (text : WString),
      ∃ hp1 m, mkSystemVa env hp sysCode source appCode text = some (hp1, some hp.length) ∧
        hp1[hp.length]? = some m ∧ m.msg_ = text) ∧
    mkSystemVa envOk [] 2 widgetSource 7 "cannot open x.txt\r\n".toList =
      some ([ { source_ := some widgetSource, code_ := 7,
                msg_ := "cannot open x.txt\r\n".toList, chain_ := some 1 },
              { source_ := none, code_ := 2,
                msg_ := "The system cannot find the file specified.".toList,
                chain_ := none } ], some 0) ∧
    mkStringVa [] widgetSource 7 "cannot open x.txt\r\n".toList =
      some ([ { source_ := some widgetSource, code_ := 7,
                msg_ := "cannot open x.txt".toList, chain_ := none } ], some 0) := by
  refine ⟨trimTrailing_spec, ?_, ?_, ?_, ?_, by decide, by decide⟩
  · intro hp source code text
    by_cases hmui : source.muiModule_ = none
    · exact ⟨_, _, mkStringVa_plain hp source code text hmui,
        by rw [getElem?_append_new hp _ hp.length 0 rfl]; rfl, rfl⟩
    · exact ⟨_, _, mkStringVa_mui hp source code text hmui,
        by rw [getElem?_append_new hp _ hp.length 0 rfl]; rfl, rfl⟩
  · intro env hp code
    rw [mkSystem_eq]
    exact ⟨_, rfl, by rw [getElem?_append_new hp _ hp.length 0 rfl]; rfl, rfl⟩
  · intro env hp source code args module buf hmui hbuf
    by_cases hres : (env.muiMessage module code args).1 = 0
    · refine ⟨_, _, mkMuiVa_missing env hp source code args module hmui hres,
        by rw [getElem?_append_new hp _ hp.length 0 rfl]; rfl, ?_⟩
      simp [hbuf, muiStored]
    · refine ⟨_, _, mkMuiVa_found env hp source code args module hmui hres,
        by rw [getElem?_append_new hp _ hp.length 0 rfl]; rfl, ?_⟩
      simp [hbuf, muiStored]
  · intro env hp sysCode source appCode text
    by_cases hmui : source.muiModule_ = none
    · exact ⟨_, _, mkSystemVa_plain env hp sysCode source appCode text hmui,
        by rw [getElem?_append_new hp _ hp.length 0 rfl]; rfl, rfl⟩
    · exact ⟨_, _, mkSystemVa_mui env hp sysCode source appCode text hmui,
        by rw [getElem?_append_new hp _ hp.length 0 rfl]; rfl, rfl⟩

/-- Witness of C23: `mkMui` for the source `Service` stores the text found in the module
without its line break. -/
theorem mkSystemVa_keeps_line_break_witness :
    mkMuiVa envOk [] serviceSource 7 [] =
      some ([ { source_ := some serviceSource, code_ := 7, msg_ := "Logging failed.".toList,
                chain_ := none } ], some 0) ∧
    ∃ hp1 m, mkMuiVa envOk [] serviceSource 7 [] = some (hp1, some ([] : Heap).length) ∧
      hp1[([] : Heap).length]? = some m ∧ m.msg_ = trimTrailing "Logging failed.\r\n".toList :=
  ⟨by decide,
    mkSystemVa_keeps_line_break.2.2.2.1 envOk [] serviceSource 7 [] 1
      "Logging failed.\r\n".toList rfl rfl⟩

/-- C24: the structure that `mkSystem` with a source builds.  On a plain source
`mkSystem(sysCode, source, appCode, fmt, ...)` returns a chain of exactly two new nodes: the
outer node has the source, `appCode` and the formatted text, and it is chained to the
node of `mkSystem(sysCode)`, which has no source, the code `sysCode` and the trimmed
system text (the text found, or `[error text not found]`).  On a MUI source `mkMuiSystem`
returns the node with the source and `appCode`, chained directly to the system node. -/
theorem wrap_system (env : Env) (hp : Heap) (plain mui : Source) (sysCode appCode : Nat)
    (text : WString) (args : List WString) (module : Nat)
    (hplain : plain.muiModule_ = none) (hmui : mui.muiModule_ = some module) :
    (mkSystemVa env hp sysCode plain appCode text =
        some (hp ++
          [ { source_ := some plain, code_ := appCode, msg_ := text,
              chain_ := some (hp.length + 1) },
            { source_ := none, code_ := sysCode,
              msg_ := trimTrailing (systemText env sysCode), chain_ := none } ],
          some hp.length) ∧
      (mkSystem env hp sysCode).1 =
        hp ++ [{ source_ := none, code_ := sysCode,
                 msg_ := trimTrailing (systemText env sysCode), chain_ := none }] ∧
      (env.sysMessage sysCode = none → systemText env sysCode = "[error text not found]".toList) ∧
      (∀ buf, env.sysMessage sysCode = some buf → systemText env sysCode = buf) ∧
      ∀ hp1 a, mkSystemVa env hp sysCode plain appCode text = some (hp1, a) →
        isChain hp1 a [hp.length, hp.length + 1] = true) ∧
    ∃ hp1 outer s sys, mkMuiSystemVa env hp sysCode mui appCode args = some (hp1, some hp.length) ∧
      hp1[hp.length]? = some outer ∧ outer.source_ = some mui ∧ outer.code_ = appCode ∧
      outer.chain_ = some s ∧ hp1[s]? = some sys ∧ sys.source_ = none ∧
      sys.code_ = sysCode ∧ sys.msg_ = trimTrailing (systemText env sysCode) := by
  refine ⟨⟨mkSystemVa_plain env hp sysCode plain appCode text hplain, ?_, ?_, ?_, ?_⟩, ?_⟩
  · rw [mkSystem_eq]
  · intro h
    simp [systemText, h]
  · intro buf h
    simp [systemText, h]
  · intro hp1 a h
    rw [mkSystemVa_plain env hp sysCode plain appCode text hplain] at h
    simp only [Option.some.injEq, Prod.mk.injEq] at h
    obtain ⟨rfl, rfl⟩ := h
    rw [isChain_cons_iff]
    refine ⟨rfl, _, by rw [getElem?_append_new hp _ hp.length 0 rfl]; rfl, ?_⟩
    rw [isChain_cons_iff]
    refine ⟨rfl, _, by rw [getElem?_append_new hp _ (hp.length + 1) 1 rfl]; rfl, ?_⟩
    rfl
  · by_cases hres : (env.muiMessage module appCode args).1 = 0
    · exact ⟨_, _, hp.length + 3, _,
        mkMuiSystemVa_missing env hp sysCode mui appCode args module hmui hres,
        by rw [getElem?_append_new hp _ hp.length 0 rfl]; rfl, rfl, rfl, rfl,
        by rw [getElem?_append_new hp _ (hp.length + 3) 3 rfl]; rfl, rfl, rfl, rfl⟩
    · exact ⟨_, _, hp.length + 1, _,
        mkMuiSystemVa_found env hp sysCode mui appCode args module hmui hres,
        by rw [getElem?_append_new hp _ hp.length 0 rfl]; rfl, rfl, rfl, rfl,
        by rw [getElem?_append_new hp _ (hp.length + 1) 1 rfl]; rfl, rfl, rfl, rfl⟩

/-- Witness of C24: the scenario with the system code 2, the source `Widget`, the code 7
and the text `cannot open x.txt`. -/
theorem wrap_system_witness :
    (mkSystemVa envOk [] 2 widgetSource 7 "cannot open x.txt".toList).bind
        (fun r => r.2.bind (fun a => toString r.1 a)) =
      some ("Widget:7:0x7: cannot open x.txt\n" ++
        "  NT:2:0x2: The system cannot find the file specified.\n").toList ∧
    (mkMuiSystemVa envOk [] 2 serviceSource 7 []).bind
        (fun r => r.2.bind (fun a => toString r.1 a)) =
      some ("Service:7:0x7: Logging failed.\n" ++
        "  NT:2:0x2: The system cannot find the file specified.\n").toList ∧
    mkSystemVa envOk [] 2 widgetSource 7 "cannot open x.txt".toList =
      some ([] ++
        [ { source_ := some widgetSource, code_ := 7, msg_ := "cannot open x.txt".toList,
            chain_ := some (([] : Heap).length + 1) },
          { source_ := none, code_ := 2,
            msg_ := trimTrailing (systemText envOk 2), chain_ := none } ],
        some ([] : Heap).length) :=
  ⟨by decide, by decide,
    (wrap_system envOk [] widgetSource serviceSource 2 7 "cannot open x.txt".toList [] 1
      rfl rfl).1.1⟩

/-! ## The fields of a record -/

/-- The loop over the codes stores at most as many codes as there are free fields. -/
theorem codesLoop_length_le (hp : Heap) (next : Erref) :
    ∀ (slots : Nat) (eit : Erref) (codes : List Nat),
      EtwLogger.codesLoop hp next slots eit = some codes → codes.length ≤ slots := by
  intro slots
  induction slots with
  | zero =>
    intro eit codes h
    simp only [EtwLogger.codesLoop, Option.some.injEq] at h
    subst h
    simp
  | succ n ih =>
    intro eit codes h
    simp only [EtwLogger.codesLoop] at h
    split_ifs at h with heq
    · simp only [Option.some.injEq] at h
      subst h
      simp
    · cases eit with
      | none => simp at h
      | some a =>
        simp only at h
        cases hm : hp[a]? with
        | none => simp [hm] at h
        | some m =>
          simp only [hm] at h
          cases hr : EtwLogger.codesLoop hp next n m.chain_ with
          | none => simp [hr] at h
          | some rest =>
            simp only [hr, Option.some.injEq] at h
            subst h
            have := ih _ _ hr
            simp only [List.length_cons]
            omega

/-- The loop over the codes on an acyclic chain, towards the node with index `k`: the
masked codes of the first `k` nodes, as far as there are free fields. -/
theorem codesLoop_exact (hp : Heap) :
    ∀ (slots : Nat) (l : List Nat) (eit : Erref) (k : Nat), isChain hp eit l = true →
      EtwLogger.codesLoop hp l[k]? slots eit =
        some (((nodesOf hp l).take (min k slots)).map (fun m => m.code_ &&& 0x3FFFFFFF)) := by
  intro slots
  induction slots with
  | zero => intro l eit k _; simp [EtwLogger.codesLoop]
  | succ n ih =>
    intro l eit k h
    cases l with
    | nil =>
      rw [isChain_nil_iff] at h
      subst h
      simp [EtwLogger.codesLoop, nodesOf]
    | cons a t =>
      have hnd := isChain_nodup hp _ _ h
      rw [isChain_cons_iff] at h
      obtain ⟨rfl, m, hm, ht⟩ := h
      cases k with
      | zero => simp [EtwLogger.codesLoop]
      | succ k =>
        have hne : ¬ (some a = (a :: t)[k + 1]?) := by
          intro heq
          rw [List.getElem?_cons_succ] at heq
          have hmem := List.getElem?_mem heq.symm
          exact (List.nodup_cons.mp hnd).1 hmem
        have hrec := ih t m.chain_ k ht
        rw [List.getElem?_cons_succ] at hne ⊢
        simp only [EtwLogger.codesLoop, hne, if_false, hm, hrec]
        rw [nodesOf_cons hp a t m hm, Nat.succ_min_succ]
        simp

/-- The fields of a record that `buildRecord` returns. -/
theorem buildRecord_bounds (hp : Heap) (h : Option Nat) (err : Erref) (sev : Severity)
    (cur : Nat) (next next1 : Erref) (r : EventRecord)
    (hb : EtwLogger.buildRecord hp h err sev cur next = some (r, next1)) :
    r.count = r.codes.length ∧ r.fcount = 3 + r.count ∧ r.count ≤ MSG_FIELD_LIMIT - 3 ∧
      r.fcount ≤ MSG_FIELD_LIMIT := by
  simp only [EtwLogger.buildRecord] at hb
  cases h1 : toLimitedString hp cur STRING_LIMIT with
  | none => simp [h1] at hb
  | some p =>
    obtain ⟨chunk, n1⟩ := p
    simp only [h1] at hb
    cases h2 : getCode hp err with
    | none => simp [h2] at hb
    | some code =>
      simp only [h2] at hb
      cases h3 : EtwLogger.codesLoop hp n1 (MSG_FIELD_LIMIT - 3) (some cur) with
      | none => simp [h3] at hb
      | some codes =>
        simp only [h3, Option.some.injEq, Prod.mk.injEq] at hb
        obtain ⟨rfl, _⟩ := hb
        have hle := codesLoop_length_le hp n1 _ _ _ h3
        refine ⟨rfl, rfl, hle, ?_⟩
        simp only [MSG_FIELD_LIMIT] at hle ⊢
        omega

/-- Every record of an error comes from one pass of the loop. -/
theorem entryRecords_mem (hp : Heap) (h : Option Nat) (err : Erref) (sev : Severity) :
    ∀ (fuel : Nat) (cur next : Erref) (recs : List EventRecord),
      EtwLogger.entryRecords hp h err sev fuel cur next = some recs →
      ∀ r ∈ recs, ∃ c nx n1, EtwLogger.buildRecord hp h err sev c nx = some (r, n1) := by
  intro fuel
  induction fuel with
  | zero => intro cur next recs hr; simp [EtwLogger.entryRecords] at hr
  | succ n ih =>
    intro cur next recs hr r hmem
    cases cur with
    | none =>
      simp only [EtwLogger.entryRecords, Option.some.injEq] at hr
      subst hr
      simp at hmem
    | some c =>
      simp only [EtwLogger.entryRecords] at hr
      cases hb : EtwLogger.buildRecord hp h err sev c next with
      | none => simp [hb] at hr
      | some p =>
        obtain ⟨record, n1⟩ := p
        simp only [hb] at hr
        cases hrest : EtwLogger.entryRecords hp h err sev n n1 n1 with
        | none => simp [hrest] at hr
        | some rest =>
          simp only [hrest, Option.some.injEq] at hr
          subst hr
          rcases List.mem_cons.mp hmem with rfl | hin
          · exact ⟨c, next, n1, hb⟩
          · exact ih n1 n1 rest hrest r hin

/-- Claim C27 (the field limit of a record).  One pass of the loop of `logBodyInternalL`
on an acyclic chain builds a record for the first `k ≥ 1` nodes, the nodes that
`toLimitedString` rendered: its codes are the masked codes of the first `min k 97` of
these nodes in chain order, the count field is their number, and the number of fields is
3 more, at most `MSG_FIELD_LIMIT`, so every field index is below 100.  The bounds hold for
every record of every error. -/
theorem record_fields (hp : Heap) (h : Option Nat) (err : Erref) (sev : Severity)
    (cur : Nat) (next : Erref) (l : List Nat) (hl : isChain hp (some cur) l = true)
    (herr : ∃ code, getCode hp err = some code) :
    (∃ r k, 1 ≤ k ∧ k ≤ l.length ∧
      EtwLogger.buildRecord hp h err sev cur next = some (r, l[k]?) ∧
      toLimitedString hp cur STRING_LIMIT =
        some (renderChain true ((nodesOf hp l).take k), l[k]?) ∧
      r.codes = ((nodesOf hp l).take (min k 97)).map (fun m => m.code_ &&& 0x3FFFFFFF) ∧
      r.count = r.codes.length ∧ r.count = min k 97 ∧ r.fcount = 3 + r.count ∧
      r.fcount ≤ MSG_FIELD_LIMIT ∧ MSG_FIELD_LIMIT = 100 ∧
      (∀ i, i < r.codes.length → 3 + i < MSG_FIELD_LIMIT)) ∧
    (∀ (fuel : Nat) (c nx : Erref) (recs : List EventRecord),
      EtwLogger.entryRecords hp h err sev fuel c nx = some recs →
      ∀ r ∈ recs, r.count = r.codes.length ∧ r.fcount = 3 + r.count ∧ r.count ≤ 97 ∧
        r.fcount ≤ MSG_FIELD_LIMIT) := by
  constructor
  · obtain ⟨k, hk1, hk2, hres, _⟩ := toLimitedString_count hp cur STRING_LIMIT l hl
    obtain ⟨code, hcode⟩ := herr
    have hcodes : EtwLogger.codesLoop hp l[k]? (MSG_FIELD_LIMIT - 3) (some cur) =
        some (((nodesOf hp l).take (min k 97)).map (fun m => m.code_ &&& 0x3FFFFFFF)) :=
      codesLoop_exact hp (MSG_FIELD_LIMIT - 3) l (some cur) k hl
    have hlen : (((nodesOf hp l).take (min k 97)).map
        (fun m => m.code_ &&& 0x3FFFFFFF)).length = min k 97 := by
      rw [List.length_map, List.length_take, nodesOf_length hp l _ hl]
      omega
    have hex : ∃ r, EtwLogger.buildRecord hp h err sev cur next = some (r, l[k]?) ∧
        r.codes = ((nodesOf hp l).take (min k 97)).map (fun m => m.code_ &&& 0x3FFFFFFF) ∧
        r.count = r.codes.length ∧ r.fcount = 3 + r.count := by
      simp only [EtwLogger.buildRecord, hres, hcode, hcodes]
      exact ⟨_, rfl, rfl, rfl, rfl⟩
    obtain ⟨r, hr, hc1, hc2, hc3⟩ := hex
    have hcount : r.count = min k 97 := by rw [hc2, hc1, hlen]
    refine ⟨r, k, hk1, hk2, hr, hres, hc1, hc2, hcount, hc3, ?_, rfl, ?_⟩
    · simp only [MSG_FIELD_LIMIT]
      omega
    · intro i hi
      simp only [MSG_FIELD_LIMIT]
      omega
  · intro fuel c nx recs hrecs r hr
    obtain ⟨c1, nx1, n1, hb⟩ := entryRecords_mem hp h err sev fuel c nx recs hrecs r hr
    obtain ⟨h1, h2, h3, h4⟩ := buildRecord_bounds hp h err sev c1 nx1 n1 r hb
    exact ⟨h1, h2, h3, h4⟩

/-- Witness of C27: the record of the chain `0 → 1 → 2` of `hpThree` logged as an error. -/
theorem record_fields_witness :
    (EtwLogger.buildRecord hpThree (some 7) (some 0) .SV_ERROR 0 none).map
        (fun p => (p.1.fcount, p.1.code, p.1.count, p.1.codes, p.2)) =
      some (6, 1, 3, [1, 2, 3], none) ∧
    ∃ r k, 1 ≤ k ∧ k ≤ [0, 1, 2].length ∧
      EtwLogger.buildRecord hpThree (some 7) (some 0) .SV_ERROR 0 none =
        some (r, [0, 1, 2][k]?) ∧
      toLimitedString hpThree 0 STRING_LIMIT =
        some (renderChain true ((nodesOf hpThree [0, 1, 2]).take k), [0, 1, 2][k]?) ∧
      r.codes = ((nodesOf hpThree [0, 1, 2]).take (min k 97)).map
        (fun m => m.code_ &&& 0x3FFFFFFF) ∧
      r.count = r.codes.length ∧ r.count = min k 97 ∧ r.fcount = 3 + r.count ∧
      r.fcount ≤ MSG_FIELD_LIMIT ∧ MSG_FIELD_LIMIT = 100 ∧
      (∀ i, i < r.codes.length → 3 + i < MSG_FIELD_LIMIT) :=
  ⟨by decide,
    (record_fields hpThree (some 7) (some 0) .SV_ERROR 0 none [0, 1, 2] (by decide)
      ⟨0x40000001, by decide⟩).1⟩

/-! ## The text of the records -/

/-- The text, handle and event of the record of one pass of the loop. -/
theorem buildRecord_text (hp : Heap) (h : Option Nat) (err : Erref) (sev : Severity)
    (c : Nat) (next : Erref) (l : List Nat) (hl : isChain hp (some c) l = true)
    (herr : ∃ code, getCode hp err = some code) :
    ∃ r k chunk, 1 ≤ k ∧ k ≤ l.length ∧
      toLimitedString hp c STRING_LIMIT = some (chunk, l[k]?) ∧
      EtwLogger.buildRecord hp h err sev c next = some (r, l[k]?) ∧
      r.text = [Logger.oneLetterSeverity sev, ' '] ++
        (if next.isSome then "(continued)\n  ".toList else []) ++ chunk ∧
      r.handle = h ∧ r.event = EtwLogger.eventFor sev := by
  obtain ⟨k, hk1, hk2, hres, _⟩ := toLimitedString_count hp c STRING_LIMIT l hl
  obtain ⟨code, hcode⟩ := herr
  have hcodes := codesLoop_exact hp (MSG_FIELD_LIMIT - 3) l (some c) k hl
  have hex : ∃ r, EtwLogger.buildRecord hp h err sev c next = some (r, l[k]?) ∧
      r.text = [Logger.oneLetterSeverity sev, ' '] ++
        (if next.isSome then "(continued)\n  ".toList else []) ++
        renderChain true ((nodesOf hp l).take k) ∧
      r.handle = h ∧ r.event = EtwLogger.eventFor sev := by
    simp only [EtwLogger.buildRecord, hres, hcode, hcodes]
    refine ⟨_, rfl, ?_, rfl, rfl⟩
    cases next <;> simp
  obtain ⟨r, hr, ht, hh, hev⟩ := hex
  exact ⟨r, k, _, hk1, hk2, hres, hr, ht, hh, hev⟩

/-- The records of an error are its chunks, each after the severity letter and a space,
and after the marker when `next` is not `NULL`. -/
theorem entryRecords_texts (hp : Heap) (h : Option Nat) (err : Erref) (sev : Severity)
    (herr : ∃ code, getCode hp err = some code) :
    ∀ (n : Nat) (l : List Nat) (cur next : Erref) (fuel : Nat), l.length ≤ n →
      isChain hp cur l = true → l.length + 1 ≤ fuel →
      ∃ recs chunks, EtwLogger.entryRecords hp h err sev fuel cur next = some recs ∧
        (∀ calls, l.length ≤ calls → limitedChunks hp STRING_LIMIT calls cur = some chunks) ∧
        recs.map (fun r => r.text) =
          (chunks.take 1).map (fun c => [Logger.oneLetterSeverity sev, ' '] ++
            (if next.isSome then "(continued)\n  ".toList else []) ++ c) ++
          (chunks.drop 1).map (fun c => [Logger.oneLetterSeverity sev, ' '] ++
            "(continued)\n  ".toList ++ c) ∧
        (cur ≠ none → chunks ≠ []) ∧
        ∀ r ∈ recs, r.handle = h ∧ r.event = EtwLogger.eventFor sev := by
  intro n
  induction n with
  | zero =>
    intro l cur next fuel hn hl hf
    have hl0 : l = [] := List.length_eq_zero.mp (by omega)
    subst hl0
    rw [isChain_nil_iff] at hl
    subst hl
    obtain ⟨f, rfl⟩ : ∃ f, fuel = f + 1 := ⟨fuel - 1, by omega⟩
    refine ⟨[], [], rfl, ?_, by simp, by simp, by simp⟩
    intro calls _
    cases calls <;> rfl
  | succ n ih =>
    intro l cur next fuel hn hl hf
    obtain ⟨f, rfl⟩ : ∃ f, fuel = f + 1 := ⟨fuel - 1, by omega⟩
    cases cur with
    | none =>
      refine ⟨[], [], rfl, ?_, by simp, by simp, by simp⟩
      intro calls _
      cases calls <;> rfl
    | some c =>
      obtain ⟨r, k, chunk, hk1, hk2, hlim, hb, htext, hh, hev⟩ :=
        buildRecord_text hp h err sev c next l hl herr
      obtain ⟨recs, chunks, hrecs, hchunks, htexts, hne, hall⟩ :=
        ih (l.drop k) l[k]? l[k]? f (by simp only [List.length_drop]; omega)
          (isChain_drop hp l _ k hl) (by simp only [List.length_drop]; omega)
      have hrest : recs.map (fun r => r.text) =
          chunks.map (fun c => [Logger.oneLetterSeverity sev, ' '] ++
            "(continued)\n  ".toList ++ c) := by
        rw [htexts]
        cases hk : l[k]? with
        | none =>
          have h0 := hchunks (l.drop k).length (le_refl _)
          rw [hk] at h0
          have : chunks = [] := by
            cases hc : (l.drop k).length <;> rw [hc] at h0 <;>
              simp only [limitedChunks, Option.some.injEq] at h0 <;> exact h0.symm
          subst this
          simp
        | some b =>
          simp only [Option.isSome_some, if_true]
          rw [← List.map_append, List.take_append_drop]
      refine ⟨r :: recs, chunk :: chunks, ?_, ?_, ?_, by simp, ?_⟩
      · simp only [EtwLogger.entryRecords, hb, hrecs]
      · intro calls hcalls
        obtain ⟨c2, rfl⟩ : ∃ c2, calls = c2 + 1 := ⟨calls - 1, by omega⟩
        simp only [limitedChunks, hlim,
          hchunks c2 (by simp only [List.length_drop]; omega)]
      · simp only [List.map_cons, htext, hrest, List.take_succ_cons, List.take_zero,
          List.drop_succ_cons, List.drop_zero, List.map_nil, List.singleton_append]
      · intro x hx
        rcases List.mem_cons.mp hx with rfl | hx
        · exact ⟨hh, hev⟩
        · exact hall x hx

/-- The loop of `logBodyInternalL` passes to `EventWrite` the first records of the error:
all of them when every status is tolerated. -/
theorem logBodyInternalLoop_sent (env : Env) (err : Erref) (sev : Severity) :
    ∀ (n : Nat) (l : List Nat) (cur next : Erref) (fuel : Nat) (w : World) (this : EtwLogger),
      l.length ≤ n → isChain w.hp cur l = true → l.length + 1 ≤ fuel →
      (∃ code, getCode w.hp err = some code) → Acyclic w.hp this.err_ →
      ∃ w1 t1 recs sent,
        EtwLogger.logBodyInternalLoop env err sev fuel w this cur next = some (w1, t1) ∧
        EtwLogger.entryRecords w.hp this.h_ err sev fuel cur next = some recs ∧
        w1.emitted = w.emitted ++ sent ∧ sent <+: recs ∧
        ((∀ i r, EtwLogger.isTolerated (env.eventWrite i r) = true) → sent = recs) := by
  intro n
  induction n with
  | zero =>
    intro l cur next fuel w this hn hl hf _ _
    have hl0 : l = [] := List.length_eq_zero.mp (by omega)
    subst hl0
    rw [isChain_nil_iff] at hl
    subst hl
    obtain ⟨f, rfl⟩ : ∃ f, fuel = f + 1 := ⟨fuel - 1, by omega⟩
    exact ⟨w, this, [], [], rfl, rfl, by simp, List.prefix_refl _, fun _ => rfl⟩
  | succ n ih =>
    intro l cur next fuel w this hn hl hf hcode herr
    obtain ⟨f, rfl⟩ : ∃ f, fuel = f + 1 := ⟨fuel - 1, by omega⟩
    cases cur with
    | none => exact ⟨w, this, [], [], rfl, rfl, by simp, List.prefix_refl _, fun _ => rfl⟩
    | some c =>
      obtain ⟨record, k, hk1, hk2, hb⟩ :=
        buildRecord_some w.hp this.h_ err sev c next l hl hcode
      by_cases htol : EtwLogger.isTolerated (env.eventWrite w.emitted.length record) = true
      · obtain ⟨w2, t2, recs, sent, hloop, hrecs, hem, hpre, hall⟩ :=
          ih (l.drop k) l[k]? l[k]? f { w with emitted := w.emitted ++ [record] } this
            (by simp only [List.length_drop]; omega) (isChain_drop w.hp l _ k hl)
            (by simp only [List.length_drop]; omega) hcode herr
        refine ⟨w2, t2, record :: recs, record :: sent, ?_, ?_, ?_, ?_, ?_⟩
        · simp only [EtwLogger.logBodyInternalLoop, hb, htol, if_true]
          exact hloop
        · simp only [EtwLogger.entryRecords, hb]
          simp only at hrecs
          rw [hrecs]
        · rw [hem]
          simp
        · exact List.prefix_cons_inj record |>.mpr hpre
        · intro hok
          rw [hall hok]
      · obtain ⟨rest, hrest, _⟩ := entryRecords_some w.hp this.h_ err sev hcode n (l.drop k)
          l[k]? l[k]? f (by simp only [List.length_drop]; omega)
          (isChain_drop w.hp l _ k hl) (by simp only [List.length_drop]; omega)
        obtain ⟨w2, t2, hwf, _, _, _, _, _, h6, _⟩ :=
          writeFailed_total env { w with emitted := w.emitted ++ [record] } this
            (env.eventWrite w.emitted.length record) herr
        refine ⟨w2, t2, record :: rest, [record], ?_, ?_, by rw [h6], ?_, ?_⟩
        · simp only [EtwLogger.logBodyInternalLoop, hb, htol, if_false]
          exact hwf
        · simp only [EtwLogger.entryRecords, hb, hrest]
        · exact List.prefix_cons_inj record |>.mpr (List.nil_prefix)
        · intro hok
          exact absurd (hok _ _) htol

/-- Claim C28 (the text of the records).  For a non-empty acyclic chain the records of one
log entry are, in order, the chunks that `toLimitedString(STRING_LIMIT)` returns along the
continuations, at least one; the text of the first record is the severity letter, a space
and the chunk, the text of every later record is the severity letter, a space, the marker
`(continued)`, a newline, two spaces and the chunk.  `logBodyInternalL` returns and passes
to `EventWrite` the first of these records in order: all of them when every status is
tolerated. -/
theorem record_layout (env : Env) (w : World) (this : EtwLogger) (a : Nat) (sev : Severity)
    (entity : Option LogEntity) (l : List Nat) (hl : isChain w.hp (some a) l = true)
    (herr : Acyclic w.hp this.err_) :
    ∃ chunks recs sent w1 t1,
      limitedChunks w.hp STRING_LIMIT l.length (some a) = some chunks ∧ chunks ≠ [] ∧
      STRING_LIMIT = 5000 ∧
      EtwLogger.recordsOf w.hp this.h_ { err_ := some a, sev_ := sev, entity_ := entity } =
        some recs ∧
      recs.map (fun r => r.text) =
        (chunks.take 1).map (fun c => [Logger.oneLetterSeverity sev, ' '] ++ c) ++
        (chunks.drop 1).map (fun c => [Logger.oneLetterSeverity sev, ' '] ++
          "(continued)\n  ".toList ++ c) ∧
      [Severity.SV_DEBUG, .SV_VERBOSE, .SV_INFO, .SV_WARNING, .SV_ERROR, .SV_NEVER].map
        Logger.oneLetterSeverity = ['D', 'V', 'I', 'W', 'E', '?'] ∧
      EtwLogger.logBodyInternalL env w this (some a) sev entity = some (w1, t1) ∧
      w1.emitted = w.emitted ++ sent ∧ sent <+: recs ∧
      ((∀ i r, EtwLogger.isTolerated (env.eventWrite i r) = true) → sent = recs) := by
  have hcode := getCode_some_of_chain w.hp (some a) l hl
  have hfuel : l.length + 1 ≤ w.hp.length + 1 := by
    have := isChain_length_le w.hp l _ hl
    omega
  obtain ⟨recs, chunks, hrecs, hchunks, htexts, hne, _⟩ :=
    entryRecords_texts w.hp this.h_ (some a) sev hcode l.length l (some a) none
      (w.hp.length + 1) (le_refl _) hl hfuel
  obtain ⟨w1, t1, recs2, sent, hloop, hrecs2, hem, hpre, hall⟩ :=
    logBodyInternalLoop_sent env (some a) sev l.length l (some a) none (w.hp.length + 1) w this
      (le_refl _) hl hfuel hcode herr
  rw [hrecs] at hrecs2
  cases hrecs2
  refine ⟨chunks, recs, sent, w1, t1, hchunks l.length (le_refl _), hne (by simp), rfl,
    hrecs, ?_, rfl, hloop, hem, hpre, hall⟩
  rw [htexts]
  simp

/-- Witness of C28: the chain `0 → 1 → 2` of `hpThree` logged as a warning gives one
record without the marker; a pass of the loop that continues at the node 1 builds a record
with the marker. -/
theorem record_layout_witness :
    (EtwLogger.logBodyInternalL envOk { hp := hpThree, emitted := [] } (loggerNew .SV_INFO)
        (some 0) .SV_WARNING none).map (fun p => p.1.emitted.map (fun r => r.text)) =
      some ["W Widget:1:0x40000001: one\n  NT:2:0x2: two\n  NT:3:0x3: three\n".toList] ∧
    (EtwLogger.buildRecord hpThree (some 7) (some 0) .SV_WARNING 1 (some 1)).map
        (fun p => p.1.text) =
      some "W (continued)\n  NT:2:0x2: two\n  NT:3:0x3: three\n".toList ∧
    ∃ chunks recs sent w1 t1,
      limitedChunks hpThree STRING_LIMIT [0, 1, 2].length (some 0) = some chunks ∧
      chunks ≠ [] ∧ STRING_LIMIT = 5000 ∧
      EtwLogger.recordsOf hpThree (loggerNew .SV_INFO).h_
          { err_ := some 0, sev_ := .SV_WARNING, entity_ := none } = some recs ∧
      recs.map (fun r => r.text) =
        (chunks.take 1).map (fun c => [Logger.oneLetterSeverity .SV_WARNING, ' '] ++ c) ++
        (chunks.drop 1).map (fun c => [Logger.oneLetterSeverity .SV_WARNING, ' '] ++
          "(continued)\n  ".toList ++ c) ∧
      [Severity.SV_DEBUG, .SV_VERBOSE, .SV_INFO, .SV_WARNING, .SV_ERROR, .SV_NEVER].map
        Logger.oneLetterSeverity = ['D', 'V', 'I', 'W', 'E', '?'] ∧
      EtwLogger.logBodyInternalL envOk { hp := hpThree, emitted := [] } (loggerNew .SV_INFO)
        (some 0) .SV_WARNING none = some (w1, t1) ∧
      w1.emitted = ([] : List EventRecord) ++ sent ∧ sent <+: recs ∧
      ((∀ i r, EtwLogger.isTolerated (envOk.eventWrite i r) = true) → sent = recs) :=
  ⟨by decide, by decide,
    record_layout envOk { hp := hpThree, emitted := [] } (loggerNew .SV_INFO) 0 .SV_WARNING
      none [0, 1, 2] (by decide) ⟨[], rfl⟩⟩

/-! ## The order of emission -/

/-- One operation other than `close` on an open sink, when every status is tolerated: the
entries emitted, followed by the backlog afterwards, are a subsequence of the backlog
before followed by the call when it is accepted. -/
theorem step_order (env : Env)
    (hok : ∀ i r, EtwLogger.isTolerated (env.eventWrite i r) = true)
    (w : World) (t : EtwLogger) (op : LoggerOp) (hop : op ≠ .close) (hopen : t.h_ ≠ none)
    (hch : ∀ e ∈ t.backlog_ ++ EtwLogger.acceptedBy t op, Acyclic w.hp e.err_) :
    ∃ w1 t1 es recs, EtwLogger.step env w t op = some (w1, t1) ∧ t1.h_ = t.h_ ∧
      w1.hp = w.hp ∧
      (es ++ t1.backlog_).Sublist (t.backlog_ ++ EtwLogger.acceptedBy t op) ∧
      List.Forall₂ (fun e r => EtwLogger.recordsOf w.hp t.h_ e = some r ∧
        (e.err_ ≠ none → r ≠ [])) es recs ∧
      w1.emitted = w.emitted ++ recs.flatten := by
  have hb : ∀ e ∈ t.backlog_, Acyclic w.hp e.err_ :=
    fun e he => hch e (List.mem_append_left _ he)
  cases op with
  | close => exact absurd rfl hop
  | signal isEnabled level =>
    refine ⟨w, EtwLogger.callback isEnabled level t, [], [], rfl, ?_, rfl, ?_,
      List.Forall₂.nil, by simp⟩
    · simp only [EtwLogger.callback]; split_ifs <;> rfl
    · have hbk : (EtwLogger.callback isEnabled level t).backlog_ = t.backlog_ := by
        simp only [EtwLogger.callback]; split_ifs <;> rfl
      simp [hbk, EtwLogger.acceptedBy]
  | poll =>
    by_cases hen : t.enabled_ = false
    · refine ⟨w, t, [], [], by simp [EtwLogger.step, EtwLogger.poll, hen], rfl, rfl, ?_,
        List.Forall₂.nil, by simp⟩
      simp [EtwLogger.acceptedBy]
    · obtain ⟨recs, hF⟩ := backlog_records_exist w.hp t.h_ t.backlog_ hb
      have hp := processBacklogL_ok env hok t.backlog_ recs _ w t hopen rfl (le_refl _) hF
      refine ⟨{ w with emitted := w.emitted ++ recs.flatten }, { t with backlog_ := [] },
        t.backlog_, recs, by simp [EtwLogger.step, EtwLogger.poll, hen, hopen, hp],
        rfl, rfl, ?_, hF, rfl⟩
      simp [EtwLogger.acceptedBy]
  | log err sev entity =>
    by_cases hacc : err ≠ none ∧ t.minSeverity_.toNat ≤ sev.toNat ∧ t.h_ ≠ none
    · obtain ⟨hne, hsev, _⟩ := hacc
      have hA : EtwLogger.acceptedBy t (.log err sev entity) =
          [{ err_ := err, sev_ := sev, entity_ := entity }] := by
        simp [EtwLogger.acceptedBy, hne, hsev, hopen]
      obtain ⟨a, rfl⟩ : ∃ a, err = some a := by
        cases err with
        | none => exact absurd rfl hne
        | some a => exact ⟨a, rfl⟩
      cases hen : t.enabled_ with
      | false =>
        have hgate : ¬ (sev.toNat < t.minSeverity_.toNat ∨ t.h_ = none) := by
          intro h
          rcases h with h | h
          · omega
          · exact hopen h
        refine ⟨w,
          { t with backlog_ := EtwLogger.popExcess
                                 (t.backlog_ ++ [(⟨some a, sev, entity⟩ : BacklogEntry)]).length
                                 (t.backlog_ ++ [(⟨some a, sev, entity⟩ : BacklogEntry)]) },
          [], [], ?_, rfl, rfl, ?_, List.Forall₂.nil, by simp⟩
        · simp only [EtwLogger.step, EtwLogger.log, Logger.log, EtwLogger.logBody, hgate,
            if_false, hen]
          rfl
        · rw [hA, popExcess_eq_drop _ _ (by omega)]
          simp only [List.nil_append]
          exact List.drop_sublist _ _
      | true =>
        obtain ⟨recs, hF⟩ := backlog_records_exist w.hp t.h_ t.backlog_ hb
        obtain ⟨la, hla⟩ : Acyclic w.hp (some a) :=
          hch _ (List.mem_append_right _ (by rw [hA]; exact List.mem_singleton_self _))
        obtain ⟨rm, hrm, hrne⟩ := recordsOf_some w.hp t.h_
          { err_ := some a, sev_ := sev, entity_ := entity } la hla
        have hlog := logBody_enabled_ok env w t
          { err_ := some a, sev_ := sev, entity_ := entity } recs rm hopen hen hok hsev hF hrm
        simp only at hlog
        refine ⟨{ w with emitted := w.emitted ++ recs.flatten ++ rm },
          { t with backlog_ := [] },
          t.backlog_ ++ [{ err_ := some a, sev_ := sev, entity_ := entity }],
          recs ++ [rm], ?_, rfl, rfl, ?_, ?_, ?_⟩
        · simp only [EtwLogger.step, EtwLogger.log, Logger.log, hlog]
        · rw [hA]
          simp
        · exact List.rel_append hF (List.Forall₂.cons ⟨hrm, hrne⟩ List.Forall₂.nil)
        · simp [List.flatten_append]
    · have hA : EtwLogger.acceptedBy t (.log err sev entity) = [] := by
        simp only [EtwLogger.acceptedBy, hacc, if_false]
      have hg : err = none ∨ sev.toNat < t.minSeverity_.toNat ∨ t.h_ = none := by
        by_contra hcon
        push_neg at hcon
        exact hacc ⟨hcon.1, by omega, hcon.2.2⟩
      refine ⟨w, t, [], [], ?_, rfl, rfl, ?_, List.Forall₂.nil, by simp⟩
      · simp only [EtwLogger.step, log_gate env w t err sev entity hg]
      · rw [hA]
        simp

/-- A sequence of operations without `close` on an open sink, when every status is
tolerated: the entries emitted, in the order of their emission, followed by the backlog
afterwards, are a subsequence of the backlog before followed by the accepted calls. -/
theorem run_order (env : Env)
    (hok : ∀ i r, EtwLogger.isTolerated (env.eventWrite i r) = true) :
    ∀ (ops : List LoggerOp) (w : World) (t : EtwLogger), (∀ op ∈ ops, op ≠ .close) →
      t.h_ ≠ none →
      (∀ e ∈ t.backlog_ ++ EtwLogger.accepted env ops w t, Acyclic w.hp e.err_) →
      ∃ w1 t1 es recs, EtwLogger.run env ops w t = some (w1, t1) ∧ t1.h_ = t.h_ ∧
        w1.hp = w.hp ∧
        (es ++ t1.backlog_).Sublist (t.backlog_ ++ EtwLogger.accepted env ops w t) ∧
        List.Forall₂ (fun e r => EtwLogger.recordsOf w.hp t.h_ e = some r ∧
          (e.err_ ≠ none → r ≠ [])) es recs ∧
        w1.emitted = w.emitted ++ recs.flatten := by
  intro ops
  induction ops with
  | nil =>
    intro w t _ _ _
    exact ⟨w, t, [], [], rfl, rfl, rfl, by simp [EtwLogger.accepted], List.Forall₂.nil,
      by simp⟩
  | cons op rest ih =>
    intro w t hops hopen hch
    obtain ⟨w1, t1, es1, recs1, hstep, hh1, hhp1, hsub1, hF1, hem1⟩ :=
      step_order env hok w t op (hops op (List.mem_cons_self _ _)) hopen (by
        intro e he
        apply hch
        rcases List.mem_append.mp he with h | h
        · exact List.mem_append_left _ h
        · exact List.mem_append_right _ (by
            simp only [EtwLogger.accepted]
            exact List.mem_append_left _ h))
    have hacc : EtwLogger.accepted env (op :: rest) w t =
        EtwLogger.acceptedBy t op ++ EtwLogger.accepted env rest w1 t1 := by
      simp only [EtwLogger.accepted, hstep]
    obtain ⟨w2, t2, es2, recs2, hrun, hh2, hhp2, hsub2, hF2, hem2⟩ :=
      ih w1 t1 (fun o ho => hops o (List.mem_cons_of_mem _ ho)) (by rw [hh1]; exact hopen) (by
        intro e he
        rw [hhp1]
        apply hch
        rcases List.mem_append.mp he with h | h
        · have h2 := hsub1.subset (List.mem_append_right es1 h)
          rcases List.mem_append.mp h2 with h3 | h3
          · exact List.mem_append_left _ h3
          · exact List.mem_append_right _ (by rw [hacc]; exact List.mem_append_left _ h3)
        · exact List.mem_append_right _ (by rw [hacc]; exact List.mem_append_right _ h))
    rw [hhp1, hh1] at hF2
    refine ⟨w2, t2, es1 ++ es2, recs1 ++ recs2, ?_, by rw [hh2, hh1], by rw [hhp2, hhp1], ?_,
      List.rel_append hF1 hF2, ?_⟩
    · simp only [EtwLogger.run, hstep]
      exact hrun
    · rw [hacc]
      have hA := List.Sublist.append (List.Sublist.refl es1) hsub2
      have hB := List.Sublist.append hsub1 (List.Sublist.refl (EtwLogger.accepted env rest w1 t1))
      simp only [List.append_assoc] at hA hB ⊢
      exact hA.trans hB
    · rw [hem2, hem1]
      simp [List.flatten_append]

/-- Claim C26 (the order of emission).  For every sequence of `log`, `poll` and signal
operations on an open sink, when every status of `EventWrite` is tolerated and the chains
of the entries are acyclic, the run returns and the records passed to `EventWrite` are
those of a list of entries which, followed by the backlog left, is a subsequence of the
backlog at the start followed by the accepted log calls in call order: each entry is
emitted at most once and in call order.  An accepted `log` on an enabled sink emits the
records of the whole backlog, in order, before the records of its own message. -/
theorem emission_order (env : Env) (ops : List LoggerOp) (w : World) (this : EtwLogger)
    (hok : ∀ i r, EtwLogger.isTolerated (env.eventWrite i r) = true)
    (hops : ∀ op ∈ ops, op ≠ .close) (hopen : this.h_ ≠ none)
    (hch : ∀ e ∈ this.backlog_ ++ EtwLogger.accepted env ops w this, Acyclic w.hp e.err_) :
    (∃ w1 t1 es recs, EtwLogger.run env ops w this = some (w1, t1) ∧ t1.h_ = this.h_ ∧
      w1.hp = w.hp ∧
      (es ++ t1.backlog_).Sublist (this.backlog_ ++ EtwLogger.accepted env ops w this) ∧
      List.Forall₂ (fun e r => EtwLogger.recordsOf w.hp this.h_ e = some r ∧
        (e.err_ ≠ none → r ≠ [])) es recs ∧
      w1.emitted = w.emitted ++ recs.flatten) ∧
    (∀ (a : Nat) (sev : Severity) (entity : Option LogEntity), this.enabled_ = true →
      this.minSeverity_.toNat ≤ sev.toNat → Acyclic w.hp (some a) →
      ∃ recs rm,
        List.Forall₂ (fun e r => EtwLogger.recordsOf w.hp this.h_ e = some r ∧
          (e.err_ ≠ none → r ≠ [])) this.backlog_ recs ∧
        EtwLogger.recordsOf w.hp this.h_ { err_ := some a, sev_ := sev, entity_ := entity } =
          some rm ∧ rm ≠ [] ∧
        EtwLogger.step env w this (.log (some a) sev entity) =
          some ({ w with emitted := w.emitted ++ recs.flatten ++ rm },
            { this with backlog_ := [] })) := by
  refine ⟨run_order env hok ops w this hops hopen hch, ?_⟩
  intro a sev entity hen hsev hac
  obtain ⟨recs, hF⟩ := backlog_records_exist w.hp this.h_ this.backlog_
    (fun e he => hch e (List.mem_append_left _ he))
  obtain ⟨la, hla⟩ := hac
  obtain ⟨rm, hrm, hrne⟩ := recordsOf_some w.hp this.h_
    { err_ := some a, sev_ := sev, entity_ := entity } la hla
  have hlog := logBody_enabled_ok env w this
    { err_ := some a, sev_ := sev, entity_ := entity } recs rm hopen hen hok hsev hF hrm
  simp only at hlog
  refine ⟨recs, rm, hF, hrm, hrne (by simp), ?_⟩
  simp only [EtwLogger.step, EtwLogger.log, Logger.log, hlog]

/-- Witness of C26: an Error call while disabled, a Debug call that the gate drops, the
enable signal, an Error call and a poll: the first and the third error are emitted, in
this order. -/
theorem emission_order_witness :
    (EtwLogger.run envOk
        [.log (some 0) .SV_ERROR none, .log (some 1) .SV_DEBUG none,
         .signal EVENT_CONTROL_CODE_ENABLE_PROVIDER 4, .log (some 2) .SV_ERROR none, .poll]
        worldFour (loggerNew .SV_INFO)).map
        (fun r => (r.1.emitted.map (fun rec => rec.text), r.2.backlog_)) =
      some (["E Widget:1:0x1: one\n".toList, "E Widget:3:0x3: three\n".toList], []) ∧
    EtwLogger.accepted envOk
        [.log (some 0) .SV_ERROR none, .log (some 1) .SV_DEBUG none,
         .signal EVENT_CONTROL_CODE_ENABLE_PROVIDER 4, .log (some 2) .SV_ERROR none, .poll]
        worldFour (loggerNew .SV_INFO) =
      [{ err_ := some 0, sev_ := .SV_ERROR, entity_ := none },
       { err_ := some 2, sev_ := .SV_ERROR, entity_ := none }] ∧
    ∃ w1 t1 es recs,
      EtwLogger.run envOk
        [.log (some 0) .SV_ERROR none, .log (some 1) .SV_DEBUG none,
         .signal EVENT_CONTROL_CODE_ENABLE_PROVIDER 4, .log (some 2) .SV_ERROR none, .poll]
        worldFour (loggerNew .SV_INFO) = some (w1, t1) ∧
      t1.h_ = (loggerNew .SV_INFO).h_ ∧ w1.hp = worldFour.hp ∧
      (es ++ t1.backlog_).Sublist ((loggerNew .SV_INFO).backlog_ ++ EtwLogger.accepted envOk
        [.log (some 0) .SV_ERROR none, .log (some 1) .SV_DEBUG none,
         .signal EVENT_CONTROL_CODE_ENABLE_PROVIDER 4, .log (some 2) .SV_ERROR none, .poll]
        worldFour (loggerNew .SV_INFO)) ∧
      List.Forall₂ (fun e r => EtwLogger.recordsOf worldFour.hp (loggerNew .SV_INFO).h_ e =
        some r ∧ (e.err_ ≠ none → r ≠ [])) es recs ∧
      w1.emitted = worldFour.emitted ++ recs.flatten :=
  ⟨by decide, by decide,
    (emission_order envOk
      [.log (some 0) .SV_ERROR none, .log (some 1) .SV_DEBUG none,
       .signal EVENT_CONTROL_CODE_ENABLE_PROVIDER 4, .log (some 2) .SV_ERROR none, .poll]
      worldFour (loggerNew .SV_INFO) (fun _ _ => rfl) (by decide) (by decide)
      (by
        intro e he
        have hacc : (loggerNew .SV_INFO).backlog_ ++ EtwLogger.accepted envOk
            [.log (some 0) .SV_ERROR none, .log (some 1) .SV_DEBUG none,
             .signal EVENT_CONTROL_CODE_ENABLE_PROVIDER 4, .log (some 2) .SV_ERROR none, .poll]
            worldFour (loggerNew .SV_INFO) =
            [{ err_ := some 0, sev_ := .SV_ERROR, entity_ := none },
             { err_ := some 2, sev_ := .SV_ERROR, entity_ := none }] := by decide
        rw [hacc] at he
        simp only [List.mem_cons, List.mem_singleton, List.not_mem_nil, or_false] at he
        rcases he with rfl | rfl
        · exact ⟨[0], by decide⟩
        · exact ⟨[2], by decide⟩)).1⟩

/-- C30: `EventWrite` on a closed sink.  An error is logged while the sink is disabled,
the sink is enabled, and a second error is logged while every call of `EventWrite` returns
the status 5: the drain passes the first error to `EventWrite`, the failure closes the
sink, and the message of the call is still passed to `EventWrite`, with the handle `NULL`;
both failures are recorded in `err_`, whose chain is then the four nodes `4 → 5 → 6 → 7`: the
report with the code 103 and the system error 5, twice. -/
theorem emit_on_closed_sink :
    (EtwLogger.run envWriteFails
        [.log (some 0) .SV_ERROR none, .signal EVENT_CONTROL_CODE_ENABLE_PROVIDER 4,
         .log (some 1) .SV_ERROR none] worldFour (loggerNew .SV_INFO)).map
        (fun r => r.1.emitted.map (fun rec => (rec.handle, rec.text))) =
      some [(some 7, "E Widget:1:0x1: one\n".toList),
            (none, "E Widget:2:0x2: two\n".toList)] ∧
    (EtwLogger.run envWriteFails
        [.log (some 0) .SV_ERROR none, .signal EVENT_CONTROL_CODE_ENABLE_PROVIDER 4,
         .log (some 1) .SV_ERROR none] worldFour (loggerNew .SV_INFO)).map
        (fun r => (r.2.h_, r.2.err_, (r.1.hp.drop 4).map (fun m => (m.code_, m.chain_)))) =
      some (none, some 4, [(103, some 5), (5, some 6), (103, some 7), (5, none)]) := by
  constructor <;> decide

/-! ## The copy and later calls -/

/-- A call that stays apart from a chain changes no node of it. -/
theorem perform_frame (hp hp2 : Heap) (lc : List Nat) (op : ChainOp)
    (hap : op.Apart hp lc) (hrun : op.perform hp = some hp2) :
    ∀ a ∈ lc, hp2[a]? = hp[a]? := by
  intro a ha
  cases op with
  | append s other =>
    obtain ⟨ls, hls, hdisj⟩ := hap
    simp only [ChainOp.perform, Option.map_eq_some', Prod.exists, exists_and_right,
      exists_eq_right] at hrun
    obtain ⟨r, hr⟩ := hrun
    obtain ⟨t, ht⟩ := isChain_some_head hp s ls hls
    have hs : s ∈ ls := by rw [ht]; exact List.mem_cons_self _ _
    exact append_frame hp hp2 (some s) ls s other r hls hs hr a (fun hmem => hdisj a hmem ha)
  | splice s other =>
    obtain ⟨hs, lo, hlo, hdisj⟩ := hap
    simp only [ChainOp.perform, Option.map_eq_some', Prod.exists, exists_and_right,
      exists_eq_right] at hrun
    obtain ⟨r, hr⟩ := hrun
    exact splice_frame hp hp2 s other r lo lc hlo hs hdisj hr a ha

/-- A sequence of calls that stay apart from a chain leaves the chain and its rendering
as they are. -/
theorem performAll_frame (lc : List Nat) (ca : Nat) :
    ∀ (ops : List ChainOp) (hp hpN : Heap), isChain hp (some ca) lc = true →
      ApartAlong lc hp ops → performAll hp ops = some hpN →
      toString hpN ca = toString hp ca ∧ isChain hpN (some ca) lc = true := by
  intro ops
  induction ops with
  | nil =>
    intro hp hpN hc _ hrun
    simp only [performAll, Option.some.injEq] at hrun
    subst hrun
    exact ⟨rfl, hc⟩
  | cons op rest ih =>
    intro hp hpN hc hap hrun
    obtain ⟨hap1, haprest⟩ := hap
    cases hstep : op.perform hp with
    | none => simp [performAll, hstep] at hrun
    | some hp2 =>
      simp only [performAll, hstep] at hrun
      have hfr := perform_frame hp hp2 lc op hap1 hstep
      have hc2 : isChain hp2 (some ca) lc = true := isChain_congr hp hp2 lc _ hfr hc
      obtain ⟨h1, h2⟩ := ih hp2 hpN hc2 (haprest hp2 hstep) hrun
      exact ⟨h1.trans (toString_congr hp hp2 ca lc hc hfr), h2⟩

/-- After an `append` or a `splice` whose argument has an acyclic chain without a node of
the chain of the handle and without a node of `lc`, the chain of the handle is still
acyclic and without a node of `lc`. -/
theorem perform_keeps_apart (hp hp2 : Heap) (lc ls lo : List Nat) (s : Nat) (other : Erref)
    (hls : isChain hp (some s) ls = true) (hlo : isChain hp other lo = true)
    (h1 : ∀ x ∈ ls, x ∉ lc) (h2 : ∀ x ∈ lo, x ∉ lc) (h3 : ∀ x ∈ lo, x ∉ ls) :
    (∃ hq, (ChainOp.append s other).perform hp = some hq) ∧
    (∃ hq, (ChainOp.splice s other).perform hp = some hq) ∧
    ((ChainOp.append s other).perform hp = some hp2 ∨
        (ChainOp.splice s other).perform hp = some hp2 →
      ∃ ls2, isChain hp2 (some s) ls2 = true ∧ ∀ x ∈ ls2, x ∉ lc) := by
  obtain ⟨t, rfl⟩ := isChain_some_head hp s ls hls
  cases other with
  | none =>
    refine ⟨⟨hp, rfl⟩, ⟨hp, rfl⟩, ?_⟩
    intro h
    have : hp2 = hp := by
      rcases h with h | h <;>
        simp only [ChainOp.perform, ErrorHelpers.append, ErrorHelpers.splice, Option.map_some',
          Option.some.injEq] at h <;> exact h.symm
    subst this
    exact ⟨_, hls, h1⟩
  | some o =>
    obtain ⟨ha, happ, hcha, _, _⟩ := append_chain hp s o (s :: t) lo hls hlo h3
    obtain ⟨hb, hspl, hchb, _, _⟩ := splice_chain hp s o t lo hls hlo h3
    refine ⟨⟨ha, by simp [ChainOp.perform, happ]⟩, ⟨hb, by simp [ChainOp.perform, hspl]⟩, ?_⟩
    intro h
    rcases h with h | h
    · simp only [ChainOp.perform, happ, Option.map_some', Option.some.injEq] at h
      subst h
      refine ⟨_, hcha, ?_⟩
      intro x hx
      rcases List.mem_append.mp hx with hx | hx
      · exact h1 x hx
      · exact h2 x hx
    · simp only [ChainOp.perform, hspl, Option.map_some', Option.some.injEq] at h
      subst h
      refine ⟨_, hchb, ?_⟩
      intro x hx
      rcases List.mem_cons.mp hx with rfl | hx
      · exact h1 x (List.mem_cons_self _ _)
      · rcases List.mem_append.mp hx with hx | hx
        · exact h2 x hx
        · exact h1 x (List.mem_cons_of_mem _ hx)

theorem apartAlong_cons (lc : List Nat) (hp hp2 : Heap) (op : ChainOp) (ops : List ChainOp)
    (h1 : op.Apart hp lc) (h2 : op.perform hp = some hp2) (h3 : ApartAlong lc hp2 ops) :
    ApartAlong lc hp (op :: ops) := by
  refine ⟨h1, ?_⟩
  intro q hq
  rw [h2] at hq
  cases hq
  exact h3

/-- C4, as the code has it: `Erref::copy`.  For every handle `h` with an acyclic chain the
call returns a handle `c` that is empty iff `h` is empty; the old nodes are kept, the
nodes of `c` are distinct from the nodes of `h` and carry the same source, code and
message at every position, so `c.toString()` equals `h.toString()`.  `c.toString()` is
unchanged by every later sequence of `append` and `splice` calls in which each `append` is
applied to a handle whose chain at that moment has no node of the chain of `c`, and each
`splice` is applied to a node outside the chain of `c` with an argument whose chain is
acyclic and has no node of the chain of `c`.  Right after the copy this holds for every
`append` applied to `h` or to a node of its chain, and for every such `splice` whose
argument is apart from the chain of `c`; one such call leaves `c.toString()` unchanged. -/
theorem copy_spec (hp : Heap) (h : Erref) (l : List Nat) (hch : isChain hp h l = true) :
    ∃ (hp1 : Heap) (c : Erref) (lc : List Nat),
      copy hp h = some (hp1, c) ∧
      (c = none ↔ h = none) ∧
      isChain hp1 h l = true ∧ isChain hp1 c lc = true ∧
      (∀ a : Nat, a < hp.length → hp1[a]? = hp[a]?) ∧
      (nodesOf hp1 lc).map payload = (nodesOf hp l).map payload ∧
      (∀ x ∈ lc, x ∉ l) ∧
      (∀ a ca : Nat, h = some a → c = some ca →
        (∃ text, toString hp1 ca = some text ∧ toString hp1 a = some text ∧
          toString hp a = some text) ∧
        (∀ (s : Nat) (other : Erref) (hp2 : Heap) (r : Erref), s ∈ l →
          append hp1 (some s) other = some (hp2, r) → toString hp2 ca = toString hp1 ca) ∧
        (∀ (s : Nat) (other : Erref) (lo : List Nat) (hp2 : Heap) (r : Erref), s ∈ l →
          isChain hp1 other lo = true → (∀ x ∈ lo, x ∉ lc) →
          splice hp1 (some s) other = some (hp2, r) → toString hp2 ca = toString hp1 ca) ∧
        (∀ (s : Nat) (other : Erref), s ∈ l → (ChainOp.append s other).Apart hp1 lc) ∧
        (∀ (s : Nat) (other : Erref) (lo : List Nat), s ∈ l →
          isChain hp1 other lo = true → (∀ x ∈ lo, x ∉ lc) →
          (ChainOp.splice s other).Apart hp1 lc) ∧
        (∀ (ops : List ChainOp) (hpN : Heap), ApartAlong lc hp1 ops →
          performAll hp1 ops = some hpN →
          toString hpN ca = toString hp1 ca ∧ isChain hpN (some ca) lc = true)) := by
  obtain ⟨new, lc, c, hcopy, hchain, hfresh, hpay, hnone⟩ :=
    mkCopy_chain hp l h hp.length hch (isChain_length_le hp l h hch)
  have hlt := isChain_lt hp l h hch
  have hold : ∀ a : Nat, a < hp.length → (hp ++ new)[a]? = hp[a]? :=
    fun a ha => getElem?_append_old hp new a ha
  have hch1 : isChain (hp ++ new) h l = true :=
    isChain_congr hp _ l h (fun a ha => hold a (hlt a ha)) hch
  have hdisj : ∀ x ∈ lc, x ∉ l := by
    intro x hx hxl
    have h1 := hfresh x hx
    have h2 := hlt x hxl
    omega
  refine ⟨hp ++ new, c, lc, hcopy, hnone, hch1, hchain, hold, hpay, hdisj, ?_⟩
  intro a ca ha hca
  subst ha
  subst hca
  refine ⟨⟨renderChain true (nodesOf hp l), ?_, ?_, toString_chain hp a l hch⟩, ?_, ?_, ?_, ?_,
    ?_⟩
  · rw [toString_chain _ ca lc hchain, renderChain_payload _ _ true hpay]
  · rw [toString_congr hp _ a l hch (fun x hx => hold x (hlt x hx)), toString_chain hp a l hch]
  · intro s other hp2 r hs happ
    have hfr := append_frame _ hp2 _ l s other r hch1 hs happ
    exact toString_congr _ hp2 ca lc hchain (fun x hx => hfr x (hdisj x hx))
  · intro s other lo hp2 r hs ho hlo hspl
    have hfr := splice_frame _ hp2 s other r lo lc ho (fun hmem => hdisj s hmem hs) hlo hspl
    exact toString_congr _ hp2 ca lc hchain hfr
  · intro s other hs
    obtain ⟨l2, hl2, hsub⟩ := isChain_of_mem (hp ++ new) (some a) l s hch1 hs
    exact ⟨s :: l2, hl2, fun x hx hxc => hdisj x hxc (hsub x hx)⟩
  · intro s other lo hs ho hlo
    exact ⟨fun hmem => hdisj s hmem hs, lo, ho, hlo⟩
  · intro ops hpN hap hrun
    exact performAll_frame lc ca ops (hp ++ new) hpN hchain hap hrun

/-- Witness of C4 (amended): the copy of the first error of `hpFourErrors` renders as the
original, also after the second error is appended to the original, the third is spliced
into it and the fourth is appended to its chain. -/
theorem copy_spec_witness :
    isChain hpFourErrors (some 0) [0] = true ∧
    ∃ (hp1 hpN : Heap),
      copy hpFourErrors (some 0) = some (hp1, some 4) ∧
      toString hp1 4 = toString hpFourErrors 0 ∧
      performAll hp1 [.append 0 (some 1), .splice 0 (some 2), .append 1 (some 3)] = some hpN ∧
      toString hpN 0 = some ("Widget:1:0x1: one\n  Widget:3:0x3: three\n" ++
        "  Widget:2:0x2: two\n  Widget:4:0x4: four\n").toList ∧
      toString hpN 4 = toString hp1 4 ∧
      toString hpN 4 = some "Widget:1:0x1: one\n".toList := by
  refine ⟨by decide, ?_⟩
  obtain ⟨hp1, c, lc, hcopy, _, _, hc, _, _, _, hrest⟩ :=
    copy_spec hpFourErrors (some 0) [0] (by decide)
  have hval : copy hpFourErrors (some 0) = some (hpFourCopied, some 4) := by decide
  rw [hval] at hcopy
  simp only [Option.some.injEq, Prod.mk.injEq] at hcopy
  obtain ⟨hhp, hc4⟩ := hcopy
  subst hhp
  subst hc4
  have hlc : lc = [4] := isChain_unique _ _ _ _ hc (by decide)
  subst hlc
  obtain ⟨⟨text, h1, _, h3⟩, _, _, _, _, hseq⟩ := hrest 0 4 rfl rfl
  have hrun : ∃ hpN, performAll hpFourCopied
      [.append 0 (some 1), .splice 0 (some 2), .append 1 (some 3)] = some hpN ∧
      toString hpN 0 = some ("Widget:1:0x1: one\n  Widget:3:0x3: three\n" ++
        "  Widget:2:0x2: two\n  Widget:4:0x4: four\n").toList ∧
      toString hpN 4 = some "Widget:1:0x1: one\n".toList := by
    refine ⟨_, rfl, by decide, by decide⟩
  obtain ⟨hpN, hN, htext, htext4⟩ := hrun
  have hap : ApartAlong [4] hpFourCopied
      [.append 0 (some 1), .splice 0 (some 2), .append 1 (some 3)] := by
    refine apartAlong_cons _ _ _ _ _ ⟨[0], by decide, by decide⟩ rfl ?_
    refine apartAlong_cons _ _ _ _ _ ⟨by decide, [2], by decide, by decide⟩ rfl ?_
    exact apartAlong_cons _ _ _ _ _ ⟨[1], by decide, by decide⟩ rfl trivial
  exact ⟨_, hpN, hval, h1.trans h3.symm, hN, htext, (hseq _ hpN hap hN).1, htext4⟩

/-- Counterexample to C4 as stated: after the copy `c` of the chain `h = 0 → 1` is spliced
into `h`, the last node of `c` is chained to node `1` and `c.toString()` has a third line;
and after `c` is appended to `h`, appending the chain `2 → 3` to `h` links it to the last
node of `c`, so `c.toString()` gains two lines. -/
theorem copy_frame_counterexample :
    copy hpTwoChains (some 0) = some (hpCopied, some 5) ∧
    splice hpCopied (some 0) (some 5) = some (hpCopySpliced, some 0) ∧
    toString hpCopied 5 = some "NT:1:0x1: a\n  NT:2:0x2: b\n".toList ∧
    toString hpCopySpliced 5 = some "NT:1:0x1: a\n  NT:2:0x2: b\n  NT:2:0x2: b\n".toList ∧
    toString hpCopySpliced 5 ≠ toString hpCopied 5 ∧
    (performAll hpCopied [.append 0 (some 5)]).bind (fun q => toString q 5) =
      some "NT:1:0x1: a\n  NT:2:0x2: b\n".toList ∧
    (performAll hpCopied [.append 0 (some 5), .append 0 (some 2)]).bind
        (fun q => toString q 5) =
      some "NT:1:0x1: a\n  NT:2:0x2: b\n  Widget:3:0x3: c\n  NT:4:0x4: d\n".toList :=
  ⟨by decide, by decide, by decide, by decide, by decide, by decide, by decide⟩

/-! ## The disable signal -/

/-- On a disabled logger whose minimum severity is Never, polls and `log` calls with a
severity other than Never change nothing. -/
theorem run_never (env : Env) :
    ∀ (ops : List LoggerOp) (w : World) (t : EtwLogger), t.enabled_ = false →
      t.minSeverity_ = .SV_NEVER →
      (∀ op ∈ ops, op = .poll ∨ ∃ err sev entity, op = .log err sev entity ∧ sev ≠ .SV_NEVER) →
      EtwLogger.run env ops w t = some (w, t) := by
  intro ops
  induction ops with
  | nil => intro w t _ _ _; rfl
  | cons op rest ih =>
    intro w t hen hmin hops
    have hstep : EtwLogger.step env w t op = some (w, t) := by
      rcases hops op (List.mem_cons_self _ _) with rfl | ⟨err, sev, entity, rfl, hsev⟩
      · simp [EtwLogger.step, EtwLogger.poll, hen]
      · have hg : err = none ∨ sev.toNat < t.minSeverity_.toNat ∨ t.h_ = none := by
          right; left
          rw [hmin]
          cases sev <;> simp [Severity.toNat] at hsev ⊢
        simp only [EtwLogger.step, log_gate env w t err sev entity hg]
    simp only [EtwLogger.run, hstep]
    exact ih w t hen hmin (fun o ho => hops o (List.mem_cons_of_mem _ ho))

/-- C15, as the code has it: after the callback with the disable code the sink is disabled
and its minimum severity is Never (handle and backlog are kept).  In that state a `log`
call with a severity other than Never is dropped, whatever its error: nothing is emitted
and the backlog is unchanged, and the same holds after any sequence of such calls and of
polls; a `log` call with the severity Never and a non-empty error, on an open sink, is
appended to the backlog. -/
theorem disable_signal (level : Nat) (logger : EtwLogger) :
    (EtwLogger.callback EVENT_CONTROL_CODE_DISABLE_PROVIDER level logger).enabled_ = false ∧
    (EtwLogger.callback EVENT_CONTROL_CODE_DISABLE_PROVIDER level logger).minSeverity_
      = .SV_NEVER ∧
    (EtwLogger.callback EVENT_CONTROL_CODE_DISABLE_PROVIDER level logger).backlog_
      = logger.backlog_ ∧
    (EtwLogger.callback EVENT_CONTROL_CODE_DISABLE_PROVIDER level logger).h_ = logger.h_ ∧
    (∀ (env : Env) (w : World) (err : Erref) (sev : Severity) (entity : Option LogEntity),
      sev ≠ .SV_NEVER →
      EtwLogger.log env w
          (some (EtwLogger.callback EVENT_CONTROL_CODE_DISABLE_PROVIDER level logger))
          err sev entity =
        some (w, some (EtwLogger.callback EVENT_CONTROL_CODE_DISABLE_PROVIDER level logger))) ∧
    (∀ (env : Env) (w : World) (ops : List LoggerOp),
      (∀ op ∈ ops, op = .poll ∨
        ∃ err sev entity, op = .log err sev entity ∧ sev ≠ .SV_NEVER) →
      EtwLogger.run env ops w
          (EtwLogger.callback EVENT_CONTROL_CODE_DISABLE_PROVIDER level logger) =
        some (w, EtwLogger.callback EVENT_CONTROL_CODE_DISABLE_PROVIDER level logger)) ∧
    (∀ (env : Env) (w : World) (e : Nat) (entity : Option LogEntity), logger.h_ ≠ none →
      EtwLogger.log env w
          (some (EtwLogger.callback EVENT_CONTROL_CODE_DISABLE_PROVIDER level logger))
          (some e) .SV_NEVER entity =
        some (w, some
          { EtwLogger.callback EVENT_CONTROL_CODE_DISABLE_PROVIDER level logger with
            backlog_ := EtwLogger.popExcess (logger.backlog_.length + 1)
              (logger.backlog_ ++ [{ err_ := some e, sev_ := .SV_NEVER, entity_ := entity }]) }))
    := by
  have hcb : EtwLogger.callback EVENT_CONTROL_CODE_DISABLE_PROVIDER level logger =
      { logger with enabled_ := false, minSeverity_ := .SV_NEVER } := by
    simp [EtwLogger.callback]
  rw [hcb]
  refine ⟨rfl, rfl, rfl, rfl, ?_, ?_, ?_⟩
  · intro env w err sev entity hsev
    apply log_gate
    right; left
    cases sev <;> simp [Severity.toNat] at hsev ⊢
  · intro env w ops hops
    exact run_never env ops w _ rfl rfl hops
  · intro env w e entity hopen
    simp [EtwLogger.log, Logger.log, EtwLogger.logBody, Severity.toNat, hopen]

/-- Witness of C15 (amended): an Error-level call after enable and disable is dropped. -/
theorem disable_signal_witness :
    Severity.SV_ERROR ≠ Severity.SV_NEVER ∧
    EtwLogger.log envOk worldFour
        (some (EtwLogger.callback EVENT_CONTROL_CODE_DISABLE_PROVIDER 0
          (EtwLogger.callback EVENT_CONTROL_CODE_ENABLE_PROVIDER 4 (loggerNew .SV_INFO))))
        (some 0) .SV_ERROR none =
      some (worldFour, some (EtwLogger.callback EVENT_CONTROL_CODE_DISABLE_PROVIDER 0
          (EtwLogger.callback EVENT_CONTROL_CODE_ENABLE_PROVIDER 4 (loggerNew .SV_INFO)))) ∧
    EtwLogger.run envOk [.log (some 0) .SV_ERROR none, .poll, .log (some 1) .SV_DEBUG none]
        worldFour
        (EtwLogger.callback EVENT_CONTROL_CODE_DISABLE_PROVIDER 0
          (EtwLogger.callback EVENT_CONTROL_CODE_ENABLE_PROVIDER 4 (loggerNew .SV_INFO))) =
      some (worldFour, EtwLogger.callback EVENT_CONTROL_CODE_DISABLE_PROVIDER 0
          (EtwLogger.callback EVENT_CONTROL_CODE_ENABLE_PROVIDER 4 (loggerNew .SV_INFO))) :=
  ⟨by decide,
    (disable_signal 0 _).2.2.2.2.1 envOk worldFour (some 0) .SV_ERROR none (by decide),
    (disable_signal 0 _).2.2.2.2.2.1 envOk worldFour _ (by
      intro op hop
      simp only [List.mem_cons, List.mem_singleton, List.not_mem_nil, or_false] at hop
      rcases hop with rfl | rfl | rfl
      · exact Or.inr ⟨_, _, _, rfl, by decide⟩
      · exact Or.inl rfl
      · exact Or.inr ⟨_, _, _, rfl, by decide⟩)⟩

/-- Counterexample to C15 as stated: on a logger configured with Info, an Error-level `log`
call with a non-empty error is appended to the backlog in the initial state, and is not
appended after the logger was enabled and then disabled. -/
theorem disable_signal_counterexample :
    (EtwLogger.run envOk [.log (some 0) .SV_ERROR none] worldFour (loggerNew .SV_INFO)).map
        (fun r => r.2.backlog_) =
      some [{ err_ := some 0, sev_ := .SV_ERROR, entity_ := none }] ∧
    (EtwLogger.run envOk
        [.signal EVENT_CONTROL_CODE_ENABLE_PROVIDER 4,
         .signal EVENT_CONTROL_CODE_DISABLE_PROVIDER 0,
         .log (some 0) .SV_ERROR none] worldFour (loggerNew .SV_INFO)).map
        (fun r => (r.2.h_, r.2.enabled_, r.2.backlog_, r.1.emitted)) =
      some (some 7, false, [], []) := by
  decide

/-! ## The drain with a fatal status -/

/-- The loop of `logBodyInternalL` on an open sink: either every record of the error is
passed to `EventWrite` and nothing else changes, or the records are passed up to one whose
status is not tolerated and the sink is left closed, disabled, with a recorded error. -/
theorem logBodyInternalLoop_cases (env : Env) (err : Erref) (sev : Severity) :
    ∀ (n : Nat) (l : List Nat) (cur next : Erref) (fuel : Nat) (w : World) (this : EtwLogger),
      l.length ≤ n → isChain w.hp cur l = true → l.length + 1 ≤ fuel →
      (∃ code, getCode w.hp err = some code) → Acyclic w.hp this.err_ → this.h_ ≠ none →
      ∃ w1 t1 recs sent,
        EtwLogger.logBodyInternalLoop env err sev fuel w this cur next = some (w1, t1) ∧
        EtwLogger.entryRecords w.hp this.h_ err sev fuel cur next = some recs ∧
        w1.emitted = w.emitted ++ sent ∧ t1.backlog_ = this.backlog_ ∧
        ((sent = recs ∧ t1 = this ∧ w1.hp = w.hp) ∨
          (sent <+: recs ∧
            (∃ pre r, sent = pre ++ [r] ∧
              EtwLogger.isTolerated (env.eventWrite (w.emitted.length + pre.length) r) = false) ∧
            t1.h_ = none ∧ t1.enabled_ = false ∧ t1.err_ ≠ none)) := by
  intro n
  induction n with
  | zero =>
    intro l cur next fuel w this hn hl hf _ _ _
    have hl0 : l = [] := List.length_eq_zero.mp (by omega)
    subst hl0
    rw [isChain_nil_iff] at hl
    subst hl
    obtain ⟨f, rfl⟩ : ∃ f, fuel = f + 1 := ⟨fuel - 1, by omega⟩
    exact ⟨w, this, [], [], rfl, rfl, by simp, rfl, Or.inl ⟨rfl, rfl, rfl⟩⟩
  | succ n ih =>
    intro l cur next fuel w this hn hl hf hcode herr hopen
    obtain ⟨f, rfl⟩ : ∃ f, fuel = f + 1 := ⟨fuel - 1, by omega⟩
    cases cur with
    | none => exact ⟨w, this, [], [], rfl, rfl, by simp, rfl, Or.inl ⟨rfl, rfl, rfl⟩⟩
    | some c =>
      obtain ⟨record, k, hk1, hk2, hb⟩ :=
        buildRecord_some w.hp this.h_ err sev c next l hl hcode
      by_cases htol : EtwLogger.isTolerated (env.eventWrite w.emitted.length record) = true
      · obtain ⟨w2, t2, recs, sent, hloop, hrecs, hem, hbl, hcase⟩ :=
          ih (l.drop k) l[k]? l[k]? f { w with emitted := w.emitted ++ [record] } this
            (by simp only [List.length_drop]; omega) (isChain_drop w.hp l _ k hl)
            (by simp only [List.length_drop]; omega) hcode herr hopen
        refine ⟨w2, t2, record :: recs, record :: sent, ?_, ?_, ?_, hbl, ?_⟩
        · simp only [EtwLogger.logBodyInternalLoop, hb, htol, if_true]
          exact hloop
        · simp only [EtwLogger.entryRecords, hb]
          simp only at hrecs
          rw [hrecs]
        · rw [hem]
          simp
        · rcases hcase with ⟨h1, h2, h3⟩ | ⟨h1, ⟨pre, r, h2, h3⟩, h4, h5, h6⟩
          · exact Or.inl ⟨by rw [h1], h2, h3⟩
          · refine Or.inr ⟨(List.prefix_cons_inj record).mpr h1, ⟨record :: pre, r, ?_, ?_⟩,
              h4, h5, h6⟩
            · rw [h2]; rfl
            · simp only [List.length_append, List.length_singleton] at h3
              simp only [List.length_cons]
              rw [show w.emitted.length + (pre.length + 1) =
                w.emitted.length + 1 + pre.length by omega]
              exact h3
      · obtain ⟨rest, hrest, _⟩ := entryRecords_some w.hp this.h_ err sev hcode n (l.drop k)
          l[k]? l[k]? f (by simp only [List.length_drop]; omega)
          (isChain_drop w.hp l _ k hl) (by simp only [List.length_drop]; omega)
        obtain ⟨w2, t2, hwf, h1, h2, h3, _, _, h6, h7⟩ :=
          writeFailed_total env { w with emitted := w.emitted ++ [record] } this
            (env.eventWrite w.emitted.length record) herr
        refine ⟨w2, t2, record :: rest, [record], ?_, ?_, by rw [h6], h7, Or.inr ⟨?_, ?_, h1,
          h2 (Or.inl hopen), h3⟩⟩
        · simp only [EtwLogger.logBodyInternalLoop, hb, htol, if_false]
          exact hwf
        · simp only [EtwLogger.entryRecords, hb, hrest]
        · exact (List.prefix_cons_inj record).mpr List.nil_prefix
        · refine ⟨[], record, rfl, ?_⟩
          simp only [List.length_nil, Nat.add_zero]
          simpa using htol

/-- The drain on a closed sink removes every entry and passes nothing to `EventWrite`. -/
theorem processBacklogL_closed (env : Env) :
    ∀ (b : List BacklogEntry) (fuel : Nat) (w : World) (this : EtwLogger),
      this.backlog_ = b → b.length + 1 ≤ fuel → this.h_ = none →
      EtwLogger.processBacklogL env fuel w this = some (w, { this with backlog_ := [] }) := by
  intro b
  induction b with
  | nil =>
    intro fuel w this hb hf _
    obtain ⟨f, rfl⟩ : ∃ f, fuel = f + 1 := ⟨fuel - 1, by simp at hf; omega⟩
    simp only [EtwLogger.processBacklogL, hb]
    rw [← hb]
  | cons e rest ih =>
    intro fuel w this hb hf hclosed
    obtain ⟨f, rfl⟩ : ∃ f, fuel = f + 1 := ⟨fuel - 1, by simp at hf; omega⟩
    have h2 := ih f w { this with backlog_ := rest } rfl (by simp at hf ⊢; omega) hclosed
    have hn : ¬ (this.h_ ≠ none) := by simp [hclosed]
    simp only [EtwLogger.processBacklogL, hb, hn, if_false, List.tail_cons]
    simpa using h2

/-- The drain on an open sink, whatever the statuses: the records of the first `k` entries
are passed to `EventWrite` in order; either these are all the entries and nothing else
changes but the backlog, or the records of the next entry are passed up to one whose
status is not tolerated, the sink is left closed, disabled, with a recorded error, and
the entries after it are removed without a call of `EventWrite`. -/
theorem processBacklogL_cases (env : Env) :
    ∀ (b : List BacklogEntry) (fuel : Nat) (w : World) (this : EtwLogger),
      this.backlog_ = b → b.length + 1 ≤ fuel → this.h_ ≠ none →
      (∀ e ∈ b, Acyclic w.hp e.err_) → Acyclic w.hp this.err_ →
      ∃ w1 t1 k recs sent,
        EtwLogger.processBacklogL env fuel w this = some (w1, t1) ∧ t1.backlog_ = [] ∧
        k ≤ b.length ∧
        List.Forall₂ (fun e r => EtwLogger.recordsOf w.hp this.h_ e = some r ∧
          (e.err_ ≠ none → r ≠ [])) (b.take k) recs ∧
        w1.emitted = w.emitted ++ recs.flatten ++ sent ∧
        ((k = b.length ∧ sent = [] ∧ t1 = { this with backlog_ := [] } ∧ w1.hp = w.hp) ∨
          (∃ e rs pre r, b[k]? = some e ∧ EtwLogger.recordsOf w.hp this.h_ e = some rs ∧
            sent <+: rs ∧ sent = pre ++ [r] ∧
            EtwLogger.isTolerated
              (env.eventWrite (w.emitted.length + recs.flatten.length + pre.length) r) = false ∧
            t1.h_ = none ∧ t1.enabled_ = false ∧ t1.err_ ≠ none)) := by
  intro b
  induction b with
  | nil =>
    intro fuel w this hb hf _ _ _
    obtain ⟨f, rfl⟩ : ∃ f, fuel = f + 1 := ⟨fuel - 1, by simp at hf; omega⟩
    refine ⟨w, this, 0, [], [], by simp [EtwLogger.processBacklogL, hb], hb, le_refl _,
      List.Forall₂.nil, by simp, Or.inl ⟨rfl, rfl, ?_, rfl⟩⟩
    rw [← hb]
  | cons e rest ih =>
    intro fuel w this hb hf hopen hall herr
    obtain ⟨f, rfl⟩ : ∃ f, fuel = f + 1 := ⟨fuel - 1, by simp at hf; omega⟩
    obtain ⟨le, hle⟩ := hall e (List.mem_cons_self _ _)
    obtain ⟨rs0, hrs0, hne0⟩ := recordsOf_some w.hp this.h_ e le hle
    obtain ⟨w1, t1, rs, sent, hloop, hrs, hem, hbl, hcase⟩ :=
      logBodyInternalLoop_cases env e.err_ e.sev_ le.length le e.err_ none (w.hp.length + 1) w
        this (le_refl _) hle (by have := isChain_length_le w.hp le _ hle; omega)
        (getCode_some_of_chain w.hp e.err_ le hle) herr hopen
    have hrs' : EtwLogger.recordsOf w.hp this.h_ e = some rs := hrs
    have hrs2 : rs = rs0 := by
      rw [hrs0] at hrs'
      exact (Option.some.inj hrs').symm
    subst hrs2
    have hlog : EtwLogger.logBodyInternalL env w this e.err_ e.sev_ e.entity_ = some (w1, t1) :=
      hloop
    rcases hcase with ⟨h1, h2, h3⟩ | ⟨h1, ⟨pre, r, h2, h3⟩, h4, h5, h6⟩
    · subst h1
      subst h2
      obtain ⟨w2, t2, k, recs, sent2, hproc, hb2, hk, hF, hem2, hcase2⟩ :=
        ih f w1 { t1 with backlog_ := rest } rfl (by simp at hf ⊢; omega) hopen
          (fun x hx => by rw [h3]; exact hall x (List.mem_cons_of_mem _ hx))
          (by rw [h3]; exact herr)
      rw [h3] at hF
      refine ⟨w2, t2, k + 1, sent :: recs, sent2, ?_, hb2, by simp; omega, ?_, ?_, ?_⟩
      · simp only [EtwLogger.processBacklogL, hb, hopen, ne_eq, not_false_eq_true, if_true,
          hlog, List.tail_cons]
        exact hproc
      · simp only [List.take_succ_cons]
        exact List.Forall₂.cons ⟨hrs0, hne0⟩ hF
      · rw [hem2, hem]
        simp [List.append_assoc]
      · rcases hcase2 with ⟨c1, c2, c3, c4⟩ | ⟨e2, rs2, pre, r, c1, c2, c3, c4, c5, c6, c7, c8⟩
        · exact Or.inl ⟨by simp [c1], c2, c3, by rw [c4, h3]⟩
        · refine Or.inr ⟨e2, rs2, pre, r, by simpa using c1, by rw [← h3]; exact c2, c3, c4,
            ?_, c6, c7, c8⟩
          rw [hem] at c5
          simp only [List.length_append, List.flatten_cons] at c5 ⊢
          rw [show w.emitted.length + (sent.length + recs.flatten.length) + pre.length =
            w.emitted.length + sent.length + recs.flatten.length + pre.length by omega]
          exact c5
    · have hclosed := processBacklogL_closed env rest f w1 { t1 with backlog_ := rest } rfl
        (by simp at hf ⊢; omega) h4
      refine ⟨w1, { t1 with backlog_ := [] }, 0, [], sent, ?_, rfl, Nat.zero_le _,
        List.Forall₂.nil, by simp [hem], Or.inr ⟨e, rs, pre, r, by simp, hrs0, h1, h2, ?_, h4, h5,
        h6⟩⟩
      · simp only [EtwLogger.processBacklogL, hb, hopen, ne_eq, not_false_eq_true, if_true,
          hlog, hbl, List.tail_cons]
        exact hclosed
      · simpa using h3

/-- C17, as the code has it: `EtwLogger::poll`.  On a closed sink, a disabled sink, or a
sink with an empty backlog it returns and changes nothing; on an enabled open sink, when no
call of `EventWrite` returns a fatal status (and the chains are acyclic), it returns, the
calls of `EventWrite` it makes are the records of the backlog entries in insertion order,
and the backlog is empty afterwards.  The base `Logger::poll` changes nothing.  On an
enabled open sink with any statuses, `poll` returns and leaves the backlog empty; it
passes to `EventWrite` the records of the first `k` entries in order, and either these are
all the entries and nothing else changes, or the records of the next entry are passed up
to the one whose status is fatal, the sink is left closed, disabled, with a recorded
error, and nothing of the entries after it is passed to `EventWrite`. -/
theorem poll_spec :
    (∀ (env : Env) (w : World) (this : EtwLogger),
      this.h_ = none ∨ this.enabled_ = false ∨ this.backlog_ = [] →
      EtwLogger.poll env w this = some (w, this)) ∧
    (∀ (env : Env) (w : World) (this : EtwLogger), this.h_ ≠ none → this.enabled_ = true →
      (∀ n r, EtwLogger.isTolerated (env.eventWrite n r) = true) →
      (∀ e ∈ this.backlog_, ∃ l, isChain w.hp e.err_ l = true) →
      ∃ recs : List (List EventRecord),
        List.Forall₂ (fun e r => EtwLogger.recordsOf w.hp this.h_ e = some r ∧
          (e.err_ ≠ none → r ≠ [])) this.backlog_ recs ∧
        EtwLogger.poll env w this =
          some ({ w with emitted := w.emitted ++ recs.flatten }, { this with backlog_ := [] })) ∧
    (∀ (σ : Type) (w : World) (this : σ), Logger.poll w this = (w, this)) ∧
    (∀ (env : Env) (w : World) (this : EtwLogger), this.h_ ≠ none → this.enabled_ = true →
      (∀ e ∈ this.backlog_, Acyclic w.hp e.err_) → Acyclic w.hp this.err_ →
      ∃ w1 t1 k recs sent,
        EtwLogger.poll env w this = some (w1, t1) ∧ t1.backlog_ = [] ∧
        k ≤ this.backlog_.length ∧
        List.Forall₂ (fun e r => EtwLogger.recordsOf w.hp this.h_ e = some r ∧
          (e.err_ ≠ none → r ≠ [])) (this.backlog_.take k) recs ∧
        w1.emitted = w.emitted ++ recs.flatten ++ sent ∧
        ((k = this.backlog_.length ∧ sent = [] ∧ t1 = { this with backlog_ := [] } ∧
            w1.hp = w.hp) ∨
          (∃ e rs pre r, this.backlog_[k]? = some e ∧
            EtwLogger.recordsOf w.hp this.h_ e = some rs ∧
            sent <+: rs ∧ sent = pre ++ [r] ∧
            EtwLogger.isTolerated
              (env.eventWrite (w.emitted.length + recs.flatten.length + pre.length) r) = false ∧
            t1.h_ = none ∧ t1.enabled_ = false ∧ t1.err_ ≠ none))) := by
  refine ⟨?_, ?_, fun _ _ _ => rfl, ?_⟩
  · intro env w this h
    by_cases hc : this.h_ = none ∨ this.enabled_ = false
    · simp [EtwLogger.poll, hc]
    · have hb : this.backlog_ = [] := by tauto
      simp only [EtwLogger.poll, hc, if_false, hb, List.length_nil, EtwLogger.processBacklogL]
  · intro env w this hopen hen hok hch
    obtain ⟨recs, hF⟩ := backlog_records_exist w.hp this.h_ this.backlog_ hch
    refine ⟨recs, hF, ?_⟩
    have hc : ¬ (this.h_ = none ∨ this.enabled_ = false) := by
      intro h
      rcases h with h | h
      · exact hopen h
      · rw [hen] at h; cases h
    simp only [EtwLogger.poll, hc, if_false]
    exact processBacklogL_ok env hok this.backlog_ recs _ w this hopen rfl (le_refl _) hF
  · intro env w this hopen hen hall herr
    have hc : ¬ (this.h_ = none ∨ this.enabled_ = false) := by
      intro h
      rcases h with h | h
      · exact hopen h
      · rw [hen] at h; cases h
    obtain ⟨w1, t1, k, recs, sent, hproc, h1, h2, h3, h4, h5⟩ :=
      processBacklogL_cases env this.backlog_ _ w this rfl (le_refl _) hopen hall herr
    refine ⟨w1, t1, k, recs, sent, ?_, h1, h2, h3, h4, h5⟩
    simp only [EtwLogger.poll, hc, if_false]
    exact hproc

/-- Witness of C17 (amended): `poll` on an enabled open logger with two backlog entries
writes the two records in order; on the same logger while disabled it changes nothing;
and when every call of `EventWrite` returns the status 5 it writes the first record only,
closes the sink and leaves the backlog empty. -/
theorem poll_spec_witness :
    (EtwLogger.poll envOk worldFour loggerTwoPending).map
        (fun r => (r.1.emitted.map (fun rec => rec.text), r.2.backlog_)) =
      some (["E Widget:1:0x1: one\n".toList, "E Widget:2:0x2: two\n".toList], []) ∧
    EtwLogger.poll envOk worldFour
        { loggerNew .SV_INFO with backlog_ :=
          [{ err_ := some 0, sev_ := .SV_ERROR, entity_ := none }] } =
      some (worldFour, { loggerNew .SV_INFO with backlog_ :=
          [{ err_ := some 0, sev_ := .SV_ERROR, entity_ := none }] }) ∧
    (EtwLogger.poll envWriteFails worldFour loggerTwoPending).map
        (fun r => (r.1.emitted.map (fun rec => rec.text), r.2.backlog_, r.2.h_,
          r.2.enabled_)) =
      some (["E Widget:1:0x1: one\n".toList], [], none, false) ∧
    ∃ w1 t1 k recs sent,
      EtwLogger.poll envWriteFails worldFour loggerTwoPending = some (w1, t1) ∧
      t1.backlog_ = [] ∧ k ≤ loggerTwoPending.backlog_.length ∧
      List.Forall₂ (fun e r => EtwLogger.recordsOf worldFour.hp loggerTwoPending.h_ e =
        some r ∧ (e.err_ ≠ none → r ≠ [])) (loggerTwoPending.backlog_.take k) recs ∧
      w1.emitted = worldFour.emitted ++ recs.flatten ++ sent ∧
      ((k = loggerTwoPending.backlog_.length ∧ sent = [] ∧
          t1 = { loggerTwoPending with backlog_ := [] } ∧ w1.hp = worldFour.hp) ∨
        (∃ e rs pre r, loggerTwoPending.backlog_[k]? = some e ∧
          EtwLogger.recordsOf worldFour.hp loggerTwoPending.h_ e = some rs ∧
          sent <+: rs ∧ sent = pre ++ [r] ∧
          EtwLogger.isTolerated (envWriteFails.eventWrite
            (worldFour.emitted.length + recs.flatten.length + pre.length) r) = false ∧
          t1.h_ = none ∧ t1.enabled_ = false ∧ t1.err_ ≠ none)) :=
  ⟨by decide, poll_spec.1 envOk worldFour _ (Or.inr (Or.inl rfl)), by decide,
    poll_spec.2.2.2 envWriteFails worldFour loggerTwoPending (by decide) rfl
      (by
        intro e he
        simp only [loggerTwoPending, List.mem_cons, List.mem_singleton, List.not_mem_nil,
          or_false] at he
        rcases he with rfl | rfl
        · exact ⟨[0], by decide⟩
        · exact ⟨[1], by decide⟩)
      ⟨[], rfl⟩⟩

/-- Counterexample to C17 as stated: on an enabled open sink with two backlog entries,
when `EventWrite` returns the fatal status 5, `poll` passes the first entry to `EventWrite`,
closes the sink and drops the second entry without passing it to `EventWrite`. -/
theorem poll_spec_counterexample :
    (EtwLogger.poll envWriteFails worldFour
        { loggerNew .SV_INFO with enabled_ := true, backlog_ :=
          [{ err_ := some 0, sev_ := .SV_ERROR, entity_ := none },
           { err_ := some 1, sev_ := .SV_ERROR, entity_ := none }] }).map
        (fun r => (r.1.emitted.map (fun rec => rec.text), r.2.backlog_, r.2.h_)) =
      some (["E Widget:1:0x1: one\n".toList], [], none) := by
  decide

end ErrorHelpers
